import Mathlib

/-!
Scheduling to maximize cumulative rewards

A shallow embedding of `src/main.cpp` (the slot function `getTimeSlot`, the
bitmask search of `solve`, the schedule replay at the end of `solve` and the
exit status of `main`), followed by theorems about it.

Conventions of the embedding.

* A C++ `int` is a 32-bit two's complement integer. Values are `Int`, and every
  sum and difference the source computes on times and rewards is reduced by
  `wrap` to the range `[-2^31, 2^31)`, the result the compiled program
  produces (`add32`, `sub32`). Division truncates toward zero; a zero divisor
  and the quotient `-2^31 / -1` are faults (`div32`).
* The location count `N`, the loop variable `next_loc` and the entries of a
  path are `Nat` (the source never produces a negative one, and they stay far
  below `2^31`); the last-location component of a key keeps the source's
  sentinel `-1` and is an `Int`.
* A visited mask is a `Nat`, with `&&&`, `|||` and `<<<` for `&`, `|`, `<<`.
* `std::vector` element access is fallible: an index out of range is a `Fault`.
* `std::map<tuple<int,int,int>, State>` is a finite map used only through
  `find` and `operator[]`-assignment; it is a function `Key → Option State`.
* The `while` loop is iterated by a fuel counter; `solve` supplies
  `workBound N N` units and the development proves that this is enough.
* `main` is modelled after the command line and the input file have been
  read. `prunedSearch` is not part of the source: it is the search with the
  Pareto pruning that the specification allows an implementer to add.
* Notions whose name starts with `true` or `True`, and `rewardSum`, are sums
  over the integers without reduction: the elapsed time and the reward a route
  really has, as opposed to what the 32-bit program computes.
-/

namespace Sched

/-! ## The embedding of the program and the notions of the claims -/

/-- The input of the program: `struct ProblemData`. -/
structure ProblemData where
  N : Nat
  T : Int
  S : Int
  rewards : List Int
  travel_time : List (List Int)
  stay_time : List (List Int)

/-- Ways in which the C++ program can leave defined behaviour, plus the
exhaustion of the iteration budget of the embedding. -/
inductive Fault where
  | divisionByZero
  | divisionOverflow
  | indexOutOfRange
  | fuelExhausted
  deriving DecidableEq, Repr

/-- Element access `v[i]` with an `int` index. -/
def at1 {α : Type} (v : List α) (i : Int) : Except Fault α :=
  if 0 ≤ i then
    match v[i.toNat]? with
    | some x => .ok x
    | none => .error .indexOutOfRange
  else .error .indexOutOfRange

/-- Element access `m[i][j]`. -/
def at2 (m : List (List Int)) (i j : Int) : Except Fault Int :=
  match at1 m i with
  | .ok row => at1 row j
  | .error e => .error e

/-- The value a 32-bit `int` holds after a computation whose mathematical
result is `x`: `x` reduced modulo `2^32` to the range `[-2^31, 2^31)`. -/
def wrap (x : Int) : Int :=
  (x + 2147483648) % 4294967296 - 2147483648

/-- The C++ sum `a + b` of two `int` values. -/
def add32 (a b : Int) : Int :=
  wrap (a + b)

/-- The C++ difference `a - b` of two `int` values. -/
def sub32 (a b : Int) : Int :=
  wrap (a - b)

/-- The C++ quotient `a / b` of two `int` values: truncation toward zero; a
zero divisor and the quotient `-2^31 / -1`, which does not fit, are faults. -/
def div32 (a b : Int) : Except Fault Int :=
  if b = 0 then .error .divisionByZero
  else if a = -2147483648 ∧ b = -1 then .error .divisionOverflow
  else .ok (a.tdiv b)

/-- The function `getTimeSlot` of the source (lines 103-108). -/
def getTimeSlot (current_time T S : Int) : Except Fault Int :=
  match div32 (sub32 (add32 T S) 1) S with
  | .error e => .error e
  | .ok slot_duration =>
    match div32 current_time slot_duration with
    | .error e => .error e
    | .ok slot => .ok (min slot (sub32 S 1))

/-- The local `struct State` of `solve`: the value stored under a key. -/
structure State where
  reward : Int
  path : List Nat
  deriving DecidableEq, Repr

/-- The key `(visited_mask, last_location, time)` of the table `dp`. -/
abbrev Key := Nat × Int × Int

/-- The table `dp`. -/
abbrev Table := Key → Option State

/-- The assignment `dp[key] = value`. -/
def Table.store (dp : Table) (key : Key) (value : State) : Table :=
  fun k => if k = key then some value else dp k

/-- The variables of the `while` loop of `solve`. -/
structure Search where
  dp : Table
  best_reward : Int
  best_path : List Nat
  states_to_process : List Key
  process_idx : Nat

/-- The travel time from the place with last-location index `loc` (the depot
when `loc = -1`) to location `next_loc`: lines 187-192 and 236-241. -/
def travelTo (data : ProblemData) (loc : Int) (next_loc : Nat) : Except Fault Int :=
  if loc = -1 then at2 data.travel_time 0 ((next_loc : Int) + 1)
  else at2 data.travel_time (loc + 1) ((next_loc : Int) + 1)

/-- The return time from the place with last-location index `loc` to the
depot: lines 167-172 and 259-264. -/
def returnFrom (data : ProblemData) (loc : Int) : Except Fault Int :=
  if loc = -1 then .ok 0 else at2 data.travel_time (loc + 1) 0

/-- The times the search computes when it extends a state at `(loc, time)` by
`next_loc` (lines 186-200): the pair `(arrival_time, new_time)`. -/
def extendTimes (data : ProblemData) (loc time : Int) (next_loc : Nat) :
    Except Fault (Int × Int) :=
  match travelTo data loc next_loc with
  | .error e => .error e
  | .ok travel =>
    let arrival_time := add32 time travel
    match getTimeSlot arrival_time data.T data.S with
    | .error e => .error e
    | .ok time_slot =>
      match at2 data.stay_time (next_loc : Int) time_slot with
      | .error e => .error e
      | .ok stay => .ok (arrival_time, add32 arrival_time stay)

/-- The test `existing == dp.end() || existing->second.reward < new_reward`. -/
def improves (existing : Option State) (new_reward : Int) : Bool :=
  match existing with
  | none => true
  | some st => decide (st.reward < new_reward)

/-- One iteration of the `for` loop over `next_loc` (lines 183-218), acting on
the table and the worklist. -/
def visit (data : ProblemData) (mask : Nat) (loc time : Int) (current : State)
    (tw : Table × List Key) (next_loc : Nat) : Except Fault (Table × List Key) :=
  if mask &&& (1 <<< next_loc) ≠ 0 then .ok tw
  else
    match extendTimes data loc time next_loc with
    | .error e => .error e
    | .ok (_, new_time) =>
      match at2 data.travel_time ((next_loc : Int) + 1) 0 with
      | .error e => .error e
      | .ok return_from_next =>
        if add32 new_time return_from_next > data.T then .ok tw
        else
          let new_mask := mask ||| (1 <<< next_loc)
          match at1 data.rewards (next_loc : Int) with
          | .error e => .error e
          | .ok r =>
            let new_reward := add32 current.reward r
            let key : Key := (new_mask, (next_loc : Int), new_time)
            if improves (tw.1 key) new_reward then
              .ok (tw.1.store key ⟨new_reward, current.path ++ [next_loc]⟩, tw.2 ++ [key])
            else .ok tw

/-- The `for` loop over the candidate locations, in the given order. -/
def expand (data : ProblemData) (mask : Nat) (loc time : Int) (current : State) :
    List Nat → Table × List Key → Except Fault (Table × List Key)
  | [], tw => .ok tw
  | next_loc :: rest, tw =>
    match visit data mask loc time current tw next_loc with
    | .error e => .error e
    | .ok tw1 => expand data mask loc time current rest tw1

/-- The body of the `while` loop (lines 159-218) for the dequeued key. -/
def process (data : ProblemData) (s : Search) (key : Key) : Except Fault Search :=
  let s1 : Search := { s with process_idx := s.process_idx + 1 }
  match s1.dp key with
  | none => .ok s1
  | some current =>
    match returnFrom data key.2.1 with
    | .error e => .error e
    | .ok return_time =>
      let s2 : Search :=
        if add32 key.2.2 return_time ≤ data.T ∧ current.reward > s1.best_reward then
          { s1 with best_reward := current.reward, best_path := current.path }
        else s1
      match expand data key.1 key.2.1 key.2.2 current (List.range data.N)
          (s2.dp, s2.states_to_process) with
      | .error e => .error e
      | .ok tw => .ok { s2 with dp := tw.1, states_to_process := tw.2 }

/-- The `while` loop (line 158), iterated at most `fuel` times. -/
def loop (data : ProblemData) : Nat → Search → Except Fault Search
  | 0, s =>
    match s.states_to_process[s.process_idx]? with
    | none => .ok s
    | some _ => .error .fuelExhausted
  | fuel + 1, s =>
    match s.states_to_process[s.process_idx]? with
    | none => .ok s
    | some key =>
      match process data s key with
      | .error e => .error e
      | .ok s1 => loop data fuel s1

/-- The variables before the loop (lines 148-157). -/
def initial : Search :=
  { dp := Table.store (fun _ => none) (0, -1, 0) ⟨0, []⟩
    best_reward := 0
    best_path := []
    states_to_process := [(0, -1, 0)]
    process_idx := 0 }

/-- A bound on the number of keys the worklist can hold below a key with `r`
unvisited locations: `1 + N + N^2 + ... + N^r`. -/
def workBound (N : Nat) : Nat → Nat
  | 0 => 1
  | r + 1 => 1 + N * workBound N r

/-- The search of `solve` (lines 148-219), for `N ≤ 20`. -/
def search (data : ProblemData) : Except Fault Search :=
  loop data (workBound data.N data.N) initial

/-- One stop of the detailed schedule, as printed by lines 244 and 251-253. -/
structure Stop where
  location : Nat
  arrival : Int
  departure : Int
  stay : Int
  reward : Int
  cumulative : Int
  deriving DecidableEq, Repr

/-- The variables of the schedule replay (lines 231-233) and the stops printed
so far. -/
structure Replay where
  current_time : Int
  current_loc : Int
  total_reward : Int
  stops : List Stop
  deriving DecidableEq, Repr

/-- The body of the replay loop (lines 236-255). -/
def replayStep (data : ProblemData) (r : Replay) (next_loc : Nat) : Except Fault Replay :=
  match travelTo data r.current_loc next_loc with
  | .error e => .error e
  | .ok travel =>
    let arrived := add32 r.current_time travel
    match getTimeSlot arrived data.T data.S with
    | .error e => .error e
    | .ok time_slot =>
      match at2 data.stay_time (next_loc : Int) time_slot with
      | .error e => .error e
      | .ok stay =>
        match at1 data.rewards (next_loc : Int) with
        | .error e => .error e
        | .ok rew =>
          .ok { current_time := add32 arrived stay
                current_loc := (next_loc : Int)
                total_reward := add32 r.total_reward rew
                stops := r.stops ++
                  [⟨next_loc, arrived, add32 arrived stay, stay, rew,
                    add32 r.total_reward rew⟩] }

/-- The replay loop over a path (line 235). -/
def replayFrom (data : ProblemData) : List Nat → Replay → Except Fault Replay
  | [], r => .ok r
  | next_loc :: rest, r =>
    match replayStep data r next_loc with
    | .error e => .error e
    | .ok r1 => replayFrom data rest r1

/-- The replay of a path from the depot at time 0. -/
def replay (data : ProblemData) (path : List Nat) : Except Fault Replay :=
  replayFrom data path ⟨0, -1, 0, []⟩

/-- What `solve` prints on success: the maximum reward, the route, the stops of
the detailed schedule and the total time used. -/
structure Report where
  best_reward : Int
  best_path : List Nat
  stops : List Stop
  total_reward : Int
  total_time : Int
  deriving DecidableEq, Repr

/-- The total time the program computes for a path: the replay followed by the
return to the depot (lines 259-265). -/
def totalTime (data : ProblemData) (path : List Nat) : Except Fault Int :=
  match replay data path with
  | .error e => .error e
  | .ok r =>
    match returnFrom data r.current_loc with
    | .error e => .error e
    | .ok return_travel => .ok (add32 r.current_time return_travel)

/-- The result of a call of `solve`: the capacity message of lines 138-141, or
the printed report. -/
inductive Outcome where
  | tooLarge
  | printed (report : Report)
  deriving DecidableEq, Repr

/-- The function `solve` (lines 124-268). -/
def solve (data : ProblemData) : Except Fault Outcome :=
  if data.N > 20 then .ok .tooLarge
  else
    match search data with
    | .error e => .error e
    | .ok s =>
      match replay data s.best_path with
      | .error e => .error e
      | .ok r =>
        match returnFrom data r.current_loc with
        | .error e => .error e
        | .ok return_travel =>
          .ok (.printed ⟨s.best_reward, s.best_path, r.stops, r.total_reward,
            add32 r.current_time return_travel⟩)

/-- The function `main` (lines 270-288) after the command line and the input
file have been read: `argc` is the argument count and `input` is the instance
`readInputFile` produced, or `none` when it returned `false`. The result is the
exit status together with what `solve` did, if it was called. -/
def main (argc : Int) (input : Option ProblemData) : Except Fault (Int × Option Outcome) :=
  if argc ≠ 2 then .ok (1, none)
  else
    match input with
    | none => .ok (1, none)
    | some data =>
      match solve data with
      | .error e => .error e
      | .ok out => .ok (0, some out)

/-- The canonical fixture of the specification. -/
def fixture : ProblemData :=
  { N := 2, T := 100, S := 1, rewards := [10, 20]
    travel_time := [[0, 10, 10], [10, 0, 5], [10, 5, 0]]
    stay_time := [[5], [5]] }

/-- An instance with one location and a time limit of 0. -/
def noTime : ProblemData :=
  { N := 1, T := 0, S := 1, rewards := [5]
    travel_time := [[0, 0], [0, 0]]
    stay_time := [[0]] }

/-- An instance with 21 locations, all matrices populated. -/
def crowded : ProblemData :=
  { N := 21, T := 100, S := 1, rewards := List.replicate 21 1
    travel_time := List.replicate 22 (List.replicate 22 1)
    stay_time := List.replicate 21 [1] }

/-- An instance whose rewards are all non-positive. -/
def lossy : ProblemData :=
  { N := 2, T := 100, S := 2, rewards := [-3, 0]
    travel_time := [[0, 10, 10], [10, 0, 5], [10, 5, 0]]
    stay_time := [[5, 6], [5, 7]] }

/-- A second instance with two slots, for the witnesses. -/
def twoSlots : ProblemData :=
  { N := 2, T := 40, S := 2, rewards := [7, 4]
    travel_time := [[0, 3, 4], [3, 0, 2], [4, 2, 0]]
    stay_time := [[5, 9], [6, 1]] }

/-- An instance on which the direct return from location 0 takes longer than
the whole time limit although a detour through location 1 is short. -/
def detour : ProblemData :=
  { N := 2, T := 10, S := 1, rewards := [5, 1]
    travel_time := [[0, 1, 1], [100, 0, 1], [1, 1, 0]]
    stay_time := [[0], [0]] }

/-- An instance whose two rewards add up to more than a 32-bit `int` holds. -/
def richPair : ProblemData :=
  { N := 2, T := 100, S := 1, rewards := [2000000000, 2000000000]
    travel_time := [[0, 1, 1], [1, 0, 1], [1, 1, 0]]
    stay_time := [[0], [0]] }

/-- An instance whose two rewards add up to less than a 32-bit `int` holds. -/
def poorPair : ProblemData :=
  { N := 2, T := 100, S := 1, rewards := [-2000000000, -2000000000]
    travel_time := [[0, 1, 1], [1, 0, 1], [1, 1, 0]]
    stay_time := [[0], [0]] }

/-- An instance whose only location is far away and asks for a stay so long
that the 32-bit departure time wraps around. -/
def lateStop : ProblemData :=
  { N := 1, T := 10, S := 1, rewards := [5]
    travel_time := [[0, 2000000000], [0, 0]]
    stay_time := [[2147483647]] }

/-- A valid instance: at most 20 locations, a positive time limit, at least
one slot, vectors of the declared sizes, non-negative travel and stay times. -/
def Valid (data : ProblemData) : Prop :=
  data.N ≤ 20 ∧ 1 ≤ data.T ∧ 1 ≤ data.S ∧
  data.rewards.length = data.N ∧
  data.travel_time.length = data.N + 1 ∧
  (∀ row ∈ data.travel_time, row.length = data.N + 1 ∧ ∀ v ∈ row, (0 : Int) ≤ v) ∧
  data.stay_time.length = data.N ∧
  (∀ row ∈ data.stay_time, (row.length : Int) = data.S ∧ ∀ v ∈ row, (0 : Int) ≤ v)

instance (data : ProblemData) : Decidable (Valid data) :=
  inferInstanceAs (Decidable (_ ∧ _))

/-- The instances of the data model with a time limit that may be 0: between 1
and 20 locations, `T ≥ 0`, `S ≥ 1`, fully populated matrices, non-negative
travel and stay times. -/
def Populated (data : ProblemData) : Prop :=
  1 ≤ data.N ∧ data.N ≤ 20 ∧ 0 ≤ data.T ∧ 1 ≤ data.S ∧
  data.rewards.length = data.N ∧
  data.travel_time.length = data.N + 1 ∧
  (∀ row ∈ data.travel_time, row.length = data.N + 1 ∧ ∀ v ∈ row, (0 : Int) ≤ v) ∧
  data.stay_time.length = data.N ∧
  (∀ row ∈ data.stay_time, (row.length : Int) = data.S ∧ ∀ v ∈ row, (0 : Int) ≤ v)

instance (data : ProblemData) : Decidable (Populated data) :=
  inferInstanceAs (Decidable (_ ∧ _))

/-- No sum of times the program computes on the instance can leave the range
of a 32-bit `int`: `T + S - 1` fits, and the time limit plus any two travel
times plus any stay time fits. -/
def TimesFit (data : ProblemData) : Prop :=
  data.T + data.S ≤ 2147483648 ∧
  ∀ row ∈ data.travel_time, ∀ a ∈ row, ∀ row' ∈ data.travel_time, ∀ b ∈ row',
    ∀ srow ∈ data.stay_time, ∀ c ∈ srow, data.T + a + b + c ≤ 2147483647

instance (data : ProblemData) : Decidable (TimesFit data) :=
  inferInstanceAs (Decidable (_ ∧ _))

/-- No sum of rewards of distinct locations can leave the range of a 32-bit
`int`: the absolute values of the rewards add up to a value that fits. -/
def RewardsFit (data : ProblemData) : Prop :=
  (((data.rewards.map Int.natAbs).sum : Nat) : Int) ≤ 2147483647

instance (data : ProblemData) : Decidable (RewardsFit data) :=
  inferInstanceAs (Decidable (_ ≤ _))

/-- No sum the program computes on the instance can leave the range of a
32-bit `int`. -/
def Small (data : ProblemData) : Prop :=
  TimesFit data ∧ RewardsFit data

instance (data : ProblemData) : Decidable (Small data) :=
  inferInstanceAs (Decidable (_ ∧ _))

/-- The last-location component of a key is the sentinel or a location. -/
def LocOK (data : ProblemData) (loc : Int) : Prop :=
  loc = -1 ∨ (0 ≤ loc ∧ loc < data.N)

/-- The visited mask of a path: one bit per location of the path. -/
def maskOf (p : List Nat) : Nat :=
  p.foldl (fun m x => m ||| (1 <<< x)) 0

/-- Every location of the path is one of the `N` locations. -/
def InRange (data : ProblemData) (p : List Nat) : Prop :=
  ∀ x ∈ p, x < data.N

instance (data : ProblemData) (p : List Nat) : Decidable (InRange data p) :=
  inferInstanceAs (Decidable (∀ x ∈ p, x < data.N))

/-- The sum of the rewards of the locations of a path, over the integers. -/
def rewardSum (data : ProblemData) (p : List Nat) : Int :=
  (p.map (fun i => data.rewards.getD i 0)).sum

/-- The replay of `p` by the program, from the depot, ends at `loc` at time
`time` with cumulative reward `reward` (all three as the program computes
them). -/
def Reach (data : ProblemData) (p : List Nat) (loc time reward : Int) : Prop :=
  ∃ r, replay data p = .ok r ∧ r.current_loc = loc ∧ r.current_time = time ∧
    r.total_reward = reward

/-- The path passes the completion check of the program: the total time it
computes for the path, replay and direct return, is within the time limit. -/
def Completes (data : ProblemData) (p : List Nat) : Prop :=
  ∃ t, totalTime data p = .ok t ∧ t ≤ data.T

/-- Every non-empty prefix of the path passes the feasibility gate of the
search, as the program computes it. -/
def Gated (data : ProblemData) (p : List Nat) : Prop :=
  ∀ q x, q ++ [x] <+: p → Completes data (q ++ [x])

/-- A route the search can reach: distinct locations of the instance, every
non-empty prefix passing the gate of the program. -/
def Explorable (data : ProblemData) (p : List Nat) : Prop :=
  p.Nodup ∧ InRange data p ∧ Gated data p

/-- The gate test of the search for the extension of `(loc, time)` by `x`,
with departure time `d`. -/
def GateOpen (data : ProblemData) (loc time : Int) (x : Nat) (d : Int) : Prop :=
  ∃ a ret, extendTimes data loc time x = .ok (a, d) ∧
    returnFrom data (x : Int) = .ok ret ∧ add32 d ret ≤ data.T

/-- The record stored under a key describes a route the search reached: the
key is the mask, last location and departure time of the stored path, and the
stored reward is the cumulative reward of its replay. -/
def EntryOK (data : ProblemData) (k : Key) (st : State) : Prop :=
  Explorable data st.path ∧ k.1 = maskOf st.path ∧ Reach data st.path k.2.1 k.2.2 st.reward

/-- The table and the worklist agree: every record is sound, every stored key
is on the worklist and every key of the worklist is stored. -/
structure TableInv (data : ProblemData) (dp : Table) (wl : List Key) : Prop where
  entries : ∀ k st, dp k = some st → EntryOK data k st
  queued : ∀ k st, dp k = some st → k ∈ wl
  stored : ∀ k, k ∈ wl → ∃ st, dp k = some st
  chain : ∀ k st, dp k = some st → ∀ q x, st.path = q ++ [x] →
    ∃ k0 st0 a, dp k0 = some st0 ∧ st0.path = q ∧
      extendTimes data k0.2.1 k0.2.2 x = .ok (a, k.2.2) ∧
      k.1 = k0.1 ||| (1 <<< x) ∧ k.2.1 = (x : Int)

/-- The stops of the replay of a stored path agree with the extensions of the
search: stop `i` was computed by the search when it extended the record whose
path is the first `i` locations. -/
def StopsMatch (data : ProblemData) (dp : Table) (path : List Nat) (stops : List Stop) : Prop :=
  stops.length = path.length ∧
  ∀ i, i < path.length → ∃ k0 st0 x stop, dp k0 = some st0 ∧ st0.path = path.take i ∧
    path[i]? = some x ∧ stops[i]? = some stop ∧ stop.location = x ∧
    extendTimes data k0.2.1 k0.2.2 x = .ok (stop.arrival, stop.departure) ∧
    ∃ st1, dp (k0.1 ||| (1 <<< x), (x : Int), stop.departure) = some st1 ∧
      st1.path = path.take (i + 1)

/-- The number of bits set in the low `fuel` positions of `m`. -/
def popcountLow : Nat → Nat → Nat
  | 0, _ => 0
  | fuel + 1, m => if m = 0 then 0 else m % 2 + popcountLow fuel (m / 2)

/-- The number of bits set in a mask. A number `m` has no bit set at position
`m` or above, so `m` positions are enough. -/
def popcount (m : Nat) : Nat :=
  popcountLow m m

/-- The last location of a path as a last-location index: the sentinel `-1`
for the empty path. -/
def lastLoc (p : List Nat) : Int :=
  match p.getLast? with
  | some x => (x : Int)
  | none => -1

/-- The key the search uses for a route: its mask, and the last location and
departure time of its replay. -/
def IsKey (data : ProblemData) (p : List Nat) (k : Key) : Prop :=
  k.1 = maskOf p ∧ ∃ w, Reach data p k.2.1 k.2.2 w

/-- The invariant of the `while` loop of `solve`. -/
structure Inv (data : ProblemData) (s : Search) : Prop where
  table : TableInv data s.dp s.states_to_process
  idx_le : s.process_idx ≤ s.states_to_process.length
  root : ((0, -1, 0) : Key) ∈ s.states_to_process
  best_ok : Explorable data s.best_path ∧ ∃ loc t, Reach data s.best_path loc t s.best_reward
  best_src : (s.best_reward = 0 ∧ s.best_path = []) ∨ 0 < s.best_reward
  done_best : ∀ k, k ∈ s.states_to_process.take s.process_idx → ∀ p w, Explorable data p →
    Completes data p → k.1 = maskOf p → Reach data p k.2.1 k.2.2 w → w ≤ s.best_reward
  done_next : ∀ k, k ∈ s.states_to_process.take s.process_idx → ∀ x, x < data.N →
    k.1.testBit x = false → ∀ d, GateOpen data k.2.1 k.2.2 x d →
    (k.1 ||| (1 <<< x), (x : Int), d) ∈ s.states_to_process
  done_ok : ∀ k, k ∈ s.states_to_process.take s.process_idx →
    (∃ ret, returnFrom data k.2.1 = .ok ret) ∧
    ∀ x, x < data.N → k.1.testBit x = false →
      ∃ a d ret, extendTimes data k.2.1 k.2.2 x = .ok (a, d) ∧
        at2 data.travel_time ((x : Int) + 1) 0 = .ok ret ∧
        (add32 d ret ≤ data.T → ∃ v, at1 data.rewards (x : Int) = .ok v)

/-- The states of the `while` loop of `solve`: the state before the loop, and
every state an iteration produces from one of them. -/
inductive Reachable (data : ProblemData) : Search → Prop where
  | start : Reachable data initial
  | step {s s' : Search} {key : Key} : Reachable data s →
      s.states_to_process[s.process_idx]? = some key →
      process data s key = .ok s' → Reachable data s'

/-- The number of locations of the instance whose bit is not set in the mask. -/
def unvisited (N mask : Nat) : Nat :=
  ((Finset.range N).filter (fun i => mask.testBit i = false)).card

/-- The work still to do: every pending key counts for the size of the largest
tree of keys that can grow below it. -/
def pending (data : ProblemData) (s : Search) : Nat :=
  ((s.states_to_process.drop s.process_idx).map
    (fun k => workBound data.N (unvisited data.N k.1))).sum

/-- The program meets no fault on the routes it can reach: from the end of
every such route the return time is defined, and for every location not yet on
the route the times of the extension and the return time of the gate are
defined, and so is the reward when the gate lets the extension pass. -/
def NoFault (data : ProblemData) : Prop :=
  ∀ p loc time w, Explorable data p → Reach data p loc time w →
    (∃ ret, returnFrom data loc = .ok ret) ∧
    ∀ x, x < data.N → (maskOf p).testBit x = false →
      ∃ a d ret, extendTimes data loc time x = .ok (a, d) ∧
        at2 data.travel_time ((x : Int) + 1) 0 = .ok ret ∧
        (add32 d ret ≤ data.T → ∃ v, at1 data.rewards (x : Int) = .ok v)

/-- The entry `travel_time[i][j]`, or 0 where the matrix has no such entry. -/
def travelD (data : ProblemData) (i j : Nat) : Int :=
  (data.travel_time.getD i []).getD j 0

/-- The entry `stay_time[x][slot]`, or 0 where the matrix has no such entry. -/
def stayD (data : ProblemData) (x slot : Nat) : Int :=
  (data.stay_time.getD x []).getD slot 0

/-- The slot of a time as the specification defines it, over the integers: the
quotient, rounded down, of the time by the slot duration `⌈T / S⌉`, capped at
`S - 1`. -/
def trueSlot (data : ProblemData) (t : Int) : Int :=
  min (t / ((data.T + data.S - 1) / data.S)) (data.S - 1)

/-- One stop of a route, over the integers: from the place with row `st.1` of
the travel matrix at time `st.2`, travel to location `x` and stay there for
the time of the slot of the arrival. The result is the row of `x` and the
departure time. -/
def trueStep (data : ProblemData) (st : Nat × Int) (x : Nat) : Nat × Int :=
  (x + 1, st.2 + travelD data st.1 (x + 1) +
    stayD data x (trueSlot data (st.2 + travelD data st.1 (x + 1))).toNat)

/-- The row of the last place of a route and the time of departure from it,
over the integers, starting from the depot at time 0. -/
def trueEnd (data : ProblemData) (p : List Nat) : Nat × Int :=
  p.foldl (trueStep data) (0, 0)

/-- The time of the direct return to the depot from the place with the given
row of the travel matrix: nothing from the depot itself (row 0). -/
def trueReturn (data : ProblemData) : Nat → Int
  | 0 => 0
  | r + 1 => travelD data (r + 1) 0

/-- The total elapsed time of a route over the integers: travel and stay at
each stop, and the direct return to the depot. -/
def trueTotal (data : ProblemData) (p : List Nat) : Int :=
  (trueEnd data p).2 + trueReturn data (trueEnd data p).1

/-- A feasible route: distinct locations of the instance, with a total elapsed
time within the time limit. -/
def Feasible (data : ProblemData) (p : List Nat) : Prop :=
  p.Nodup ∧ InRange data p ∧ trueTotal data p ≤ data.T

instance (data : ProblemData) (p : List Nat) : Decidable (Feasible data p) :=
  inferInstanceAs (Decidable (_ ∧ _))

/-- A route every non-empty prefix of which passes the feasibility gate, over
the integers: distinct locations of the instance such that after each stop the
direct return to the depot ends within the time limit. -/
def TrueExplorable (data : ProblemData) (p : List Nat) : Prop :=
  p.Nodup ∧ InRange data p ∧ ∀ n, n < p.length → trueTotal data (p.take (n + 1)) ≤ data.T

instance (data : ProblemData) (p : List Nat) : Decidable (TrueExplorable data p) :=
  inferInstanceAs (Decidable (_ ∧ _ ∧ ∀ n, n < p.length → _))

/-- The direct return to the depot is never longer than a detour through
another location: `travel_time[a+1][0] ≤ travel_time[a+1][b+1] + travel_time[b+1][0]`
for all locations `a` and `b`. -/
def DirectReturn (data : ProblemData) : Prop :=
  ∀ a, a < data.N → ∀ b, b < data.N →
    travelD data (a + 1) 0 ≤ travelD data (a + 1) (b + 1) + travelD data (b + 1) 0

instance (data : ProblemData) : Decidable (DirectReturn data) :=
  inferInstanceAs (Decidable (∀ a, a < data.N → _))

/-- The final state of the search on the canonical fixture. -/
def fixtureSearch : Search :=
  match search fixture with
  | .ok s => s
  | .error _ => initial

/-- The final state of the search on `lateStop`. -/
def lateStopSearch : Search :=
  match search lateStop with
  | .ok s => s
  | .error _ => initial

/-- The final state of the search on `richPair`. -/
def richPairSearch : Search :=
  match search richPair with
  | .ok s => s
  | .error _ => initial

/-- The sum of the rewards of the locations whose bit is set in the mask, over
the integers. -/
def maskReward (data : ProblemData) (mask : Nat) : Int :=
  (((List.range data.N).filter (fun i => mask.testBit i)).map
    (fun i => data.rewards.getD i 0)).sum

/-- A valid instance with two slots whose slot duration the program cannot
compute: `T + S - 1` does not fit in a 32-bit `int`. -/
def wideSlots : ProblemData :=
  { N := 1, T := 2147483647, S := 2, rewards := [1]
    travel_time := [[0, 2000000000], [0, 0]]
    stay_time := [[0, 0]] }

/-- The index, in the original travel matrix, of row or column `a` of the
relabeled one: the depot stays at 0 and the location labeled `j` is the
original location `perm[j]`. -/
def oldIndex (perm : List Nat) (a : Nat) : Nat :=
  match a with
  | 0 => 0
  | j + 1 => perm.getD j 0 + 1

/-- The instance with its locations relabeled: the location that `data` calls
`perm[j]` is called `j`. Rewards, rows and columns `1..N` of the travel matrix
and rows of the stay matrix move together; the depot is fixed. When `perm` is
a permutation of `[0, N)` this is the relabeling by the permutation that sends
`perm[j]` to `j`, and every permutation of the labels arises this way. -/
def relabel (data : ProblemData) (perm : List Nat) : ProblemData :=
  { N := data.N, T := data.T, S := data.S
    rewards := (List.range data.N).map (fun j => data.rewards.getD (perm.getD j 0) 0)
    travel_time := (List.range (data.N + 1)).map (fun a =>
      (List.range (data.N + 1)).map (fun b =>
        travelD data (oldIndex perm a) (oldIndex perm b)))
    stay_time := (List.range data.N).map (fun j => data.stay_time.getD (perm.getD j 0) []) }

/-- The original last-location index of a relabeled one; the sentinel is kept. -/
def oldLoc (perm : List Nat) (loc : Int) : Int :=
  if loc = -1 then -1 else ((perm.getD loc.toNat 0 : Nat) : Int)

/-- The state the search generates when it extends `current`, stored under
`(mask, loc, time)`, by `next_loc`: the new key and the new reward, when the
location is unvisited, no access faults and the feasibility gate is passed
(lines 184-209). -/
def candidate (data : ProblemData) (mask : Nat) (loc time : Int) (current : State)
    (next_loc : Nat) : Option (Key × Int) :=
  if mask &&& (1 <<< next_loc) ≠ 0 then none
  else
    match extendTimes data loc time next_loc,
        at2 data.travel_time ((next_loc : Int) + 1) 0, at1 data.rewards (next_loc : Int) with
    | .ok (_, new_time), .ok return_from_next, .ok r =>
      if add32 new_time return_from_next > data.T then none
      else some ((mask ||| (1 <<< next_loc), (next_loc : Int), new_time),
        add32 current.reward r)
    | _, _, _ => none

/-- The Pareto test in the words of the specification: some retained state
with the same mask and last location has a reward that is greater or equal and
a time that is less or equal. The retained states are the records of the keys
of the worklist. -/
def dominated (tw : Table × List Key) (key : Key) (new_reward : Int) : Bool :=
  tw.2.any (fun k =>
    decide (k.1 = key.1) && decide (k.2.1 = key.2.1) && decide (k.2.2 ≤ key.2.2) &&
      match tw.1 k with
      | some st => decide (new_reward ≤ st.reward)
      | none => false)

/-- One iteration of the candidate loop with Pareto pruning added, in the words
of the specification: a newly generated state that is dominated is dropped;
everything else is as in `visit`. -/
def prunedVisit (data : ProblemData) (mask : Nat) (loc time : Int) (current : State)
    (tw : Table × List Key) (next_loc : Nat) : Except Fault (Table × List Key) :=
  match candidate data mask loc time current next_loc with
  | some (key, new_reward) =>
    if dominated tw key new_reward then .ok tw
    else visit data mask loc time current tw next_loc
  | none => visit data mask loc time current tw next_loc

/-- The candidate loop of the pruned search. -/
def prunedExpand (data : ProblemData) (mask : Nat) (loc time : Int) (current : State) :
    List Nat → Table × List Key → Except Fault (Table × List Key)
  | [], tw => .ok tw
  | next_loc :: rest, tw =>
    match prunedVisit data mask loc time current tw next_loc with
    | .error e => .error e
    | .ok tw1 => prunedExpand data mask loc time current rest tw1

/-- The body of the loop of the pruned search: as `process`, with the pruned
candidate loop. -/
def prunedProcess (data : ProblemData) (s : Search) (key : Key) : Except Fault Search :=
  let s1 : Search := { s with process_idx := s.process_idx + 1 }
  match s1.dp key with
  | none => .ok s1
  | some current =>
    match returnFrom data key.2.1 with
    | .error e => .error e
    | .ok return_time =>
      let s2 : Search :=
        if add32 key.2.2 return_time ≤ data.T ∧ current.reward > s1.best_reward then
          { s1 with best_reward := current.reward, best_path := current.path }
        else s1
      match prunedExpand data key.1 key.2.1 key.2.2 current (List.range data.N)
          (s2.dp, s2.states_to_process) with
      | .error e => .error e
      | .ok tw => .ok { s2 with dp := tw.1, states_to_process := tw.2 }

/-- The loop of the pruned search, iterated at most `fuel` times. -/
def prunedLoop (data : ProblemData) : Nat → Search → Except Fault Search
  | 0, s =>
    match s.states_to_process[s.process_idx]? with
    | none => .ok s
    | some _ => .error .fuelExhausted
  | fuel + 1, s =>
    match s.states_to_process[s.process_idx]? with
    | none => .ok s
    | some key =>
      match prunedProcess data s key with
      | .error e => .error e
      | .ok s1 => prunedLoop data fuel s1

/-- The search of `solve` with Pareto pruning added. -/
def prunedSearch (data : ProblemData) : Except Fault Search :=
  prunedLoop data (workBound data.N data.N) initial

/-- An instance on which arriving later at location 2 pays: location 3 is
reached from location 2 only, and its stay is long in slot 0 and empty in
slot 1. -/
def slotTrap : ProblemData :=
  { N := 4, T := 100, S := 2, rewards := [1, 1, 1, 10]
    travel_time := [[0, 1, 20, 1, 1000], [1, 0, 1, 1, 1000], [1, 20, 0, 1, 1000],
      [1, 1, 1, 0, 10], [1, 1000, 1000, 1000, 0]]
    stay_time := [[0, 0], [0, 0], [0, 0], [1000, 0]] }

/-- The invariant of the loop of the pruned search: the table and the worklist
agree, the best record is a reachable route, and for every processed key the
best reward covers every route with its mask and every open extension is
covered by a key of the worklist that is at least as early. -/
structure PrunedInv (data : ProblemData) (s : Search) : Prop where
  table : TableInv data s.dp s.states_to_process
  idx_le : s.process_idx ≤ s.states_to_process.length
  root : ((0, -1, 0) : Key) ∈ s.states_to_process
  best_ok : Explorable data s.best_path ∧ s.best_reward = wrap (rewardSum data s.best_path)
  done_best : ∀ k, k ∈ s.states_to_process.take s.process_idx → ∀ p, Explorable data p →
    maskOf p = k.1 → wrap (rewardSum data p) ≤ s.best_reward
  done_next : ∀ k, k ∈ s.states_to_process.take s.process_idx → ∀ x, x < data.N →
    k.1.testBit x = false → ∀ d, GateOpen data k.2.1 k.2.2 x d →
    ∃ k', k' ∈ s.states_to_process ∧ k'.1 = k.1 ||| (1 <<< x) ∧ k'.2.1 = (x : Int) ∧
      k'.2.2 ≤ d

/-- The stay time of every location does not decrease from one slot to the
next: the rows of the stay matrix are non-decreasing. -/
def StayMonotone (data : ProblemData) : Prop :=
  ∀ row ∈ data.stay_time, row.Pairwise (fun a b => a ≤ b)

instance (data : ProblemData) : Decidable (StayMonotone data) :=
  inferInstanceAs (Decidable (∀ row ∈ data.stay_time, _))

/-- The final state of the pruned search on `slotTrap`. -/
def slotTrapPruned : Search :=
  match prunedSearch slotTrap with
  | .ok s => s
  | .error _ => initial

/-- An instance with three locations and two slots, stays that grow from the
first slot to the second, and several routes that reach the same set of
locations at different times. -/
def risingStays : ProblemData :=
  { N := 3, T := 30, S := 2, rewards := [4, 6, 5]
    travel_time := [[0, 2, 9, 4], [2, 0, 3, 7], [9, 3, 0, 1], [4, 7, 1, 0]]
    stay_time := [[1, 2], [2, 2], [3, 5]] }

/-- An instance with one slot and no stays on which only a late arrival at
location 3 passes the gate: the return from location 3 takes 2147483600, and
the 32-bit sum of a departure time above 46 and that return wraps around to a
negative number. The leg from location 1 to location 0 takes 1000000000. -/
def wrapTrap : ProblemData :=
  { N := 4, T := 1500000000, S := 1, rewards := [1, 1, 1, 10]
    travel_time := [[0, 1, 1, 1, 1], [0, 0, 1, 1, 1], [0, 1000000000, 0, 1, 1],
      [0, 1, 1, 0, 1], [2147483600, 1000000000, 1000000000, 1000000000, 0]]
    stay_time := [[0], [0], [0], [0]] }

/-- The final state of the pruned search on `wrapTrap`. -/
def wrapTrapPruned : Search :=
  match prunedSearch wrapTrap with
  | .ok s => s
  | .error _ => initial

/-! ## 32-bit arithmetic -/

theorem wrap_eq {x : Int} (h1 : -2147483648 ≤ x) (h2 : x ≤ 2147483647) : wrap x = x := by
  unfold wrap; omega

theorem wrap_range (x : Int) : -2147483648 ≤ wrap x ∧ wrap x ≤ 2147483647 := by
  unfold wrap; omega

theorem wrap_add_wrap (a b : Int) : wrap (wrap a + b) = wrap (a + b) := by
  unfold wrap; omega

theorem add32_eq {a b : Int} (h1 : -2147483648 ≤ a + b) (h2 : a + b ≤ 2147483647) :
    add32 a b = a + b :=
  wrap_eq h1 h2

theorem sub32_eq {a b : Int} (h1 : -2147483648 ≤ a - b) (h2 : a - b ≤ 2147483647) :
    sub32 a b = a - b :=
  wrap_eq h1 h2

theorem div32_pos {a b : Int} (hb : 1 ≤ b) : div32 a b = .ok (a.tdiv b) := by
  have h0 : ¬ b = 0 := by omega
  have h1 : ¬ (a = -2147483648 ∧ b = -1) := by omega
  simp [div32, h0, h1]

/-! ## Vector access -/

theorem at1_ok {α : Type} (v : List α) (i : Int) (h0 : 0 ≤ i) (h1 : i < v.length) :
    ∃ x, at1 v i = .ok x ∧ x ∈ v := by
  have hlt : i.toNat < v.length := by omega
  refine ⟨v[i.toNat], ?_, List.getElem_mem hlt⟩
  simp [at1, h0, List.getElem?_eq_getElem hlt]

theorem at2_ok (m : List (List Int)) (i j : Int) (c : Int) (h0 : 0 ≤ i) (h1 : i < m.length)
    (hrow : ∀ row ∈ m, (row.length : Int) = c ∧ ∀ v ∈ row, (0 : Int) ≤ v)
    (hj0 : 0 ≤ j) (hj1 : j < c) :
    ∃ x, at2 m i j = .ok x ∧ 0 ≤ x := by
  obtain ⟨row, hrow_eq, hmem⟩ := at1_ok m i h0 h1
  obtain ⟨hlen, hnn⟩ := hrow row hmem
  obtain ⟨x, hx, hxmem⟩ := at1_ok row j hj0 (by omega)
  exact ⟨x, by simp [at2, hrow_eq, hx], hnn x hxmem⟩

theorem travel_ok {data : ProblemData} (hv : Valid data) (i j : Int)
    (hi0 : 0 ≤ i) (hi1 : i ≤ data.N) (hj0 : 0 ≤ j) (hj1 : j ≤ data.N) :
    ∃ x, at2 data.travel_time i j = .ok x ∧ 0 ≤ x := by
  obtain ⟨-, -, -, -, hrows, hcols, -, -⟩ := hv
  refine at2_ok data.travel_time i j ((data.N : Int) + 1) hi0 (by rw [hrows]; push_cast; omega)
    ?_ hj0 (by omega)
  intro row hrow
  obtain ⟨h1, h2⟩ := hcols row hrow
  exact ⟨by rw [h1]; push_cast; rfl, h2⟩

theorem travelTo_ok {data : ProblemData} (hv : Valid data) {loc : Int} (hloc : LocOK data loc)
    {x : Nat} (hx : x < data.N) :
    ∃ v, travelTo data loc x = .ok v ∧ 0 ≤ v := by
  unfold travelTo
  rcases hloc with h | ⟨h0, h1⟩
  · subst h
    simpa using travel_ok hv 0 ((x : Int) + 1) (by omega) (by omega) (by omega) (by omega)
  · have hne : loc ≠ -1 := by omega
    simpa [hne] using travel_ok hv (loc + 1) ((x : Int) + 1) (by omega) (by omega) (by omega)
      (by omega)

theorem returnFrom_ok {data : ProblemData} (hv : Valid data) {loc : Int} (hloc : LocOK data loc) :
    ∃ v, returnFrom data loc = .ok v ∧ 0 ≤ v := by
  unfold returnFrom
  rcases hloc with h | ⟨h0, h1⟩
  · subst h; exact ⟨0, by simp, le_refl _⟩
  · have hne : loc ≠ -1 := by omega
    simpa [hne] using travel_ok hv (loc + 1) 0 (by omega) (by omega) (by omega) (by omega)

theorem returnFrom_loc {data : ProblemData} (x : Nat) :
    returnFrom data (x : Int) = at2 data.travel_time ((x : Int) + 1) 0 := by
  unfold returnFrom
  have hne : (x : Int) ≠ -1 := by omega
  simp [hne]

/-! ## The slot function -/

theorem slotDuration_pos {T S : Int} (hT : 1 ≤ T) (hS : 1 ≤ S) : 0 < (T + S - 1).tdiv S := by
  have hnum : 0 ≤ T + S - 1 := by omega
  rw [Int.tdiv_eq_ediv hnum (by omega)]
  have : 1 ≤ (T + S - 1) / S := Int.le_ediv_of_mul_le (by omega) (by omega)
  omega

/-- When `T + S - 1` fits in an `int` the slot is the clamped quotient of the
time by the slot duration. -/
theorem getTimeSlot_eq {time T S : Int} (hT : 1 ≤ T) (hS : 1 ≤ S)
    (hfit : T + S ≤ 2147483648) :
    getTimeSlot time T S = .ok (min (time.tdiv ((T + S - 1).tdiv S)) (S - 1)) := by
  have h1 : sub32 (add32 T S) 1 = T + S - 1 := by
    unfold sub32 add32 wrap; omega
  have h2 : sub32 S 1 = S - 1 := by
    unfold sub32 wrap; omega
  have hd := slotDuration_pos hT hS
  unfold getTimeSlot
  rw [h1, div32_pos hS]
  simp only
  rw [div32_pos (by omega), h2]

theorem getTimeSlot_ok {time T S : Int} (ht : 0 ≤ time) (hT : 1 ≤ T) (hS : 1 ≤ S)
    (hfit : T + S ≤ 2147483648) :
    ∃ slot, getTimeSlot time T S = .ok slot ∧ 0 ≤ slot ∧ slot < S := by
  refine ⟨_, getTimeSlot_eq hT hS hfit, ?_, ?_⟩
  · have h1 : 0 ≤ time.tdiv ((T + S - 1).tdiv S) :=
      Int.tdiv_nonneg ht (le_of_lt (slotDuration_pos hT hS))
    exact le_min h1 (by omega)
  · have := min_le_right (time.tdiv ((T + S - 1).tdiv S)) (S - 1)
    omega

theorem slot_le_of_le {t1 t2 T S : Int} (hT : 1 ≤ T) (hS : 1 ≤ S)
    (hfit : T + S ≤ 2147483648) (h0 : 0 ≤ t1) (h12 : t1 ≤ t2) :
    ∃ s1 s2, getTimeSlot t1 T S = .ok s1 ∧ getTimeSlot t2 T S = .ok s2 ∧ s1 ≤ s2 := by
  refine ⟨_, _, getTimeSlot_eq hT hS hfit, getTimeSlot_eq hT hS hfit, ?_⟩
  have hd := slotDuration_pos hT hS
  rw [Int.tdiv_eq_ediv h0 (le_of_lt hd), Int.tdiv_eq_ediv (le_trans h0 h12) (le_of_lt hd)]
  exact min_le_min (Int.ediv_le_ediv hd h12) (le_refl _)

/-! ## Masks -/

theorem maskOf_nil : maskOf [] = 0 := rfl

theorem maskOf_snoc (p : List Nat) (x : Nat) : maskOf (p ++ [x]) = maskOf p ||| (1 <<< x) := by
  simp [maskOf, List.foldl_append]

theorem testBit_setBit (m x i : Nat) :
    (m ||| (1 <<< x)).testBit i = (m.testBit i || decide (x = i)) := by
  rw [Nat.testBit_or, Nat.one_shiftLeft, Nat.testBit_two_pow]

theorem testBit_maskOf (p : List Nat) (i : Nat) : (maskOf p).testBit i = true ↔ i ∈ p := by
  induction p using List.reverseRecOn with
  | nil => rw [maskOf_nil]; simp
  | append_singleton p x ih =>
    rw [maskOf_snoc, testBit_setBit]
    simp only [Bool.or_eq_true, decide_eq_true_eq, List.mem_append, List.mem_singleton, ih]
    exact or_congr Iff.rfl eq_comm

theorem visited_iff (m x : Nat) : m &&& (1 <<< x) ≠ 0 ↔ m.testBit x = true := by
  constructor
  · intro h
    by_contra hb
    apply h
    apply Nat.eq_of_testBit_eq
    intro i
    rw [Nat.testBit_and, Nat.one_shiftLeft, Nat.testBit_two_pow]
    by_cases hxi : x = i
    · subst hxi; simp [hb]
    · simp [hxi]
  · intro hb h
    have := congrArg (fun n => n.testBit x) h
    simp [Nat.testBit_and, Nat.one_shiftLeft, Nat.testBit_two_pow, hb] at this

/-! ## Routes and their replay -/

theorem replayFrom_append (data : ProblemData) (p q : List Nat) (r : Replay) :
    replayFrom data (p ++ q) r =
      match replayFrom data p r with
      | .ok r1 => replayFrom data q r1
      | .error e => .error e := by
  induction p generalizing r with
  | nil => simp [replayFrom]
  | cons x p ih =>
    simp only [List.cons_append, replayFrom]
    cases h : replayStep data r x with
    | error e => simp
    | ok r1 => simpa using ih r1

theorem replay_snoc_ok {data : ProblemData} {p : List Nat} {x : Nat} {r' : Replay} :
    replay data (p ++ [x]) = .ok r' ↔
      ∃ r, replay data p = .ok r ∧ replayStep data r x = .ok r' := by
  unfold replay
  rw [replayFrom_append]
  cases h : replayFrom data p ⟨0, -1, 0, []⟩ with
  | error e => simp
  | ok r1 =>
    simp only [replayFrom]
    cases h2 : replayStep data r1 x with
    | error e => simp [h2]
    | ok r2 => simp [h2]

theorem extendTimes_inv {data : ProblemData} {loc time : Int} {x : Nat} {a d : Int}
    (h : extendTimes data loc time x = .ok (a, d)) :
    ∃ travel slot stay, travelTo data loc x = .ok travel ∧ a = add32 time travel ∧
      getTimeSlot a data.T data.S = .ok slot ∧
      at2 data.stay_time (x : Int) slot = .ok stay ∧ d = add32 a stay := by
  unfold extendTimes at h
  cases h1 : travelTo data loc x with
  | error e => simp [h1] at h
  | ok travel =>
    simp only [h1] at h
    cases h2 : getTimeSlot (add32 time travel) data.T data.S with
    | error e => simp [h2] at h
    | ok slot =>
      simp only [h2] at h
      cases h3 : at2 data.stay_time (x : Int) slot with
      | error e => simp [h3] at h
      | ok stay =>
        simp only [h3, Except.ok.injEq, Prod.mk.injEq] at h
        obtain ⟨rfl, rfl⟩ := h
        exact ⟨travel, slot, stay, rfl, rfl, h2, h3, rfl⟩

theorem extendTimes_of {data : ProblemData} {loc time : Int} {x : Nat} {travel slot stay : Int}
    (h1 : travelTo data loc x = .ok travel)
    (h2 : getTimeSlot (add32 time travel) data.T data.S = .ok slot)
    (h3 : at2 data.stay_time (x : Int) slot = .ok stay) :
    extendTimes data loc time x = .ok (add32 time travel, add32 (add32 time travel) stay) := by
  simp [extendTimes, h1, h2, h3]

theorem replayStep_of_extend {data : ProblemData} {r : Replay} {x : Nat} {a d v : Int}
    (he : extendTimes data r.current_loc r.current_time x = .ok (a, d))
    (hv : at1 data.rewards (x : Int) = .ok v) :
    ∃ stay, replayStep data r x = .ok ⟨d, (x : Int), add32 r.total_reward v,
      r.stops ++ [⟨x, a, d, stay, v, add32 r.total_reward v⟩]⟩ := by
  obtain ⟨travel, slot, stay, h1, rfl, h2, h3, rfl⟩ := extendTimes_inv he
  exact ⟨stay, by simp [replayStep, h1, h2, h3, hv]⟩

theorem replayStep_inv {data : ProblemData} {r r' : Replay} {x : Nat}
    (h : replayStep data r x = .ok r') :
    ∃ a d v stay, extendTimes data r.current_loc r.current_time x = .ok (a, d) ∧
      at1 data.rewards (x : Int) = .ok v ∧
      r' = ⟨d, (x : Int), add32 r.total_reward v,
        r.stops ++ [⟨x, a, d, stay, v, add32 r.total_reward v⟩]⟩ := by
  unfold replayStep at h
  cases h1 : travelTo data r.current_loc x with
  | error e => simp [h1] at h
  | ok travel =>
    simp only [h1] at h
    cases h2 : getTimeSlot (add32 r.current_time travel) data.T data.S with
    | error e => simp [h2] at h
    | ok slot =>
      simp only [h2] at h
      cases h3 : at2 data.stay_time (x : Int) slot with
      | error e => simp [h3] at h
      | ok stay =>
        simp only [h3] at h
        cases h4 : at1 data.rewards (x : Int) with
        | error e => simp [h4] at h
        | ok v =>
          simp only [h4, Except.ok.injEq] at h
          exact ⟨_, _, v, stay, extendTimes_of h1 h2 h3, rfl, h.symm⟩

theorem reach_nil (data : ProblemData) : Reach data [] (-1) 0 0 :=
  ⟨_, rfl, rfl, rfl, rfl⟩

theorem reach_snoc {data : ProblemData} {p : List Nat} {x : Nat} {loc time reward a d v : Int}
    (h : Reach data p loc time reward) (he : extendTimes data loc time x = .ok (a, d))
    (hr : at1 data.rewards (x : Int) = .ok v) :
    Reach data (p ++ [x]) (x : Int) d (add32 reward v) := by
  obtain ⟨r, hr1, rfl, rfl, rfl⟩ := h
  obtain ⟨stay, hstep⟩ := replayStep_of_extend he hr
  exact ⟨_, replay_snoc_ok.2 ⟨r, hr1, hstep⟩, rfl, rfl, rfl⟩

theorem reach_snoc_inv {data : ProblemData} {p : List Nat} {x : Nat} {l t w : Int}
    (h : Reach data (p ++ [x]) l t w) :
    ∃ loc time reward a v, Reach data p loc time reward ∧
      extendTimes data loc time x = .ok (a, t) ∧ at1 data.rewards (x : Int) = .ok v ∧
      l = (x : Int) ∧ w = add32 reward v := by
  obtain ⟨r', hr', rfl, rfl, rfl⟩ := h
  obtain ⟨r, hr, hstep⟩ := replay_snoc_ok.1 hr'
  obtain ⟨a, d, v, stay, he, hv, rfl⟩ := replayStep_inv hstep
  exact ⟨_, _, _, a, v, ⟨r, hr, rfl, rfl, rfl⟩, he, hv, rfl, rfl⟩

theorem reach_unique {data : ProblemData} {p : List Nat} {l t w l' t' w' : Int}
    (h : Reach data p l t w) (h' : Reach data p l' t' w') : l = l' ∧ t = t' ∧ w = w' := by
  obtain ⟨r, hr, rfl, rfl, rfl⟩ := h
  obtain ⟨r', hr', rfl, rfl, rfl⟩ := h'
  rw [hr] at hr'
  cases hr'
  exact ⟨rfl, rfl, rfl⟩

theorem totalTime_ok_iff {data : ProblemData} {p : List Nat} {t : Int} :
    totalTime data p = .ok t ↔
      ∃ loc time reward ret, Reach data p loc time reward ∧
        returnFrom data loc = .ok ret ∧ t = add32 time ret := by
  constructor
  · intro h
    unfold totalTime at h
    cases h1 : replay data p with
    | error e => simp [h1] at h
    | ok r =>
      simp only [h1] at h
      cases h2 : returnFrom data r.current_loc with
      | error e => simp [h2] at h
      | ok ret =>
        simp only [h2, Except.ok.injEq] at h
        exact ⟨_, _, _, ret, ⟨r, h1, rfl, rfl, rfl⟩, h2, h.symm⟩
  · rintro ⟨loc, time, reward, ret, ⟨r, hr, rfl, rfl, rfl⟩, hret, rfl⟩
    simp [totalTime, hr, hret]

theorem rewardSum_nil (data : ProblemData) : rewardSum data [] = 0 := rfl

theorem rewardSum_snoc (data : ProblemData) (p : List Nat) (x : Nat) :
    rewardSum data (p ++ [x]) = rewardSum data p + data.rewards.getD x 0 := by
  simp [rewardSum]

theorem inRange_snoc {data : ProblemData} {p : List Nat} {x : Nat} :
    InRange data (p ++ [x]) ↔ InRange data p ∧ x < data.N := by
  simp only [InRange, List.mem_append, List.mem_singleton]
  constructor
  · intro h
    exact ⟨fun y hy => h y (Or.inl hy), h x (Or.inr rfl)⟩
  · rintro ⟨h1, h2⟩ y (hy | rfl)
    · exact h1 y hy
    · exact h2

theorem gated_nil (data : ProblemData) : Gated data [] := by
  intro q x h
  have := List.eq_nil_of_prefix_nil h
  simp at this

theorem gated_snoc {data : ProblemData} {p : List Nat} {x : Nat} :
    Gated data (p ++ [x]) ↔ Gated data p ∧ Completes data (p ++ [x]) := by
  constructor
  · intro h
    exact ⟨fun q y hq => h q y (hq.trans (List.prefix_append p [x])),
      h p x (List.prefix_refl _)⟩
  · rintro ⟨h1, h2⟩ q y hq
    rcases List.prefix_concat_iff.1 hq with heq | hpre
    · have := List.append_inj' heq rfl
      obtain ⟨rfl, h3⟩ := this
      cases h3
      exact h2
    · exact h1 q y hpre

theorem completes_nil {data : ProblemData} (hT : 0 ≤ data.T) : Completes data [] :=
  ⟨0, rfl, hT⟩

theorem explorable_nil (data : ProblemData) : Explorable data [] :=
  ⟨List.nodup_nil, fun _ h => absurd h (List.not_mem_nil _), gated_nil data⟩

theorem explorable_completes {data : ProblemData} (hT : 0 ≤ data.T) {p : List Nat}
    (h : Explorable data p) : Completes data p := by
  rcases List.eq_nil_or_concat p with rfl | ⟨q, x, rfl⟩
  · exact completes_nil hT
  · rw [List.concat_eq_append] at h ⊢
    exact h.2.2 q x (List.prefix_refl _)

theorem explorable_snoc {data : ProblemData} {p : List Nat} {x : Nat} :
    Explorable data (p ++ [x]) ↔
      Explorable data p ∧ x ∉ p ∧ x < data.N ∧ Completes data (p ++ [x]) := by
  unfold Explorable
  have hnd : (p ++ [x]).Nodup ↔ p.Nodup ∧ x ∉ p := by
    rw [List.nodup_append]
    simp only [List.nodup_singleton, true_and, List.Disjoint, List.mem_singleton]
    constructor
    · rintro ⟨h1, h2⟩
      exact ⟨h1, fun hx => h2 hx rfl⟩
    · rintro ⟨h1, h2⟩
      exact ⟨h1, fun a ha hax => h2 (hax ▸ ha)⟩
  rw [inRange_snoc, gated_snoc, hnd]
  tauto

/-- Completion of a path in terms of the key the search holds for it. -/
theorem completes_of_reach {data : ProblemData} {p : List Nat} {loc time reward : Int}
    (h : Reach data p loc time reward) :
    Completes data p ↔ ∃ ret, returnFrom data loc = .ok ret ∧ add32 time ret ≤ data.T := by
  unfold Completes
  constructor
  · rintro ⟨t, ht, hle⟩
    obtain ⟨loc', time', reward', ret, hr, hret, rfl⟩ := totalTime_ok_iff.1 ht
    obtain ⟨rfl, rfl, rfl⟩ := reach_unique h hr
    exact ⟨ret, hret, hle⟩
  · rintro ⟨ret, hret, hle⟩
    exact ⟨add32 time ret, totalTime_ok_iff.2 ⟨_, _, _, ret, h, hret, rfl⟩, hle⟩

theorem completes_reach {data : ProblemData} {p : List Nat} (h : Completes data p) :
    ∃ loc time reward, Reach data p loc time reward := by
  obtain ⟨t, ht, -⟩ := h
  obtain ⟨loc, time, reward, -, hr, -, -⟩ := totalTime_ok_iff.1 ht
  exact ⟨loc, time, reward, hr⟩

theorem at1_getD {α : Type} {v : List α} {i : Nat} {x : α} (d : α)
    (h : at1 v (i : Int) = .ok x) : v.getD i d = x := by
  unfold at1 at h
  simp only [Int.toNat_ofNat, Int.natCast_nonneg, if_true] at h
  rw [List.getD_eq_getElem?_getD]
  cases hget : v[i]? with
  | none => simp [hget] at h
  | some y =>
    simp only [hget, Except.ok.injEq] at h
    simp [h]

theorem rewardSum_eq_of_mask {data : ProblemData} {p q : List Nat} (hp : p.Nodup)
    (hq : q.Nodup) (h : maskOf p = maskOf q) : rewardSum data p = rewardSum data q := by
  have hperm : p.Perm q := by
    rw [List.perm_ext_iff_of_nodup hp hq]
    intro a
    rw [← testBit_maskOf p a, ← testBit_maskOf q a, h]
  exact (hperm.map _).sum_eq

/-- The cumulative reward the program computes for a path is the sum of its
rewards reduced to 32 bits. -/
theorem reach_reward {data : ProblemData} {p : List Nat} {loc time w : Int}
    (h : Reach data p loc time w) : w = wrap (rewardSum data p) := by
  induction p using List.reverseRecOn generalizing loc time w with
  | nil =>
    obtain ⟨-, -, rfl⟩ := reach_unique h (reach_nil data)
    rfl
  | append_singleton q x ih =>
    obtain ⟨loc0, time0, w0, a, v, hq, -, hv, -, rfl⟩ := reach_snoc_inv h
    rw [rewardSum_snoc, ih hq, at1_getD 0 hv]
    unfold add32
    exact wrap_add_wrap _ _

theorem popcountLow_eq_card (fuel m : Nat) (h : m < 2 ^ fuel) :
    popcountLow fuel m = ((Finset.range fuel).filter (fun i => m.testBit i = true)).card := by
  induction fuel generalizing m with
  | zero => simp [popcountLow]
  | succ fuel ih =>
    unfold popcountLow
    by_cases hm : m = 0
    · subst hm
      simp
    · rw [if_neg hm, ih (m / 2) (by rw [pow_succ] at h; omega)]
      rw [Finset.card_filter, Finset.card_filter, Finset.sum_range_succ']
      have h0 : (if m.testBit 0 = true then 1 else 0) = m % 2 := by
        rw [Nat.testBit_zero]
        rcases Nat.mod_two_eq_zero_or_one m with h2 | h2 <;> simp [h2]
      rw [h0, Nat.add_comm]
      congr 1
      apply Finset.sum_congr rfl
      intro i _
      rw [Nat.testBit_succ]

theorem testBit_lt_of_lt_two_pow {m n i : Nat} (h : m < 2 ^ n) (hb : m.testBit i = true) :
    i < n := by
  by_contra hge
  have h1 : 2 ^ i ≤ m := Nat.testBit_implies_ge hb
  have h2 : 2 ^ n ≤ 2 ^ i := Nat.pow_le_pow_right (by omega) (by omega)
  omega

/-- The bits set in a mask, listed without repetition, are as many as its
population count. -/
theorem popcount_eq_length (m : Nat) (l : List Nat) (hnd : l.Nodup)
    (h : ∀ i, i ∈ l ↔ m.testBit i = true) : popcount m = l.length := by
  unfold popcount
  rw [popcountLow_eq_card m m (Nat.lt_two_pow m), ← List.toFinset_card_of_nodup hnd]
  congr 1
  ext i
  simp only [Finset.mem_filter, Finset.mem_range, List.mem_toFinset, h]
  constructor
  · exact fun hi => hi.2
  · exact fun hi => ⟨testBit_lt_of_lt_two_pow (Nat.lt_two_pow m) hi, hi⟩

theorem popcount_maskOf {p : List Nat} (hnd : p.Nodup) : popcount (maskOf p) = p.length :=
  popcount_eq_length _ p hnd (fun i => (testBit_maskOf p i).symm)

theorem popcount_setBit {m x : Nat} (hb : m.testBit x = false) :
    popcount (m ||| (1 <<< x)) = popcount m + 1 := by
  have hl : ∃ l : List Nat, l.Nodup ∧ ∀ i, i ∈ l ↔ m.testBit i = true := by
    refine ⟨(List.range m).filter (fun i => m.testBit i), (List.nodup_range m).filter _, ?_⟩
    intro i
    simp only [List.mem_filter, List.mem_range]
    constructor
    · exact fun hi => hi.2
    · exact fun hi => ⟨testBit_lt_of_lt_two_pow (Nat.lt_two_pow m) hi, hi⟩
  obtain ⟨l, hnd, hmem⟩ := hl
  have hx : x ∉ l := by
    intro hxl
    rw [hmem, hb] at hxl
    cases hxl
  rw [popcount_eq_length m l hnd hmem,
    popcount_eq_length (m ||| (1 <<< x)) (x :: l) (List.nodup_cons.2 ⟨hx, hnd⟩)]
  · simp
  · intro i
    rw [testBit_setBit, List.mem_cons, hmem]
    simp only [Bool.or_eq_true, decide_eq_true_eq]
    constructor
    · rintro (h1 | h1)
      · exact Or.inr h1.symm
      · exact Or.inl h1
    · rintro (h1 | h1)
      · exact Or.inr h1
      · exact Or.inl h1.symm

theorem reach_lastLoc {data : ProblemData} {p : List Nat} {loc time w : Int}
    (h : Reach data p loc time w) : loc = lastLoc p := by
  rcases List.eq_nil_or_concat p with rfl | ⟨q, x, rfl⟩
  · exact (reach_unique h (reach_nil data)).1
  · rw [List.concat_eq_append] at h ⊢
    obtain ⟨_, _, _, _, _, -, -, -, hl, -⟩ := reach_snoc_inv h
    rw [hl]
    simp [lastLoc]

theorem lastLoc_eq_neg_one {p : List Nat} : lastLoc p = -1 ↔ p = [] := by
  rcases List.eq_nil_or_concat p with rfl | ⟨q, x, rfl⟩
  · simp [lastLoc]
  · rw [List.concat_eq_append]
    simp only [lastLoc, List.getLast?_concat, List.append_eq_nil, List.cons_ne_self, and_false,
      iff_false]
    omega

/-! ## One candidate of the expansion loop -/

theorem visit_skip (data : ProblemData) {mask : Nat} (loc time : Int) (current : State)
    (tw : Table × List Key) {x : Nat} (hb : mask.testBit x = true) :
    visit data mask loc time current tw x = .ok tw := by
  have := (visited_iff mask x).2 hb
  simp [visit, this]

theorem visit_eval (data : ProblemData) {mask : Nat} {loc time : Int} (current : State)
    (tw : Table × List Key) {x : Nat} {a d ret v : Int} (hb : mask.testBit x = false)
    (he : extendTimes data loc time x = .ok (a, d))
    (hret : at2 data.travel_time ((x : Int) + 1) 0 = .ok ret)
    (hv : at1 data.rewards (x : Int) = .ok v) :
    visit data mask loc time current tw x =
      .ok (if add32 d ret > data.T then tw
        else if improves (tw.1 (mask ||| (1 <<< x), (x : Int), d))
            (add32 current.reward v) then
          (tw.1.store (mask ||| (1 <<< x), (x : Int), d)
            ⟨add32 current.reward v, current.path ++ [x]⟩,
            tw.2 ++ [(mask ||| (1 <<< x), (x : Int), d)])
        else tw) := by
  have hnv : ¬ (mask &&& (1 <<< x) ≠ 0) := by
    rw [visited_iff]; simp [hb]
  unfold visit
  rw [if_neg hnv]
  simp only [he, hret, hv]
  split <;> rename_i h1
  · rfl
  · split <;> rfl

/-- What a successful candidate step can do: nothing, or store one key whose
mask has one more bit and append it to the worklist. -/
theorem visit_cases {data : ProblemData} {mask : Nat} {loc time : Int} {current : State}
    {tw tw' : Table × List Key} {x : Nat}
    (h : visit data mask loc time current tw x = .ok tw') :
    tw' = tw ∨ (mask.testBit x = false ∧ ∃ a d ret v,
      extendTimes data loc time x = .ok (a, d) ∧
      at2 data.travel_time ((x : Int) + 1) 0 = .ok ret ∧ add32 d ret ≤ data.T ∧
      at1 data.rewards (x : Int) = .ok v ∧
      improves (tw.1 (mask ||| (1 <<< x), (x : Int), d)) (add32 current.reward v) = true ∧
      tw' = (tw.1.store (mask ||| (1 <<< x), (x : Int), d)
            ⟨add32 current.reward v, current.path ++ [x]⟩,
            tw.2 ++ [(mask ||| (1 <<< x), (x : Int), d)])) := by
  cases hb : mask.testBit x with
  | true =>
    rw [visit_skip data loc time current tw hb] at h
    cases h
    exact Or.inl rfl
  | false =>
    have hnv : ¬ (mask &&& (1 <<< x) ≠ 0) := by
      rw [visited_iff]; simp [hb]
    cases he : extendTimes data loc time x with
    | error e => simp [visit, hnv, he] at h
    | ok ad =>
      obtain ⟨a, d⟩ := ad
      cases hret : at2 data.travel_time ((x : Int) + 1) 0 with
      | error e => simp [visit, hnv, he, hret] at h
      | ok ret =>
        by_cases hgate : add32 d ret > data.T
        · left
          simp [visit, hnv, he, hret, hgate] at h
          exact h.symm
        · cases hv : at1 data.rewards (x : Int) with
          | error e => simp [visit, hnv, he, hret, hgate, hv] at h
          | ok v =>
            rw [visit_eval data current tw hb he hret hv, if_neg hgate] at h
            by_cases himp : improves (tw.1 (mask ||| (1 <<< x), (x : Int), d))
                (add32 current.reward v) = true
            · right
              rw [if_pos himp] at h
              cases h
              exact ⟨rfl, a, d, ret, v, rfl, rfl, by omega, rfl, himp, rfl⟩
            · left
              rw [if_neg himp] at h
              cases h
              rfl

/-- What a successful candidate step has evaluated when the location is
unvisited: the times of the extension and the return time, and the reward
when the gate is passed. -/
theorem visit_evaluated {data : ProblemData} {mask : Nat} {loc time : Int} {current : State}
    {tw tw' : Table × List Key} {x : Nat}
    (h : visit data mask loc time current tw x = .ok tw') (hb : mask.testBit x = false) :
    ∃ a d ret, extendTimes data loc time x = .ok (a, d) ∧
      at2 data.travel_time ((x : Int) + 1) 0 = .ok ret ∧
      (add32 d ret ≤ data.T → ∃ v, at1 data.rewards (x : Int) = .ok v) := by
  have hnv : ¬ (mask &&& (1 <<< x) ≠ 0) := by
    rw [visited_iff]; simp [hb]
  cases he : extendTimes data loc time x with
  | error e => simp [visit, hnv, he] at h
  | ok ad =>
    obtain ⟨a, d⟩ := ad
    cases hret : at2 data.travel_time ((x : Int) + 1) 0 with
    | error e => simp [visit, hnv, he, hret] at h
    | ok ret =>
      refine ⟨a, d, ret, rfl, rfl, ?_⟩
      intro hle
      have hgate : ¬ add32 d ret > data.T := by omega
      cases hv : at1 data.rewards (x : Int) with
      | error e => simp [visit, hnv, he, hret, hgate, hv] at h
      | ok v => exact ⟨v, rfl⟩

/-! ## The invariant of the table and the worklist -/

theorem improves_false {o : Option State} {w : Int} (h : ¬ improves o w = true) :
    ∃ st, o = some st := by
  cases o with
  | none => simp [improves] at h
  | some st => exact ⟨st, rfl⟩

theorem store_same (dp : Table) (k : Key) (st : State) : dp.store k st k = some st := by
  simp [Table.store]

theorem store_other (dp : Table) {k k' : Key} (st : State) (h : k' ≠ k) :
    dp.store k st k' = dp k' := by
  simp [Table.store, h]

theorem improves_some {st : State} {w : Int} (h : improves (some st) w = true) :
    st.reward < w := by
  simpa [improves] using h

/-- A successful candidate step keeps the table and the worklist consistent,
changes no record, stores at most one record, under a key that had none, and
leaves the key of an open extension on the worklist. -/
theorem visit_inv {data : ProblemData} {mask : Nat} {loc time : Int}
    {current : State} (hcur : EntryOK data (mask, loc, time) current)
    {tw tw' : Table × List Key} (htw : TableInv data tw.1 tw.2)
    (hin : tw.1 (mask, loc, time) = some current) {x : Nat} (hx : x < data.N)
    (h : visit data mask loc time current tw x = .ok tw') :
    TableInv data tw'.1 tw'.2 ∧
      (∀ k st, tw.1 k = some st → tw'.1 k = some st) ∧
      (tw' = tw ∨ ∃ d st, tw.1 (mask ||| (1 <<< x), (x : Int), d) = none ∧
        tw' = (tw.1.store (mask ||| (1 <<< x), (x : Int), d) st,
          tw.2 ++ [(mask ||| (1 <<< x), (x : Int), d)])) ∧
      (mask.testBit x = false → ∀ d, GateOpen data loc time x d →
        (mask ||| (1 <<< x), (x : Int), d) ∈ tw'.2) := by
  obtain ⟨hexp, hmask, hreach⟩ := hcur
  simp only at hmask hreach
  rcases visit_cases h with heq | ⟨hb, a, d, ret, v, he, hret, hle, hr, himp, heq⟩
  · subst heq
    refine ⟨htw, fun _ _ hk => hk, Or.inl rfl, ?_⟩
    intro hb d hd
    obtain ⟨a, ret, he, hret, hle⟩ := hd
    rw [returnFrom_loc] at hret
    obtain ⟨a', d', ret', he', hret', hrew⟩ := visit_evaluated h hb
    rw [he] at he'
    rw [hret] at hret'
    cases he'
    cases hret'
    obtain ⟨v, hv⟩ := hrew hle
    rw [visit_eval data current tw' hb he hret hv, if_neg (by omega)] at h
    by_cases himp : improves (tw'.1 (mask ||| (1 <<< x), (x : Int), d))
        (add32 current.reward v) = true
    · rw [if_pos himp] at h
      exfalso
      have hlen := congrArg (fun t => t.2.length) (Except.ok.inj h)
      simp at hlen
    · obtain ⟨st, hst⟩ := improves_false himp
      exact htw.queued _ st hst
  · have hxp : x ∉ current.path := by
      intro hmem
      have := (testBit_maskOf current.path x).2 hmem
      rw [← hmask, hb] at this
      cases this
    have hreach' := reach_snoc hreach he hr
    have hretx : returnFrom data (x : Int) = .ok ret := by
      rw [returnFrom_loc]; exact hret
    have hexp' : Explorable data (current.path ++ [x]) :=
      explorable_snoc.2 ⟨hexp, hxp, hx, (completes_of_reach hreach').2 ⟨ret, hretx, hle⟩⟩
    -- the key is new: a record under it would already hold the same reward
    have hnone : tw.1 (mask ||| (1 <<< x), (x : Int), d) = none := by
      cases hex : tw.1 (mask ||| (1 <<< x), (x : Int), d) with
      | none => rfl
      | some st0 =>
        exfalso
        rw [hex] at himp
        have hlt := improves_some himp
        obtain ⟨hexp0, hmask0, hreach0⟩ := htw.entries _ _ hex
        simp only at hmask0 hreach0
        have h0 := reach_reward hreach0
        have h1 := reach_reward hreach'
        have hsum : rewardSum data st0.path = rewardSum data (current.path ++ [x]) :=
          rewardSum_eq_of_mask hexp0.1 hexp'.1 (by rw [← hmask0, maskOf_snoc, hmask])
        rw [hsum, ← h1] at h0
        omega
    have hne : ∀ k st, tw.1 k = some st → k ≠ (mask ||| (1 <<< x), (x : Int), d) := by
      intro k st hk hkk
      rw [hkk, hnone] at hk
      cases hk
    subst heq
    have hkeep : ∀ k st, tw.1 k = some st →
        tw.1.store (mask ||| (1 <<< x), (x : Int), d)
          ⟨add32 current.reward v, current.path ++ [x]⟩ k = some st := by
      intro k st hk
      rw [store_other _ _ (hne k st hk)]
      exact hk
    refine ⟨⟨?_, ?_, ?_, ?_⟩, hkeep, Or.inr ⟨d, _, hnone, rfl⟩, ?_⟩
    · intro k st hk
      by_cases hkk : k = (mask ||| (1 <<< x), (x : Int), d)
      · subst hkk
        simp only [store_same, Option.some.injEq] at hk
        subst hk
        exact ⟨hexp', by simp only [maskOf_snoc, hmask], hreach'⟩
      · simp only [store_other _ _ hkk] at hk
        exact htw.entries k st hk
    · intro k st hk
      by_cases hkk : k = (mask ||| (1 <<< x), (x : Int), d)
      · subst hkk
        simp
      · simp only [store_other _ _ hkk] at hk
        exact List.mem_append_left _ (htw.queued k st hk)
    · intro k hk
      by_cases hkk : k = (mask ||| (1 <<< x), (x : Int), d)
      · subst hkk
        exact ⟨_, store_same _ _ _⟩
      · simp only [store_other _ _ hkk]
        rcases List.mem_append.1 hk with h1 | h1
        · exact htw.stored k h1
        · simp at h1
          exact absurd h1 hkk
    · intro k st hk q y hq
      by_cases hkk : k = (mask ||| (1 <<< x), (x : Int), d)
      · subst hkk
        simp only [store_same, Option.some.injEq] at hk
        subst hk
        simp only at hq
        obtain ⟨rfl, h3⟩ := List.append_inj' hq rfl
        cases h3
        exact ⟨(mask, loc, time), current, a, hkeep _ _ hin, rfl, he, rfl, rfl⟩
      · simp only [store_other _ _ hkk] at hk
        obtain ⟨k0, st0, a0, h1, h2, h3, h4, h5⟩ := htw.chain k st hk q y hq
        exact ⟨k0, st0, a0, hkeep _ _ h1, h2, h3, h4, h5⟩
    · intro _ d' hd'
      obtain ⟨a', ret', he', -, -⟩ := hd'
      rw [he] at he'
      cases he'
      simp

/-- A successful expansion loop keeps the table and the worklist consistent,
changes no record, appends distinct keys that had no record and stores a
record under each of them, leaves every other key as it was, has evaluated
every unvisited candidate and leaves the key of every open extension on the
worklist. -/
theorem expand_inv {data : ProblemData} {mask : Nat} {loc time : Int}
    {current : State} (hcur : EntryOK data (mask, loc, time) current)
    (cands : List Nat) (hc : ∀ x ∈ cands, x < data.N)
    {tw tw' : Table × List Key} (htw : TableInv data tw.1 tw.2)
    (hin : tw.1 (mask, loc, time) = some current)
    (h : expand data mask loc time current cands tw = .ok tw') :
    TableInv data tw'.1 tw'.2 ∧
      (∀ k st, tw.1 k = some st → tw'.1 k = some st) ∧
      (∃ added, tw'.2 = tw.2 ++ added ∧ added.Nodup ∧ (∀ k ∈ added, tw.1 k = none) ∧
        (∀ k, k ∉ added → tw'.1 k = tw.1 k)) ∧
      (∀ x ∈ cands, mask.testBit x = false → ∀ d, GateOpen data loc time x d →
        (mask ||| (1 <<< x), (x : Int), d) ∈ tw'.2) ∧
      (∀ x ∈ cands, mask.testBit x = false →
        ∃ a d ret, extendTimes data loc time x = .ok (a, d) ∧
          at2 data.travel_time ((x : Int) + 1) 0 = .ok ret ∧
          (add32 d ret ≤ data.T → ∃ v, at1 data.rewards (x : Int) = .ok v)) := by
  induction cands generalizing tw with
  | nil =>
    simp only [expand, Except.ok.injEq] at h
    subst h
    exact ⟨htw, fun _ _ hk => hk, ⟨[], by simp, List.nodup_nil, by simp, fun _ _ => rfl⟩,
      by simp, by simp⟩
  | cons x rest ih =>
    simp only [expand] at h
    cases h1 : visit data mask loc time current tw x with
    | error e => simp [h1] at h
    | ok tw1 =>
      simp only [h1] at h
      obtain ⟨hinv1, hkeep1, hcase, hopen1⟩ :=
        visit_inv hcur htw hin (hc x (List.mem_cons_self _ _)) h1
      obtain ⟨hinv2, hkeep2, ⟨add2, hadd2, hnd2, hnone2, hsame2⟩, hopen2, heval2⟩ :=
        ih (fun y hy => hc y (List.mem_cons_of_mem _ hy)) hinv1 (hkeep1 _ _ hin) h
      refine ⟨hinv2, fun k st hk => hkeep2 k st (hkeep1 k st hk), ?_, ?_, ?_⟩
      · rcases hcase with heq | ⟨d, st, hnone, heq⟩
        · subst heq
          exact ⟨add2, hadd2, hnd2, hnone2, hsame2⟩
        · subst heq
          simp only at hadd2 hnone2 hsame2
          refine ⟨(mask ||| (1 <<< x), (x : Int), d) :: add2, by simp [hadd2], ?_, ?_, ?_⟩
          · refine List.nodup_cons.2 ⟨?_, hnd2⟩
            intro hmem
            have := hnone2 _ hmem
            rw [store_same] at this
            cases this
          · intro k hk
            rcases List.mem_cons.1 hk with rfl | hk2
            · exact hnone
            · have hkne : k ≠ (mask ||| (1 <<< x), (x : Int), d) := by
                intro hkk
                have := hnone2 k hk2
                rw [hkk, store_same] at this
                cases this
              have := hnone2 k hk2
              rwa [store_other _ _ hkne] at this
          · intro k hk
            simp only [List.mem_cons, not_or] at hk
            rw [hsame2 k hk.2, store_other _ _ hk.1]
      · intro y hy hb d hd
        rcases List.mem_cons.1 hy with rfl | hy'
        · rw [hadd2]
          exact List.mem_append_left _ (hopen1 hb d hd)
        · exact hopen2 y hy' hb d hd
      · intro y hy hb
        rcases List.mem_cons.1 hy with rfl | hy'
        · exact visit_evaluated h1 hb
        · exact heval2 y hy' hb

/-- The locations of the keys the expansion loop appends follow the order of
the candidates. -/
theorem expand_order {data : ProblemData} {mask : Nat} {loc time : Int} {current : State}
    (cands : List Nat) {tw tw' : Table × List Key}
    (h : expand data mask loc time current cands tw = .ok tw') :
    ∃ added, tw'.2 = tw.2 ++ added ∧
      (added.map (fun k => k.2.1)).Sublist (List.map (fun (x : Nat) => (x : Int)) cands) := by
  induction cands generalizing tw with
  | nil =>
    simp only [expand, Except.ok.injEq] at h
    subst h
    exact ⟨[], by simp, by simp⟩
  | cons x rest ih =>
    simp only [expand] at h
    cases h1 : visit data mask loc time current tw x with
    | error e => simp [h1] at h
    | ok tw1 =>
      simp only [h1] at h
      obtain ⟨add2, hadd2, hsub2⟩ := ih h
      rcases visit_cases h1 with heq | ⟨-, a, d, ret, v, -, -, -, -, -, heq⟩
      · subst heq
        exact ⟨add2, hadd2, by
          rw [List.map_cons]; exact List.Sublist.cons _ hsub2⟩
      · subst heq
        refine ⟨(mask ||| (1 <<< x), (x : Int), d) :: add2, by simp [hadd2], ?_⟩
        simp only [List.map_cons]
        exact List.Sublist.cons₂ _ hsub2

/-! ## The invariant of the search loop -/

theorem take_succ_append {α : Type} {wl added : List α} {i : Nat} {key : α}
    (h : wl[i]? = some key) : (wl ++ added).take (i + 1) = wl.take i ++ [key] := by
  have hlt : i < wl.length := by
    by_contra hge
    rw [List.getElem?_eq_none (by omega)] at h
    cases h
  rw [List.take_append_of_le_length (by omega), List.take_succ, h]
  rfl

/-- One successful iteration of the loop, spelled out: the dequeued key has a
record, its return time is defined, and the new state is the result of the
expansion with the best record replaced exactly when the key passes the
completion check and its record has a strictly greater reward. -/
theorem process_step {data : ProblemData} {s s' : Search} (hs : Inv data s) {key : Key}
    (hkey : s.states_to_process[s.process_idx]? = some key)
    (h : process data s key = .ok s') :
    ∃ current ret tw', s.dp key = some current ∧ EntryOK data key current ∧
      returnFrom data key.2.1 = .ok ret ∧
      expand data key.1 key.2.1 key.2.2 current (List.range data.N)
        (s.dp, s.states_to_process) = .ok tw' ∧
      s'.dp = tw'.1 ∧ s'.states_to_process = tw'.2 ∧ s'.process_idx = s.process_idx + 1 ∧
      s'.best_reward = (if add32 key.2.2 ret ≤ data.T ∧ current.reward > s.best_reward
        then current.reward else s.best_reward) ∧
      s'.best_path = (if add32 key.2.2 ret ≤ data.T ∧ current.reward > s.best_reward
        then current.path else s.best_path) := by
  have hmem : key ∈ s.states_to_process := List.getElem?_mem hkey
  obtain ⟨current, hcur⟩ := hs.table.stored _ hmem
  have hentry := hs.table.entries _ _ hcur
  unfold process at h
  simp only [hcur] at h
  cases hret : returnFrom data key.2.1 with
  | error e => simp [hret] at h
  | ok ret =>
    simp only [hret] at h
    cases hx : expand data key.1 key.2.1 key.2.2 current (List.range data.N)
        (s.dp, s.states_to_process) with
    | error e =>
      exfalso
      by_cases hc : add32 key.2.2 ret ≤ data.T ∧ current.reward > s.best_reward
      · simp [hc, hx] at h
      · simp [hc, hx] at h
    | ok tw' =>
      refine ⟨current, ret, tw', hcur, hentry, rfl, hx, ?_⟩
      by_cases hc : add32 key.2.2 ret ≤ data.T ∧ current.reward > s.best_reward
      · simp only [hc, and_self, if_true, hx, Except.ok.injEq] at h
        subst h
        simp [hc]
      · simp only [hc, if_false, hx, Except.ok.injEq] at h
        subst h
        simp [hc]

/-- The effect of one successful iteration in terms of the keys it appends. -/
theorem process_facts {data : ProblemData} {s s' : Search}
    (hs : Inv data s) {key : Key} (hkey : s.states_to_process[s.process_idx]? = some key)
    (h : process data s key = .ok s') :
    ∃ current ret added, s.dp key = some current ∧ EntryOK data key current ∧
      returnFrom data key.2.1 = .ok ret ∧
      TableInv data s'.dp s'.states_to_process ∧
      s'.states_to_process = s.states_to_process ++ added ∧ added.Nodup ∧
      (∀ k ∈ added, s.dp k = none) ∧ (∀ k, k ∉ added → s'.dp k = s.dp k) ∧
      (added.map (fun k => k.2.1)).Sublist
        (List.map (fun (x : Nat) => (x : Int)) (List.range data.N)) ∧
      s'.process_idx = s.process_idx + 1 ∧
      s'.best_reward = (if add32 key.2.2 ret ≤ data.T ∧ current.reward > s.best_reward
        then current.reward else s.best_reward) ∧
      s'.best_path = (if add32 key.2.2 ret ≤ data.T ∧ current.reward > s.best_reward
        then current.path else s.best_path) ∧
      (∀ x, x < data.N → key.1.testBit x = false → ∀ d, GateOpen data key.2.1 key.2.2 x d →
        (key.1 ||| (1 <<< x), (x : Int), d) ∈ s'.states_to_process) ∧
      (∀ x, x < data.N → key.1.testBit x = false →
        ∃ a d ret, extendTimes data key.2.1 key.2.2 x = .ok (a, d) ∧
          at2 data.travel_time ((x : Int) + 1) 0 = .ok ret ∧
          (add32 d ret ≤ data.T → ∃ v, at1 data.rewards (x : Int) = .ok v)) := by
  obtain ⟨current, ret, tw', hcur, hentry, hret, hexp, hdp, hwl, hidx, hbr, hbp⟩ :=
    process_step hs hkey h
  obtain ⟨htab, -, ⟨added, hadd, hnd, hnone, hsame⟩, hopen, heval⟩ :=
    @expand_inv data key.1 key.2.1 key.2.2 current hentry (List.range data.N)
      (fun x hx => List.mem_range.1 hx) (s.dp, s.states_to_process) tw' hs.table hcur hexp
  obtain ⟨added', hadd', hsub⟩ := expand_order _ hexp
  have heq : added' = added := by
    rw [hadd] at hadd'
    exact (List.append_cancel_left hadd').symm
  subst heq
  refine ⟨current, ret, added', hcur, hentry, hret, by rw [hdp, hwl]; exact htab,
    by rw [hwl]; exact hadd, hnd, hnone, ?_, hsub, hidx, hbr, hbp, ?_, ?_⟩
  · intro k hk
    rw [hdp]
    exact hsame k hk
  · intro x hx hb d hd
    rw [hwl]
    exact hopen x (List.mem_range.2 hx) hb d hd
  · intro x hx hb
    exact heval x (List.mem_range.2 hx) hb

theorem initial_inv (data : ProblemData) : Inv data initial := by
  refine ⟨⟨?_, ?_, ?_, ?_⟩, by simp [initial], by simp [initial],
    ⟨explorable_nil data, -1, 0, reach_nil data⟩, Or.inl ⟨rfl, rfl⟩, by simp [initial],
    by simp [initial], by simp [initial]⟩
  · intro k st h
    simp only [initial, Table.store] at h
    split at h
    · rename_i hk
      subst hk
      cases h
      exact ⟨explorable_nil data, rfl, reach_nil data⟩
    · cases h
  · intro k st h
    simp only [initial, Table.store] at h
    split at h
    · rename_i hk
      subst hk
      simp [initial]
    · cases h
  · intro k hk
    simp only [initial, List.mem_singleton] at hk
    subst hk
    exact ⟨_, rfl⟩
  · intro k st h q x hq
    simp only [initial, Table.store] at h
    split at h
    · cases h
      simp at hq
    · cases h

/-- A successful iteration preserves the invariant of the loop. -/
theorem process_inv {data : ProblemData} {s s' : Search} (hs : Inv data s) {key : Key}
    (hkey : s.states_to_process[s.process_idx]? = some key)
    (h : process data s key = .ok s') : Inv data s' := by
  obtain ⟨current, ret, added, hcur, hentry, hret, htab, hwl, -, -, -, -, hidx, hbr, hbp,
    hopen, heval⟩ := process_facts hs hkey h
  obtain ⟨hexp, hmask, hreach⟩ := hentry
  have hlt : s.process_idx < s.states_to_process.length := by
    by_contra hge
    rw [List.getElem?_eq_none (by omega)] at hkey
    cases hkey
  have htake : s'.states_to_process.take s'.process_idx =
      s.states_to_process.take s.process_idx ++ [key] := by
    rw [hwl, hidx]; exact take_succ_append hkey
  have hbge : s.best_reward ≤ s'.best_reward := by
    rw [hbr]; split <;> omega
  refine ⟨htab, ?_, ?_, ?_, ?_, ?_, ?_, ?_⟩
  · rw [hwl, hidx, List.length_append]; omega
  · rw [hwl]; exact List.mem_append_left _ hs.root
  · rw [hbr, hbp]
    split
    · exact ⟨hexp, _, _, hreach⟩
    · exact hs.best_ok
  · rw [hbr, hbp]
    split
    · rename_i hc
      right
      rcases hs.best_src with h0 | h0 <;> omega
    · exact hs.best_src
  · intro k hk p w hp hcomp hpk hw
    rw [htake] at hk
    rcases List.mem_append.1 hk with h1 | h1
    · exact le_trans (hs.done_best k h1 p w hp hcomp hpk hw) hbge
    · simp only [List.mem_singleton] at h1
      subst h1
      have hsum : w = current.reward := by
        rw [reach_reward hw, reach_reward hreach]
        congr 1
        exact rewardSum_eq_of_mask hp.1 hexp.1 (by rw [← hpk, hmask])
      obtain ⟨ret', hret', hle⟩ := (completes_of_reach hw).1 hcomp
      rw [hret] at hret'
      cases hret'
      rw [hbr, hsum]
      split
      · exact le_refl _
      · rename_i hc
        by_contra hlt'
        exact hc ⟨hle, by omega⟩
  · intro k hk x hx hb d hd
    rw [htake] at hk
    rcases List.mem_append.1 hk with h1 | h1
    · rw [hwl]
      exact List.mem_append_left _ (hs.done_next k h1 x hx hb d hd)
    · simp only [List.mem_singleton] at h1
      subst h1
      exact hopen x hx hb d hd
  · intro k hk
    rw [htake] at hk
    rcases List.mem_append.1 hk with h1 | h1
    · exact hs.done_ok k h1
    · simp only [List.mem_singleton] at h1
      subst h1
      exact ⟨⟨ret, hret⟩, heval⟩

theorem reachable_inv {data : ProblemData} {s : Search} (h : Reachable data s) :
    Inv data s := by
  induction h with
  | start => exact initial_inv data
  | step _ hkey hproc ih => exact process_inv ih hkey hproc

theorem loop_reachable {data : ProblemData} (fuel : Nat) {s s' : Search}
    (hs : Reachable data s) (h : loop data fuel s = .ok s') : Reachable data s' := by
  induction fuel generalizing s with
  | zero =>
    unfold loop at h
    cases hkey : s.states_to_process[s.process_idx]? with
    | none =>
      simp only [hkey, Except.ok.injEq] at h
      exact h ▸ hs
    | some key => simp [hkey] at h
  | succ fuel ih =>
    unfold loop at h
    cases hkey : s.states_to_process[s.process_idx]? with
    | none =>
      simp only [hkey, Except.ok.injEq] at h
      exact h ▸ hs
    | some key =>
      simp only [hkey] at h
      cases hproc : process data s key with
      | error e => simp [hproc] at h
      | ok s1 =>
        simp only [hproc] at h
        exact ih (Reachable.step hs hkey hproc) h

theorem search_reachable {data : ProblemData} {s : Search} (h : search data = .ok s) :
    Reachable data s :=
  loop_reachable _ Reachable.start h

/-- The loop returns only when the worklist is exhausted. -/
theorem loop_exhausts {data : ProblemData} (fuel : Nat) {s s' : Search}
    (h : loop data fuel s = .ok s') : s'.states_to_process[s'.process_idx]? = none := by
  induction fuel generalizing s with
  | zero =>
    unfold loop at h
    cases hkey : s.states_to_process[s.process_idx]? with
    | none =>
      simp only [hkey, Except.ok.injEq] at h
      exact h ▸ hkey
    | some key => simp [hkey] at h
  | succ fuel ih =>
    unfold loop at h
    cases hkey : s.states_to_process[s.process_idx]? with
    | none =>
      simp only [hkey, Except.ok.injEq] at h
      exact h ▸ hkey
    | some key =>
      simp only [hkey] at h
      cases hproc : process data s key with
      | error e => simp [hproc] at h
      | ok s1 =>
        simp only [hproc] at h
        exact ih h

/-! ## Termination of the loop -/

theorem workBound_pos (N r : Nat) : 1 ≤ workBound N r := by
  cases r <;> simp [workBound]

theorem workBound_mono (N : Nat) {r r' : Nat} (h : r ≤ r') : workBound N r ≤ workBound N r' := by
  induction h with
  | refl => exact le_refl _
  | step _ ih =>
    rename_i m _
    refine le_trans ih ?_
    cases m with
    | zero => simp [workBound]
    | succ m =>
      have hstep : ∀ j, workBound N j ≤ workBound N (j + 1) := by
        intro j
        induction j with
        | zero => simp [workBound]
        | succ j ihj =>
          simp only [workBound] at ihj ⊢
          exact Nat.add_le_add_left (Nat.mul_le_mul_left N ihj) 1
      exact hstep (m + 1)

theorem unvisited_zero (N : Nat) : unvisited N 0 = N := by
  simp [unvisited]

theorem unvisited_lt {N mask x : Nat} (hx : x < N) (hb : mask.testBit x = false) :
    unvisited N (mask ||| (1 <<< x)) < unvisited N mask := by
  unfold unvisited
  apply Finset.card_lt_card
  rw [Finset.ssubset_iff_of_subset]
  · refine ⟨x, ?_, ?_⟩
    · simp [hx, hb]
    · simp [testBit_setBit]
  · intro i hi
    simp only [Finset.mem_filter, Finset.mem_range, testBit_setBit, Bool.or_eq_false_iff] at hi ⊢
    exact ⟨hi.1, hi.2.1⟩

theorem expand_added {data : ProblemData} {mask : Nat} {loc time : Int} {current : State}
    (cands : List Nat) {tw tw' : Table × List Key}
    (h : expand data mask loc time current cands tw = .ok tw') :
    ∃ added, tw'.2 = tw.2 ++ added ∧ added.length ≤ cands.length ∧
      ∀ k ∈ added, ∃ x ∈ cands, mask.testBit x = false ∧ k.1 = mask ||| (1 <<< x) := by
  induction cands generalizing tw with
  | nil =>
    simp only [expand, Except.ok.injEq] at h
    subst h
    exact ⟨[], by simp, by simp, by simp⟩
  | cons x rest ih =>
    simp only [expand] at h
    cases h1 : visit data mask loc time current tw x with
    | error e => simp [h1] at h
    | ok tw1 =>
      simp only [h1] at h
      obtain ⟨add2, hadd2, hlen2, hk2⟩ := ih h
      rcases visit_cases h1 with heq | ⟨hb, a, d, ret, v, -, -, -, -, -, heq⟩
      · subst heq
        refine ⟨add2, hadd2, by simp; omega, ?_⟩
        intro k hk
        obtain ⟨y, hy, hyb, hky⟩ := hk2 k hk
        exact ⟨y, List.mem_cons_of_mem _ hy, hyb, hky⟩
      · subst heq
        refine ⟨(mask ||| (1 <<< x), (x : Int), d) :: add2, by simp [hadd2],
          by simp; omega, ?_⟩
        intro k hk
        rcases List.mem_cons.1 hk with rfl | hk'
        · exact ⟨x, List.mem_cons_self _ _, hb, rfl⟩
        · obtain ⟨y, hy, hyb, hky⟩ := hk2 k hk'
          exact ⟨y, List.mem_cons_of_mem _ hy, hyb, hky⟩

/-- The effect of one iteration on the worklist and the processing index. -/
theorem process_worklist {data : ProblemData} {s s' : Search} {key : Key}
    (h : process data s key = .ok s') :
    s'.process_idx = s.process_idx + 1 ∧
    ∃ added, s'.states_to_process = s.states_to_process ++ added ∧ added.length ≤ data.N ∧
      ∀ k ∈ added, ∃ x, x < data.N ∧ key.1.testBit x = false ∧ k.1 = key.1 ||| (1 <<< x) := by
  unfold process at h
  simp only at h
  cases hcur : s.dp key with
  | none =>
    simp only [hcur, Except.ok.injEq] at h
    subst h
    exact ⟨rfl, [], by simp, by simp, by simp⟩
  | some current =>
    simp only [hcur] at h
    cases hret : returnFrom data key.2.1 with
    | error e => simp [hret] at h
    | ok ret =>
      simp only [hret] at h
      split at h
      · cases h
      · rename_i tw hexp
        simp only [Except.ok.injEq] at h
        subst h
        obtain ⟨added, hadd, hlen, hk⟩ := expand_added _ hexp
        simp only at hadd
        refine ⟨?_, added, ?_, by simpa using hlen, ?_⟩
        · simp only []
          split <;> rfl
        · simp only [hadd]
          split <;> rfl
        · intro k hkm
          obtain ⟨x, hx, hb, hkx⟩ := hk k hkm
          exact ⟨x, List.mem_range.1 hx, hb, hkx⟩

theorem sum_le_length_mul (l : List Nat) (c : Nat) (h : ∀ v ∈ l, v ≤ c) :
    l.sum ≤ l.length * c := by
  induction l with
  | nil => simp
  | cons a l ih =>
    simp only [List.sum_cons, List.length_cons]
    have h1 := h a (List.mem_cons_self _ _)
    have h2 := ih (fun v hv => h v (List.mem_cons_of_mem _ hv))
    rw [Nat.succ_mul]
    omega

/-- Every iteration of the loop strictly decreases the pending work. -/
theorem process_pending {data : ProblemData} {s s' : Search} {key : Key}
    (hkey : s.states_to_process[s.process_idx]? = some key)
    (h : process data s key = .ok s') : pending data s' + 1 ≤ pending data s := by
  obtain ⟨hidx, added, hwl, hlen, hk⟩ := process_worklist h
  have hlt : s.process_idx < s.states_to_process.length := by
    by_contra hge
    rw [List.getElem?_eq_none (by omega)] at hkey
    cases hkey
  have hget : s.states_to_process[s.process_idx] = key := by
    rw [List.getElem?_eq_getElem hlt] at hkey
    exact Option.some.inj hkey
  have hdrop : s.states_to_process.drop s.process_idx =
      key :: s.states_to_process.drop (s.process_idx + 1) := by
    rw [← hget]
    exact List.drop_eq_getElem_cons hlt
  have hdrop' : s'.states_to_process.drop s'.process_idx =
      s.states_to_process.drop (s.process_idx + 1) ++ added := by
    rw [hidx, hwl, List.drop_append_of_le_length (by omega)]
  unfold pending
  rw [hdrop, hdrop']
  simp only [List.map_append, List.sum_append, List.map_cons, List.sum_cons]
  have hsum : ((added.map (fun k => workBound data.N (unvisited data.N k.1))).sum) + 1 ≤
      workBound data.N (unvisited data.N key.1) := by
    cases hr : unvisited data.N key.1 with
    | zero =>
      have hnil : added = [] := by
        cases added with
        | nil => rfl
        | cons k rest =>
          obtain ⟨x, hx, hb, hkx⟩ := hk k (List.mem_cons_self _ _)
          have := unvisited_lt hx hb
          omega
      subst hnil
      simp [workBound]
    | succ r =>
      have hbound : ∀ v ∈ added.map (fun k => workBound data.N (unvisited data.N k.1)),
          v ≤ workBound data.N r := by
        intro v hv
        obtain ⟨k, hkm, rfl⟩ := List.mem_map.1 hv
        obtain ⟨x, hx, hb, hkx⟩ := hk k hkm
        have := unvisited_lt hx hb
        rw [← hkx] at this
        exact workBound_mono data.N (by omega)
      have h1 := sum_le_length_mul _ _ hbound
      rw [List.length_map] at h1
      have h2 : added.length * workBound data.N r ≤ data.N * workBound data.N r :=
        Nat.mul_le_mul_right _ hlen
      simp only [workBound]
      omega
  omega

theorem pending_initial (data : ProblemData) :
    pending data initial = workBound data.N data.N := by
  simp [pending, initial, unvisited_zero]

theorem at1_fault {α : Type} {v : List α} {i : Int} {e : Fault} (h : at1 v i = .error e) :
    e = .indexOutOfRange := by
  unfold at1 at h
  split at h
  · split at h
    · cases h
    · cases h; rfl
  · cases h; rfl

theorem at2_fault {m : List (List Int)} {i j : Int} {e : Fault} (h : at2 m i j = .error e) :
    e = .indexOutOfRange := by
  unfold at2 at h
  cases h1 : at1 m i with
  | error e1 =>
    simp only [h1, Except.error.injEq] at h
    subst h
    exact at1_fault h1
  | ok row =>
    simp only [h1] at h
    exact at1_fault h

theorem div32_fault {a b : Int} {e : Fault} (h : div32 a b = .error e) :
    e ≠ .fuelExhausted := by
  unfold div32 at h
  split at h
  · cases h; decide
  · split at h
    · cases h; decide
    · cases h

theorem getTimeSlot_fault {t T S : Int} {e : Fault} (h : getTimeSlot t T S = .error e) :
    e ≠ .fuelExhausted := by
  unfold getTimeSlot at h
  cases h1 : div32 (sub32 (add32 T S) 1) S with
  | error e1 =>
    simp only [h1, Except.error.injEq] at h
    subst h
    exact div32_fault h1
  | ok sd =>
    simp only [h1] at h
    cases h2 : div32 t sd with
    | error e2 =>
      simp only [h2, Except.error.injEq] at h
      subst h
      exact div32_fault h2
    | ok slot => simp [h2] at h

theorem travelTo_fault {data : ProblemData} {loc : Int} {x : Nat} {e : Fault}
    (h : travelTo data loc x = .error e) : e = .indexOutOfRange := by
  unfold travelTo at h
  split at h <;> exact at2_fault h

theorem returnFrom_fault {data : ProblemData} {loc : Int} {e : Fault}
    (h : returnFrom data loc = .error e) : e = .indexOutOfRange := by
  unfold returnFrom at h
  split at h
  · cases h
  · exact at2_fault h

theorem extendTimes_fault {data : ProblemData} {loc time : Int} {x : Nat} {e : Fault}
    (h : extendTimes data loc time x = .error e) : e ≠ .fuelExhausted := by
  unfold extendTimes at h
  cases h1 : travelTo data loc x with
  | error e1 =>
    simp only [h1, Except.error.injEq] at h
    subst h
    rw [travelTo_fault h1]; decide
  | ok travel =>
    simp only [h1] at h
    cases h2 : getTimeSlot (add32 time travel) data.T data.S with
    | error e2 =>
      simp only [h2, Except.error.injEq] at h
      subst h
      exact getTimeSlot_fault h2
    | ok slot =>
      simp only [h2] at h
      cases h3 : at2 data.stay_time (x : Int) slot with
      | error e3 =>
        simp only [h3, Except.error.injEq] at h
        subst h
        rw [at2_fault h3]; decide
      | ok stay => simp [h3] at h

theorem visit_fault {data : ProblemData} {mask : Nat} {loc time : Int} {current : State}
    {tw : Table × List Key} {x : Nat} {e : Fault}
    (h : visit data mask loc time current tw x = .error e) : e ≠ .fuelExhausted := by
  unfold visit at h
  split at h
  · cases h
  · cases h1 : extendTimes data loc time x with
    | error e1 =>
      simp only [h1, Except.error.injEq] at h
      subst h
      exact extendTimes_fault h1
    | ok ad =>
      obtain ⟨a, d⟩ := ad
      simp only [h1] at h
      cases h2 : at2 data.travel_time ((x : Int) + 1) 0 with
      | error e2 =>
        simp only [h2, Except.error.injEq] at h
        subst h
        rw [at2_fault h2]; decide
      | ok ret =>
        simp only [h2] at h
        split at h
        · cases h
        · cases h3 : at1 data.rewards (x : Int) with
          | error e3 =>
            simp only [h3, Except.error.injEq] at h
            subst h
            rw [at1_fault h3]; decide
          | ok v =>
            simp only [h3] at h
            split at h <;> cases h

theorem expand_fault {data : ProblemData} {mask : Nat} {loc time : Int} {current : State}
    (cands : List Nat) {tw : Table × List Key} {e : Fault}
    (h : expand data mask loc time current cands tw = .error e) : e ≠ .fuelExhausted := by
  induction cands generalizing tw with
  | nil => simp [expand] at h
  | cons x rest ih =>
    simp only [expand] at h
    cases h1 : visit data mask loc time current tw x with
    | error e1 =>
      simp only [h1, Except.error.injEq] at h
      subst h
      exact visit_fault h1
    | ok tw1 =>
      simp only [h1] at h
      exact ih h

theorem process_fault {data : ProblemData} {s : Search} {key : Key} {e : Fault}
    (h : process data s key = .error e) : e ≠ .fuelExhausted := by
  unfold process at h
  simp only at h
  cases hcur : s.dp key with
  | none => simp [hcur] at h
  | some current =>
    simp only [hcur] at h
    cases hret : returnFrom data key.2.1 with
    | error e1 =>
      simp only [hret, Except.error.injEq] at h
      subst h
      rw [returnFrom_fault hret]; decide
    | ok ret =>
      simp only [hret] at h
      split at h
      · rename_i e2 hexp
        cases h
        exact expand_fault _ hexp
      · cases h

/-- With fuel for the pending work the loop never runs out of fuel: it ends
normally or with a fault of the program. -/
theorem loop_fuel_suffices {data : ProblemData} (fuel : Nat) (s : Search)
    (hfuel : pending data s ≤ fuel) : loop data fuel s ≠ .error .fuelExhausted := by
  induction fuel generalizing s with
  | zero =>
    unfold loop
    cases hkey : s.states_to_process[s.process_idx]? with
    | none => simp
    | some key =>
      exfalso
      have hlt : s.process_idx < s.states_to_process.length := by
        by_contra hge
        rw [List.getElem?_eq_none (by omega)] at hkey
        cases hkey
      have hpos : 1 ≤ pending data s := by
        unfold pending
        rw [List.drop_eq_getElem_cons hlt]
        simp only [List.map_cons, List.sum_cons]
        have := workBound_pos data.N (unvisited data.N (s.states_to_process[s.process_idx]).1)
        omega
      omega
  | succ fuel ih =>
    unfold loop
    cases hkey : s.states_to_process[s.process_idx]? with
    | none => simp
    | some key =>
      simp only
      cases hproc : process data s key with
      | error e =>
        simp only [ne_eq, Except.error.injEq]
        exact process_fault hproc
      | ok s1 =>
        have hdec := process_pending hkey hproc
        exact ih s1 (by omega)

theorem reachable_idx_le {data : ProblemData} {s : Search} (h : Reachable data s) :
    s.process_idx ≤ s.states_to_process.length := by
  induction h with
  | start => simp [initial]
  | @step s0 s1 key _ hkey hproc ih =>
    obtain ⟨hidx, added, hwl, -, -⟩ := process_worklist hproc
    have hlt : s0.process_idx < s0.states_to_process.length := by
      by_contra hge
      rw [List.getElem?_eq_none (by omega)] at hkey
      cases hkey
    rw [hidx, hwl, List.length_append]
    omega

theorem search_no_location {data : ProblemData} (hN : data.N = 0) :
    search data = .ok ⟨initial.dp, 0, [], [(0, -1, 0)], 1⟩ := by
  simp [search, hN, workBound, loop, initial, process, Table.store, returnFrom, expand]

/-! ## The order of processing -/

/-- The worklist never holds a key twice. -/
theorem reachable_nodup {data : ProblemData} {s : Search} (h : Reachable data s) :
    s.states_to_process.Nodup := by
  induction h with
  | start => simp [initial]
  | step hprev hkey hproc ih =>
    obtain ⟨current, ret, added, -, -, -, -, hwl, hnd, hnone, -, -, -, -, -, -, -⟩ :=
      process_facts (reachable_inv hprev) hkey hproc
    rw [hwl]
    refine List.nodup_append.2 ⟨ih, hnd, ?_⟩
    intro k hk hka
    obtain ⟨st, hst⟩ := (reachable_inv hprev).table.stored k hk
    rw [hnone k hka] at hst
    cases hst

/-! ## Completeness of the search -/

/-- At the end of the search every route the search can reach has its key on
the worklist. -/
theorem explorable_queued {data : ProblemData} {s : Search}
    (hs : Inv data s) (hend : s.states_to_process.length ≤ s.process_idx)
    (p : List Nat) (hp : Explorable data p) :
    ∃ k, IsKey data p k ∧ k ∈ s.states_to_process := by
  have hall : s.states_to_process.take s.process_idx = s.states_to_process :=
    List.take_of_length_le hend
  induction p using List.reverseRecOn with
  | nil => exact ⟨(0, -1, 0), ⟨rfl, 0, reach_nil data⟩, hs.root⟩
  | append_singleton p x ih =>
    obtain ⟨hp1, hxp, hx, hcomp⟩ := explorable_snoc.1 hp
    obtain ⟨k, ⟨hm, w, hw⟩, hk⟩ := ih hp1
    obtain ⟨l, t, w', hreach⟩ := completes_reach hcomp
    obtain ⟨loc0, time0, w0, a, v, hq, he, hv, hl, -⟩ := reach_snoc_inv hreach
    obtain ⟨rfl, rfl, rfl⟩ := reach_unique hq hw
    subst hl
    obtain ⟨ret, hret, hle⟩ := (completes_of_reach hreach).1 hcomp
    have hb : k.1.testBit x = false := by
      rw [hm]
      cases hbit : (maskOf p).testBit x with
      | false => rfl
      | true => exact absurd ((testBit_maskOf p x).1 hbit) hxp
    refine ⟨(k.1 ||| (1 <<< x), (x : Int), t), ⟨?_, _, hreach⟩, ?_⟩
    · simp only [maskOf_snoc, hm]
    · exact hs.done_next k (by rw [hall]; exact hk) x hx hb t ⟨a, ret, he, hret, hle⟩

/-- The search result is optimal among the routes the search can reach and
that pass the completion check: none has a greater cumulative reward, as the
program computes it. -/
theorem search_optimal {data : ProblemData} {s : Search}
    (hs : Inv data s) (hend : s.states_to_process.length ≤ s.process_idx)
    (p : List Nat) (hp : Explorable data p) (hc : Completes data p) :
    wrap (rewardSum data p) ≤ s.best_reward := by
  obtain ⟨k, ⟨hm, w, hw⟩, hmem⟩ := explorable_queued hs hend p hp
  have hall : s.states_to_process.take s.process_idx = s.states_to_process :=
    List.take_of_length_le hend
  rw [← reach_reward hw]
  exact hs.done_best k (by rw [hall]; exact hmem) p w hp hc hm hw

/-- The state the search returns: reachable, with an exhausted worklist. -/
theorem search_end {data : ProblemData} {s : Search} (h : search data = .ok s) :
    Inv data s ∧ s.states_to_process.length ≤ s.process_idx :=
  ⟨reachable_inv (search_reachable h), List.getElem?_eq_none_iff.1 (loop_exhausts _ h)⟩

/-! ## When the program meets no fault -/

/-- A search that returns has met no fault on any route it can reach. -/
theorem search_noFault {data : ProblemData} {s : Search} (h : search data = .ok s) :
    NoFault data := by
  obtain ⟨hs, hend⟩ := search_end h
  have hall : s.states_to_process.take s.process_idx = s.states_to_process :=
    List.take_of_length_le hend
  intro p loc time w hp hw
  obtain ⟨k, ⟨hm, w', hw'⟩, hk⟩ := explorable_queued hs hend p hp
  obtain ⟨hl, ht, -⟩ := reach_unique hw hw'
  obtain ⟨hret, hev⟩ := hs.done_ok k (by rw [hall]; exact hk)
  rw [hl, ht]
  refine ⟨hret, ?_⟩
  intro x hx hb
  exact hev x hx (by rw [hm]; exact hb)

theorem visit_ok {data : ProblemData} {mask : Nat} {loc time : Int} {current : State}
    (tw : Table × List Key) {x : Nat}
    (h : mask.testBit x = false → ∃ a d ret, extendTimes data loc time x = .ok (a, d) ∧
        at2 data.travel_time ((x : Int) + 1) 0 = .ok ret ∧
        (add32 d ret ≤ data.T → ∃ v, at1 data.rewards (x : Int) = .ok v)) :
    ∃ tw', visit data mask loc time current tw x = .ok tw' := by
  unfold visit
  by_cases hvis : mask &&& (1 <<< x) ≠ 0
  · exact ⟨tw, by rw [if_pos hvis]⟩
  · rw [if_neg hvis]
    have hb : mask.testBit x = false := by
      cases hbit : mask.testBit x with
      | false => rfl
      | true => exact absurd ((visited_iff mask x).2 hbit) hvis
    obtain ⟨a, d, ret, he, hret, hrew⟩ := h hb
    simp only [he, hret]
    by_cases hg : add32 d ret > data.T
    · exact ⟨tw, by rw [if_pos hg]⟩
    · rw [if_neg hg]
      obtain ⟨v, hv⟩ := hrew (by omega)
      simp only [hv]
      split
      · exact ⟨_, rfl⟩
      · exact ⟨_, rfl⟩

theorem expand_ok {data : ProblemData} {mask : Nat} {loc time : Int} {current : State}
    (cands : List Nat) (tw : Table × List Key)
    (h : ∀ x ∈ cands, mask.testBit x = false →
      ∃ a d ret, extendTimes data loc time x = .ok (a, d) ∧
        at2 data.travel_time ((x : Int) + 1) 0 = .ok ret ∧
        (add32 d ret ≤ data.T → ∃ v, at1 data.rewards (x : Int) = .ok v)) :
    ∃ tw', expand data mask loc time current cands tw = .ok tw' := by
  induction cands generalizing tw with
  | nil => exact ⟨tw, rfl⟩
  | cons x rest ih =>
    obtain ⟨tw1, h1⟩ := @visit_ok data mask loc time current tw x (h x (List.mem_cons_self _ _))
    obtain ⟨tw2, h2⟩ := ih tw1 (fun y hy => h y (List.mem_cons_of_mem _ hy))
    exact ⟨tw2, by simp only [expand, h1, h2]⟩

/-- Without a fault on the routes the search can reach, an iteration returns. -/
theorem process_ok {data : ProblemData} (hn : NoFault data) {s : Search} (hs : Inv data s)
    {key : Key} (hkey : s.states_to_process[s.process_idx]? = some key) :
    ∃ s', process data s key = .ok s' := by
  obtain ⟨current, hcur⟩ := hs.table.stored _ (List.getElem?_mem hkey)
  obtain ⟨hexp, hmask, hreach⟩ := hs.table.entries _ _ hcur
  obtain ⟨⟨ret, hret⟩, hev⟩ := hn _ _ _ _ hexp hreach
  unfold process
  simp only [hcur, hret]
  by_cases hc : add32 key.2.2 ret ≤ data.T ∧ current.reward > s.best_reward
  · obtain ⟨tw', htw⟩ := @expand_ok data key.1 key.2.1 key.2.2 current (List.range data.N)
      (s.dp, s.states_to_process)
      (fun x hx hb => hev x (List.mem_range.1 hx) (by rw [← hmask]; exact hb))
    simp only [hc, and_self, if_true, htw]
    exact ⟨_, rfl⟩
  · obtain ⟨tw', htw⟩ := @expand_ok data key.1 key.2.1 key.2.2 current (List.range data.N)
      (s.dp, s.states_to_process)
      (fun x hx hb => hev x (List.mem_range.1 hx) (by rw [← hmask]; exact hb))
    simp only [hc, if_false, htw]
    exact ⟨_, rfl⟩

theorem loop_ok {data : ProblemData} (hn : NoFault data) (fuel : Nat) (s : Search)
    (hs : Inv data s) (hfuel : pending data s ≤ fuel) :
    ∃ s', loop data fuel s = .ok s' := by
  induction fuel generalizing s with
  | zero =>
    cases hkey : s.states_to_process[s.process_idx]? with
    | none => exact ⟨s, by simp [loop, hkey]⟩
    | some key =>
      exfalso
      have hlt : s.process_idx < s.states_to_process.length := by
        by_contra hge
        rw [List.getElem?_eq_none (by omega)] at hkey
        cases hkey
      have hpos : 1 ≤ pending data s := by
        unfold pending
        rw [List.drop_eq_getElem_cons hlt]
        simp only [List.map_cons, List.sum_cons]
        have := workBound_pos data.N (unvisited data.N (s.states_to_process[s.process_idx]).1)
        omega
      omega
  | succ fuel ih =>
    cases hkey : s.states_to_process[s.process_idx]? with
    | none => exact ⟨s, by simp [loop, hkey]⟩
    | some key =>
      obtain ⟨s1, hproc⟩ := process_ok hn hs hkey
      have hdec := process_pending hkey hproc
      obtain ⟨s', hloop⟩ := ih s1 (process_inv hs hkey hproc) (by omega)
      exact ⟨s', by simp [loop, hkey, hproc, hloop]⟩

/-- The search returns exactly when the program meets no fault on the routes
the search can reach. -/
theorem search_ok_iff {data : ProblemData} : (∃ s, search data = .ok s) ↔ NoFault data := by
  constructor
  · rintro ⟨s, hs⟩
    exact search_noFault hs
  · intro hn
    unfold search
    exact loop_ok hn _ initial (initial_inv data) (le_of_eq (pending_initial data))

/-- After a search that returned, `solve` prints a report: the replay of the
best path and the return from its end are defined. -/
theorem solve_of_search {data : ProblemData} (hN : data.N ≤ 20) {s : Search}
    (h : search data = .ok s) :
    ∃ r ret, replay data s.best_path = .ok r ∧ returnFrom data r.current_loc = .ok ret ∧
      r.total_reward = s.best_reward ∧
      (s.best_path = [] ∨ add32 r.current_time ret ≤ data.T) ∧
      solve data = .ok (.printed ⟨s.best_reward, s.best_path, r.stops, r.total_reward,
        add32 r.current_time ret⟩) := by
  obtain ⟨hs, hend⟩ := search_end h
  obtain ⟨hexp, loc, t, ⟨r, hr, hl, ht, hw⟩⟩ := hs.best_ok
  have hN' : ¬ data.N > 20 := by omega
  obtain ⟨⟨ret, hret⟩, -⟩ := search_noFault h _ _ _ _ hexp ⟨r, hr, hl, ht, hw⟩
  rw [← hl] at hret
  refine ⟨r, ret, hr, hret, hw, ?_, by simp [solve, hN', h, hr, hret]⟩
  by_cases hnil : s.best_path = []
  · exact Or.inl hnil
  · right
    obtain ⟨q, x, hqx⟩ : ∃ q x, s.best_path = q ++ [x] := by
      rcases List.eq_nil_or_concat s.best_path with h0 | ⟨q, x, h0⟩
      · exact absurd h0 hnil
      · exact ⟨q, x, by rw [h0]; simp⟩
    have hcomp : Completes data s.best_path := by
      rw [hqx]
      exact hexp.2.2 q x (by rw [hqx])
    obtain ⟨ret', hret', hle⟩ := (completes_of_reach ⟨r, hr, rfl, rfl, rfl⟩).1 hcomp
    rw [hret] at hret'
    cases hret'
    exact hle

/-- What a report of `solve` says about the search behind it. -/
theorem solve_inv {data : ProblemData} {rep : Report} (h : solve data = .ok (.printed rep)) :
    data.N ≤ 20 ∧ ∃ s r ret, search data = .ok s ∧ replay data s.best_path = .ok r ∧
      returnFrom data r.current_loc = .ok ret ∧
      rep = ⟨s.best_reward, s.best_path, r.stops, r.total_reward,
        add32 r.current_time ret⟩ := by
  unfold solve at h
  by_cases hN : data.N > 20
  · rw [if_pos hN] at h
    cases h
  · rw [if_neg hN] at h
    refine ⟨by omega, ?_⟩
    cases hs : search data with
    | error e => simp [hs] at h
    | ok s =>
      simp only [hs] at h
      cases hr : replay data s.best_path with
      | error e => simp [hr] at h
      | ok r =>
        simp only [hr] at h
        cases hret : returnFrom data r.current_loc with
        | error e => simp [hret] at h
        | ok ret =>
          simp only [hret, Except.ok.injEq, Outcome.printed.injEq] at h
          exact ⟨s, r, ret, rfl, hr, hret, h.symm⟩

/-! ## Routes over the integers -/

theorem rewards_ok {data : ProblemData} (hv : Valid data) {x : Nat} (hx : x < data.N) :
    at1 data.rewards (x : Int) = .ok (data.rewards.getD x 0) := by
  have hlen : x < data.rewards.length := by rw [hv.2.2.2.1]; exact hx
  simp [at1, List.getElem?_eq_getElem hlen, List.getD_eq_getElem?_getD]

theorem at1_mem {α : Type} {v : List α} {i : Int} {x : α} (h : at1 v i = .ok x) : x ∈ v := by
  unfold at1 at h
  split at h
  · split at h
    · rename_i y hy
      cases h
      exact List.getElem?_mem hy
    · cases h
  · cases h

theorem at2_mem {m : List (List Int)} {i j : Int} {x : Int} (h : at2 m i j = .ok x) :
    ∃ row ∈ m, x ∈ row := by
  unfold at2 at h
  cases hrow : at1 m i with
  | error e => simp [hrow] at h
  | ok row =>
    simp only [hrow] at h
    exact ⟨row, at1_mem hrow, at1_mem h⟩

theorem at2_getD {m : List (List Int)} {i j : Nat} {v : Int}
    (h : at2 m (i : Int) (j : Int) = .ok v) : (m.getD i []).getD j 0 = v := by
  unfold at2 at h
  cases hrow : at1 m (i : Int) with
  | error e => simp [hrow] at h
  | ok row =>
    simp only [hrow] at h
    rw [at1_getD [] hrow]
    exact at1_getD 0 h

theorem at2_travelD {data : ProblemData} {i j : Nat} {v : Int}
    (h : at2 data.travel_time (i : Int) (j : Int) = .ok v) : travelD data i j = v :=
  at2_getD h

theorem travelTo_travelD {data : ProblemData} {loc : Int} (hloc : LocOK data loc) {x : Nat}
    {v : Int} (h : travelTo data loc x = .ok v) :
    travelD data (loc + 1).toNat (x + 1) = v ∧ ∃ row ∈ data.travel_time, v ∈ row := by
  unfold travelTo at h
  rcases hloc with hneg | ⟨h0, h1⟩
  · subst hneg
    simp only [if_true] at h
    refine ⟨?_, at2_mem h⟩
    have h' : at2 data.travel_time ((0 : Nat) : Int) ((x + 1 : Nat) : Int) = .ok v := by
      push_cast; exact h
    exact at2_travelD h'
  · obtain ⟨y, rfl⟩ := Int.eq_ofNat_of_zero_le h0
    have hne : ¬ ((y : Int) = -1) := by omega
    simp only [hne, if_false] at h
    refine ⟨?_, at2_mem h⟩
    have h' : at2 data.travel_time ((y + 1 : Nat) : Int) ((x + 1 : Nat) : Int) = .ok v := by
      push_cast; exact h
    have hy : ((y : Int) + 1).toNat = y + 1 := by omega
    rw [hy]
    exact at2_travelD h'

theorem stay_ok {data : ProblemData} (hv : Valid data) {x : Nat} (hx : x < data.N) {slot : Int}
    (h0 : 0 ≤ slot) (h1 : slot < data.S) :
    ∃ v, at2 data.stay_time (x : Int) slot = .ok v ∧ 0 ≤ v := by
  obtain ⟨-, -, -, -, -, -, hrows, hcols⟩ := hv
  exact at2_ok data.stay_time (x : Int) slot data.S (by omega) (by rw [hrows]; exact_mod_cast hx)
    hcols h0 h1

theorem getTimeSlot_true {data : ProblemData} (hv : Valid data) (hf : TimesFit data) {a : Int}
    (ha : 0 ≤ a) :
    getTimeSlot a data.T data.S = .ok (trueSlot data a) ∧ 0 ≤ trueSlot data a ∧
      trueSlot data a < data.S := by
  have hT := hv.2.1
  have hS := hv.2.2.1
  obtain ⟨slot, hslot, h0, h1⟩ := getTimeSlot_ok ha hT hS hf.1
  have heq := @getTimeSlot_eq a data.T data.S hT hS hf.1
  have hd := slotDuration_pos hT hS
  have h2 : trueSlot data a = min (a.tdiv ((data.T + data.S - 1).tdiv data.S)) (data.S - 1) := by
    unfold trueSlot
    rw [Int.tdiv_eq_ediv ha (le_of_lt hd), Int.tdiv_eq_ediv (by omega) (by omega)]
  rw [hslot] at heq
  cases heq
  rw [h2]
  exact ⟨hslot, h0, h1⟩

/-- On a valid instance whose times fit, the extension of a state at a time
within the limit is computed without overflow: the program's times are the
times over the integers. -/
theorem extend_exact {data : ProblemData} (hv : Valid data) (hf : TimesFit data) {loc t : Int}
    (hloc : LocOK data loc) (h0 : 0 ≤ t) (hT : t ≤ data.T) {x : Nat} (hx : x < data.N) :
    ∃ a d ret, extendTimes data loc t x = .ok (a, d) ∧
      at2 data.travel_time ((x : Int) + 1) 0 = .ok ret ∧
      trueStep data ((loc + 1).toNat, t) x = (x + 1, d) ∧ travelD data (x + 1) 0 = ret ∧
      t ≤ a ∧ a ≤ d ∧ 0 ≤ ret ∧ add32 d ret = d + ret := by
  obtain ⟨v, hv1, hv0⟩ := travelTo_ok hv hloc hx
  obtain ⟨hvD, row, hrow, hvrow⟩ := travelTo_travelD hloc hv1
  obtain ⟨b, hb1, hb0⟩ := travel_ok hv ((x : Int) + 1) 0 (by omega) (by omega) (by omega)
    (by omega)
  obtain ⟨row', hrow', hbrow⟩ := at2_mem hb1
  have hbD : travelD data (x + 1) 0 = b := by
    have h' : at2 data.travel_time ((x + 1 : Nat) : Int) ((0 : Nat) : Int) = .ok b := by
      push_cast; exact hb1
    exact at2_travelD h'
  have hS := hv.2.2.1
  obtain ⟨c0, hc0, hc00⟩ := @stay_ok data hv x hx 0 (le_refl _) (by omega)
  obtain ⟨srow0, hsrow0, hc0row⟩ := at2_mem hc0
  have hb0' := hf.2 row hrow v hvrow row' hrow' b hbrow srow0 hsrow0 c0 hc0row
  have ha : add32 t v = t + v := add32_eq (by omega) (by omega)
  obtain ⟨hslot, hs0, hs1⟩ := @getTimeSlot_true data hv hf (t + v) (by omega)
  obtain ⟨c, hc, hc0'⟩ := stay_ok hv hx hs0 hs1
  obtain ⟨srow, hsrow, hcrow⟩ := at2_mem hc
  have hbound := hf.2 row hrow v hvrow row' hrow' b hbrow srow hsrow c hcrow
  have hd : add32 (t + v) c = t + v + c := add32_eq (by omega) (by omega)
  have hcD : stayD data x (trueSlot data (t + v)).toNat = c := by
    have h' : at2 data.stay_time ((x : Nat) : Int)
        (((trueSlot data (t + v)).toNat : Nat) : Int) = .ok c := by
      rw [Int.toNat_of_nonneg hs0]; exact hc
    exact at2_getD h'
  have he : extendTimes data loc t x = .ok (t + v, t + v + c) := by
    have hslot' : getTimeSlot (add32 t v) data.T data.S = .ok (trueSlot data (t + v)) := by
      rw [ha]; exact hslot
    have := extendTimes_of hv1 hslot' hc
    rw [ha, hd] at this
    exact this
  refine ⟨t + v, t + v + c, b, he, hb1, ?_, hbD, by omega, by omega, hb0,
    add32_eq (by omega) (by omega)⟩
  simp only [trueStep, hvD, hcD]

theorem trueEnd_nil (data : ProblemData) : trueEnd data [] = (0, 0) := rfl

theorem trueEnd_snoc (data : ProblemData) (q : List Nat) (x : Nat) :
    trueEnd data (q ++ [x]) = trueStep data (trueEnd data q) x := by
  simp [trueEnd, List.foldl_append]

theorem trueExplorable_nil (data : ProblemData) : TrueExplorable data [] :=
  ⟨List.nodup_nil, fun _ h => absurd h (List.not_mem_nil _), fun n hn => by simp at hn⟩

theorem trueExplorable_snoc {data : ProblemData} {q : List Nat} {x : Nat} :
    TrueExplorable data (q ++ [x]) ↔
      TrueExplorable data q ∧ x ∉ q ∧ x < data.N ∧ trueTotal data (q ++ [x]) ≤ data.T := by
  unfold TrueExplorable
  rw [List.nodup_append, inRange_snoc]
  simp only [List.nodup_singleton, true_and, List.Disjoint, List.mem_singleton,
    List.length_append, List.length_singleton]
  constructor
  · rintro ⟨⟨h1, h2⟩, ⟨h3, h4⟩, h5⟩
    refine ⟨⟨h1, h3, ?_⟩, fun hx => h2 hx rfl, h4, ?_⟩
    · intro n hn
      have := h5 n (by omega)
      rwa [List.take_append_of_le_length (by omega)] at this
    · have := h5 q.length (by omega)
      rwa [List.take_of_length_le (by simp)] at this
  · rintro ⟨⟨h1, h3, h5⟩, h2, h4, h6⟩
    refine ⟨⟨h1, ?_⟩, ⟨h3, h4⟩, ?_⟩
    · intro a ha hax
      subst hax
      exact h2 ha
    · intro n hn
      by_cases hnq : n < q.length
      · rw [List.take_append_of_le_length (by omega)]
        exact h5 n hnq
      · rw [List.take_of_length_le (by simp; omega)]
        exact h6

theorem lastLoc_snoc (q : List Nat) (x : Nat) : lastLoc (q ++ [x]) = (x : Int) := by
  simp [lastLoc]

theorem lastLoc_ok {data : ProblemData} {p : List Nat} (h : InRange data p) :
    LocOK data (lastLoc p) := by
  rcases List.eq_nil_or_concat p with h0 | ⟨q, x, h0⟩
  · subst h0
    exact Or.inl rfl
  · have hp : p = q ++ [x] := by rw [h0]; simp
    subst hp
    rw [lastLoc_snoc]
    have := (inRange_snoc.1 h).2
    exact Or.inr ⟨by omega, by exact_mod_cast this⟩

/-- On a valid instance whose times fit, the routes the search can reach are
the routes every non-empty prefix of which passes the gate over the integers,
and the program computes their times without overflow. -/
theorem explorable_exact {data : ProblemData} (hv : Valid data) (hf : TimesFit data)
    (p : List Nat) :
    (Explorable data p ↔ TrueExplorable data p) ∧
    (Explorable data p → ∃ w, Reach data p (lastLoc p) (trueEnd data p).2 w ∧
      (trueEnd data p).1 = (lastLoc p + 1).toNat ∧ 0 ≤ (trueEnd data p).2 ∧
      (trueEnd data p).2 ≤ data.T ∧ totalTime data p = .ok (trueTotal data p) ∧
      trueTotal data p ≤ data.T) := by
  have hT := hv.2.1
  induction p using List.reverseRecOn with
  | nil =>
    refine ⟨⟨fun _ => trueExplorable_nil data, fun _ => explorable_nil data⟩, ?_⟩
    intro _
    exact ⟨0, reach_nil data, rfl, le_refl _, by simp only [trueEnd_nil]; omega, rfl,
      by simp only [trueTotal, trueEnd_nil, trueReturn]; omega⟩
  | append_singleton q x ih =>
    obtain ⟨ih1, ih2⟩ := ih
    have key : Explorable data q → x < data.N →
        ∃ w d, Reach data (q ++ [x]) (x : Int) d w ∧ trueEnd data (q ++ [x]) = (x + 1, d) ∧
          0 ≤ d ∧ (Completes data (q ++ [x]) ↔ trueTotal data (q ++ [x]) ≤ data.T) ∧
          (trueTotal data (q ++ [x]) ≤ data.T → d ≤ data.T) ∧
          totalTime data (q ++ [x]) = .ok (trueTotal data (q ++ [x])) := by
      intro hq hx
      obtain ⟨w, hreach, hrow, h0, hle, -, -⟩ := ih2 hq
      obtain ⟨a, d, ret, he, hret, hstep, hretD, hta, had, hret0, hadd⟩ :=
        extend_exact hv hf (lastLoc_ok hq.2.1) h0 hle hx
      have hreach' := reach_snoc hreach he (rewards_ok hv hx)
      have hend : trueEnd data (q ++ [x]) = (x + 1, d) := by
        rw [trueEnd_snoc, ← hstep, ← hrow]
      have htot : trueTotal data (q ++ [x]) = d + ret := by
        simp only [trueTotal, hend, trueReturn, hretD]
      refine ⟨_, d, hreach', hend, by omega, ?_, by rw [htot]; omega, ?_⟩
      · rw [completes_of_reach hreach', htot, returnFrom_loc, hret]
        constructor
        · rintro ⟨ret', hret', hle'⟩
          cases hret'
          omega
        · intro hle'
          exact ⟨ret, rfl, by omega⟩
      · rw [htot, ← hadd]
        exact totalTime_ok_iff.2 ⟨_, _, _, ret, hreach', by rw [returnFrom_loc]; exact hret, rfl⟩
    refine ⟨?_, ?_⟩
    · rw [explorable_snoc, trueExplorable_snoc, ih1]
      constructor
      · rintro ⟨h1, h2, h3, h4⟩
        obtain ⟨w, d, -, -, -, hiff, -, -⟩ := key (ih1.2 h1) h3
        exact ⟨h1, h2, h3, hiff.1 h4⟩
      · rintro ⟨h1, h2, h3, h4⟩
        obtain ⟨w, d, -, -, -, hiff, -, -⟩ := key (ih1.2 h1) h3
        exact ⟨h1, h2, h3, hiff.2 h4⟩
    · intro hp
      obtain ⟨hq, -, hx, hcomp⟩ := explorable_snoc.1 hp
      obtain ⟨w, d, hreach, hend, hd0, hiff, hdT, htt⟩ := key hq hx
      refine ⟨w, ?_, ?_, ?_, ?_, htt, hiff.1 hcomp⟩
      · rw [lastLoc_snoc, hend]; exact hreach
      · rw [lastLoc_snoc, hend]
        simp only
        omega
      · rw [hend]; exact hd0
      · rw [hend]; exact hdT (hiff.1 hcomp)

/-- The facts about a route the search can reach, on a valid instance whose
times fit: its end is a place of the instance and its time lies in `[0, T]`. -/
theorem reach_fit {data : ProblemData} (hv : Valid data) (hf : TimesFit data) {p : List Nat}
    (hp : Explorable data p) {loc time w : Int} (h : Reach data p loc time w) :
    LocOK data loc ∧ 0 ≤ time ∧ time ≤ data.T ∧ time = (trueEnd data p).2 := by
  obtain ⟨w', hreach, -, h0, hT, -, -⟩ := (explorable_exact hv hf p).2 hp
  obtain ⟨hl, ht, -⟩ := reach_unique h hreach
  rw [hl, ht]
  exact ⟨lastLoc_ok hp.2.1, h0, hT, rfl⟩

/-- On a valid instance whose times fit the program meets no fault. -/
theorem noFault_of_fit {data : ProblemData} (hv : Valid data) (hf : TimesFit data) :
    NoFault data := by
  intro p loc time w hp hreach
  obtain ⟨hloc, h0, hT, -⟩ := reach_fit hv hf hp hreach
  obtain ⟨ret, hret, -⟩ := returnFrom_ok hv hloc
  refine ⟨⟨ret, hret⟩, ?_⟩
  intro x hx _
  obtain ⟨a, d, ret', he, hret', -, -, -, -, -, -⟩ := extend_exact hv hf hloc h0 hT hx
  exact ⟨a, d, ret', he, hret', fun _ => ⟨_, rewards_ok hv hx⟩⟩

/-- On a valid instance whose times fit the search returns. -/
theorem search_ok {data : ProblemData} (hv : Valid data) (hf : TimesFit data) :
    ∃ s, search data = .ok s :=
  search_ok_iff.2 (noFault_of_fit hv hf)

/-- On a valid instance whose times fit `solve` prints a report. -/
theorem solve_ok {data : ProblemData} (hv : Valid data) (hf : TimesFit data) :
    ∃ rep, solve data = .ok (.printed rep) := by
  obtain ⟨s, hs⟩ := search_ok hv hf
  obtain ⟨r, ret, -, -, -, -, hsolve⟩ := solve_of_search hv.1 hs
  exact ⟨_, hsolve⟩

/-! ## Reward sums that fit -/

theorem sum_natAbs_getD (l : List Int) (p : List Nat) (hnd : p.Nodup)
    (hr : ∀ x ∈ p, x < l.length) :
    ((p.map (fun i => l.getD i 0)).sum).natAbs ≤ (l.map Int.natAbs).sum := by
  have h1 : ((p.map (fun i => l.getD i 0)).sum).natAbs ≤
      (p.map (fun i => (l.getD i 0).natAbs)).sum := by
    clear hnd hr
    induction p with
    | nil => simp
    | cons a p ih =>
      simp only [List.map_cons, List.sum_cons]
      exact le_trans (Int.natAbs_add_le _ _) (Nat.add_le_add_left ih _)
  refine le_trans h1 ?_
  have h2 : (l.map Int.natAbs).sum =
      ((List.range l.length).map (fun i => (l.getD i 0).natAbs)).sum := by
    congr 1
    apply List.ext_getElem
    · simp
    · intro n hn1 hn2
      simp only [List.length_map] at hn1
      simp [List.getD_eq_getElem?_getD, List.getElem?_eq_getElem hn1]
  rw [h2]
  have hsub : p.Subperm (List.range l.length) := by
    apply List.subperm_of_subset hnd
    intro x hx
    exact List.mem_range.2 (hr x hx)
  obtain ⟨q, hq, hsl⟩ := hsub
  rw [← (hq.map _).sum_eq]
  exact List.Sublist.sum_le_sum (hsl.map _) (fun _ _ => Nat.zero_le _)

/-- When the rewards fit, the reward sum of a route with distinct locations is
what the program computes for it. -/
theorem wrap_rewardSum_of {data : ProblemData} (hf : RewardsFit data)
    {p : List Nat} (hnd : p.Nodup) (hr : ∀ x ∈ p, x < data.rewards.length) :
    wrap (rewardSum data p) = rewardSum data p := by
  have h := sum_natAbs_getD data.rewards p hnd hr
  unfold RewardsFit at hf
  have h' : ((rewardSum data p).natAbs : Int) ≤ 2147483647 := by
    unfold rewardSum
    exact le_trans (by exact_mod_cast h) hf
  apply wrap_eq <;> omega

theorem wrap_rewardSum {data : ProblemData} (hv : Valid data) (hf : RewardsFit data)
    {p : List Nat} (hnd : p.Nodup) (hr : InRange data p) :
    wrap (rewardSum data p) = rewardSum data p :=
  wrap_rewardSum_of hf hnd (fun x hx => by rw [hv.2.2.2.1]; exact hr x hx)

/-! ## The report of `solve` -/

/-- What a report of `solve` says about the search behind it: the search
returned in a state that satisfies the invariant with an exhausted worklist,
and the report is made of its best record and the replay of the best path. -/
theorem solve_report {data : ProblemData} {rep : Report}
    (h : solve data = .ok (.printed rep)) :
    ∃ s, search data = .ok s ∧ Inv data s ∧ s.states_to_process.length ≤ s.process_idx ∧
      rep.best_reward = s.best_reward ∧ rep.best_path = s.best_path ∧
      rep.total_reward = s.best_reward ∧
      totalTime data s.best_path = .ok rep.total_time ∧
      ∃ r, replay data s.best_path = .ok r ∧ rep.stops = r.stops ∧
        rep.total_reward = r.total_reward := by
  obtain ⟨hN, s, r, ret, hs, hr, hret, hrep⟩ := solve_inv h
  obtain ⟨hinv, hend⟩ := search_end hs
  obtain ⟨-, loc, t, hreach⟩ := hinv.best_ok
  obtain ⟨-, -, hw⟩ := reach_unique hreach ⟨r, hr, rfl, rfl, rfl⟩
  subst hrep
  refine ⟨s, hs, hinv, hend, rfl, rfl, hw.symm, ?_, r, hr, rfl, rfl⟩
  exact totalTime_ok_iff.2 ⟨_, _, _, ret, ⟨r, hr, rfl, rfl, rfl⟩, hret, rfl⟩

theorem rewardSum_nonpos {data : ProblemData} (h : ∀ v ∈ data.rewards, v ≤ 0) (p : List Nat) :
    rewardSum data p ≤ 0 := by
  induction p using List.reverseRecOn with
  | nil => simp [rewardSum]
  | append_singleton p x ih =>
    rw [rewardSum_snoc]
    have hx : data.rewards.getD x 0 ≤ 0 := by
      rw [List.getD_eq_getElem?_getD]
      cases hget : data.rewards[x]? with
      | none => simp
      | some v => simpa using h v (List.getElem?_mem hget)
    omega

theorem getD_getD_nonneg (m : List (List Int))
    (h : ∀ row ∈ m, ∀ v ∈ row, (0 : Int) ≤ v) (i j : Nat) : 0 ≤ (m.getD i []).getD j 0 := by
  rw [List.getD_eq_getElem?_getD, List.getD_eq_getElem?_getD]
  cases hrow : m[i]? with
  | none => simp
  | some row =>
    simp only [Option.getD_some]
    cases hx : row[j]? with
    | none => simp
    | some x =>
      simp only [Option.getD_some]
      exact h row (List.getElem?_mem hrow) x (List.getElem?_mem hx)

theorem travelD_nonneg {data : ProblemData} (hv : Valid data) (i j : Nat) :
    0 ≤ travelD data i j :=
  getD_getD_nonneg _ (fun row hrow => (hv.2.2.2.2.2.1 row hrow).2) i j

theorem stayD_nonneg {data : ProblemData} (hv : Valid data) (i j : Nat) :
    0 ≤ stayD data i j :=
  getD_getD_nonneg _ (fun row hrow => (hv.2.2.2.2.2.2.2 row hrow).2) i j

theorem trueEnd_row (data : ProblemData) (p : List Nat) :
    (trueEnd data p).1 = (lastLoc p + 1).toNat := by
  rcases List.eq_nil_or_concat p with h0 | ⟨q, x, h0⟩
  · subst h0
    rfl
  · have hp : p = q ++ [x] := by rw [h0]; simp
    subst hp
    rw [trueEnd_snoc, lastLoc_snoc]
    simp only [trueStep]
    omega

/-- With direct returns never longer than detours, a route takes no longer
without its last stop. -/
theorem trueTotal_init {data : ProblemData} (hv : Valid data) (htri : DirectReturn data)
    {q : List Nat} {x : Nat} (hr : InRange data (q ++ [x])) :
    trueTotal data q ≤ trueTotal data (q ++ [x]) := by
  obtain ⟨hq, hx⟩ := inRange_snoc.1 hr
  have hrow := trueEnd_row data q
  simp only [trueTotal, trueEnd_snoc, trueStep, trueReturn]
  have h1 := travelD_nonneg hv (trueEnd data q).1 (x + 1)
  have h2 := stayD_nonneg hv x
    (trueSlot data ((trueEnd data q).2 + travelD data (trueEnd data q).1 (x + 1))).toNat
  have h3 := travelD_nonneg hv (x + 1) 0
  rcases List.eq_nil_or_concat q with h0 | ⟨q', y, h0⟩
  · subst h0
    simp only [trueEnd_nil, trueReturn] at *
    omega
  · have hq' : q = q' ++ [y] := by rw [h0]; simp
    subst hq'
    have hy : y < data.N := (inRange_snoc.1 hq).2
    rw [lastLoc_snoc] at hrow
    have hrow' : (trueEnd data (q' ++ [y])).1 = y + 1 := by omega
    rw [hrow'] at h1 h2 ⊢
    have := htri y hy x hx
    simp only [trueReturn]
    omega

/-- With direct returns never longer than detours, every non-empty prefix of a
feasible route passes the gate. -/
theorem feasible_explorable {data : ProblemData} (hv : Valid data) (htri : DirectReturn data)
    (p : List Nat) (hp : Feasible data p) : TrueExplorable data p := by
  induction p using List.reverseRecOn with
  | nil => exact trueExplorable_nil data
  | append_singleton q x ih =>
    obtain ⟨hnd, hr, hc⟩ := hp
    have hq : Feasible data q :=
      ⟨(List.nodup_append.1 hnd).1, (inRange_snoc.1 hr).1,
        le_trans (trueTotal_init hv htri hr) hc⟩
    have hxq : x ∉ q := by
      intro hmem
      exact (List.nodup_append.1 hnd).2.2 hmem (List.mem_singleton_self x)
    exact trueExplorable_snoc.2 ⟨ih hq, hxq, (inRange_snoc.1 hr).2, hc⟩

/-- Every non-empty prefix passing the gate, the route itself is feasible. -/
theorem trueExplorable_feasible {data : ProblemData} (hT : 0 ≤ data.T) {p : List Nat}
    (hp : TrueExplorable data p) : Feasible data p := by
  refine ⟨hp.1, hp.2.1, ?_⟩
  rcases List.eq_nil_or_concat p with h0 | ⟨q, x, h0⟩
  · subst h0
    simp only [trueTotal, trueEnd_nil, trueReturn]
    omega
  · have hp' : p = q ++ [x] := by rw [h0]; simp
    subst hp'
    exact (trueExplorable_snoc.1 hp).2.2.2

/-- On a valid instance whose times and rewards fit, the report of `solve` in
terms of the routes over the integers: the reported route passes the gate at
every stop, the reported reward is its reward sum, and no route that passes the
gate at every stop has a greater reward sum. -/
theorem solve_exact {data : ProblemData} (hv : Valid data) (hs : Small data) :
    ∃ rep s, solve data = .ok (.printed rep) ∧ search data = .ok s ∧
      rep.best_path = s.best_path ∧ rep.best_reward = s.best_reward ∧
      TrueExplorable data rep.best_path ∧
      rewardSum data rep.best_path = rep.best_reward ∧
      ∀ p, TrueExplorable data p → rewardSum data p ≤ rep.best_reward := by
  obtain ⟨rep, hrep⟩ := solve_ok hv hs.1
  obtain ⟨s, hsearch, hinv, hend, hbr, hbp, -, -, -⟩ := solve_report hrep
  have hT : 0 ≤ data.T := by have := hv.2.1; omega
  obtain ⟨hexp, loc, t, hreach⟩ := hinv.best_ok
  refine ⟨rep, s, hrep, hsearch, hbp, hbr, ?_, ?_, ?_⟩
  · rw [hbp]
    exact (explorable_exact hv hs.1 _).1.1 hexp
  · rw [hbp, hbr, reach_reward hreach, wrap_rewardSum hv hs.2 hexp.1 hexp.2.1]
  · intro p hp
    have hp' := (explorable_exact hv hs.1 p).1.2 hp
    have := search_optimal hinv hend p hp' (explorable_completes hT hp')
    rw [wrap_rewardSum hv hs.2 hp.1 hp.2.1] at this
    rw [hbr]
    exact this

/-! ## The claims about the slot function -/

/-- C5 (failing input): with a time limit of 0 and one slot the slot duration
is `(0 + 1 - 1) / 1 = 0`, so `getTimeSlot` divides by zero instead of returning
a slot, and `solve` hits that division on an instance with one location. -/
theorem getTimeSlot_zero_limit :
    getTimeSlot 0 0 1 = .error .divisionByZero ∧ solve noTime = .error .divisionByZero :=
  ⟨rfl, rfl⟩

/-- C6 (counterexample): with `T = 2147483647` and `S = 2` the sum `T + S - 1`
does not fit in a 32-bit `int`; the program computes a negative slot duration,
and the slot of time 0 is 0 while the slot of the later time 2000000000 is
`-1`. -/
theorem getTimeSlot_not_monotone :
    getTimeSlot 0 2147483647 2 = .ok 0 ∧ getTimeSlot 2000000000 2147483647 2 = .ok (-1) :=
  ⟨rfl, rfl⟩

/-- C6 (amended): when `T + S - 1` fits in a 32-bit `int`, `getTimeSlot` is
monotonic non-decreasing in time: for `T ≥ 1`, `S ≥ 1`, `T + S ≤ 2^31` and
`0 ≤ t1 ≤ t2` both calls return a slot and the slot of `t1` is at most the slot
of `t2`. -/
theorem getTimeSlot_monotone (t1 t2 T S : Int) (hT : 1 ≤ T) (hS : 1 ≤ S)
    (hfit : T + S ≤ 2147483648) (h0 : 0 ≤ t1) (h12 : t1 ≤ t2) :
    ∃ s1 s2, getTimeSlot t1 T S = .ok s1 ∧ getTimeSlot t2 T S = .ok s2 ∧ s1 ≤ s2 :=
  slot_le_of_le hT hS hfit h0 h12

theorem getTimeSlot_monotone_witness :
    ∃ s1 s2, getTimeSlot 30 100 4 = .ok s1 ∧ getTimeSlot 80 100 4 = .ok s2 ∧ s1 ≤ s2 :=
  getTimeSlot_monotone 30 80 100 4 (by decide) (by decide) (by decide) (by decide) (by decide)

/-! ## The claims about the report of `solve` -/

/-- C7: on the canonical fixture `solve` reports maximum reward 30 with the
zero-based route `[0, 1]`, and the replayed total elapsed time is 35. -/
theorem solve_fixture :
    solve fixture = .ok (.printed ⟨30, [0, 1],
      [⟨0, 10, 15, 5, 10, 10⟩, ⟨1, 20, 25, 5, 20, 30⟩], 30, 35⟩) := rfl

/-- C8: with no location (`N = 0`), whatever the time limit and the slot count
(in particular for every `T ≥ 0` and `S ≥ 1`), `solve` reports best reward 0,
the empty route, no stop and a replayed total time of 0. -/
theorem solve_no_location (data : ProblemData) (hN : data.N = 0) :
    solve data = .ok (.printed ⟨0, [], [], 0, 0⟩) := by
  have hs := search_no_location hN
  simp [solve, hN, hs, replay, replayFrom, returnFrom]
  rfl

theorem solve_no_location_witness :
    solve ⟨0, 0, 1, [], [[0]], []⟩ = .ok (.printed ⟨0, [], [], 0, 0⟩) :=
  solve_no_location ⟨0, 0, 1, [], [[0]], []⟩ rfl

/-- C12 (failing input): the instance `noTime` has one location, `T = 0`,
`S = 1` and fully populated matrices with non-negative entries, and on it the
search divides by zero in the slot computation of its first expansion. -/
theorem solve_faults_without_time :
    Populated noTime ∧ search noTime = .error .divisionByZero ∧
      extendTimes noTime (-1) 0 0 = .error .divisionByZero :=
  ⟨by decide, rfl, rfl⟩

/-- C13 (failing input): on an instance with 21 locations `solve` stops at the
capacity check without searching, and `main` then ends with exit status 0, the
status of a successful run, although it ends with status 1 when the argument
count is wrong or the input cannot be read. -/
theorem main_succeeds_on_capacity_error :
    solve crowded = .ok .tooLarge ∧ main 2 (some crowded) = .ok (0, some .tooLarge) ∧
      main 1 (some crowded) = .ok (1, none) ∧ main 2 none = .ok (1, none) :=
  ⟨rfl, rfl, rfl, rfl⟩

/-- C2 (counterexample): on the valid instance `lateStop` the only location is
2000000000 away and asks for a stay of 2147483647; the 32-bit departure time
wraps around to -147483649, the gate lets the stop pass, and `solve` reports
the route `[0]` with total time -147483649 although its total elapsed time is
4147483647, far beyond the limit 10. -/
theorem solve_reports_late_route :
    Valid lateStop ∧
    solve lateStop = .ok (.printed ⟨5, [0],
      [⟨0, 2000000000, -147483649, 2147483647, 5, 5⟩], 5, -147483649⟩) ∧
    trueTotal lateStop [0] = 4147483647 ∧ lateStop.T = 10 :=
  ⟨by decide, rfl, by decide, rfl⟩

/-- C2 (amended): on a valid instance whose times fit (`T + S ≤ 2^31`, and `T`
plus any two travel times plus any stay time is at most `2^31 - 1`), `solve`
prints a report; the reported route consists of pairwise distinct locations
of the instance, and its replay from the depot at time 0, final return
included, gives the printed total time, which is the total elapsed time of the
route and is within the limit. -/
theorem solve_route_feasible (data : ProblemData) (hv : Valid data) (hf : TimesFit data) :
    ∃ rep, solve data = .ok (.printed rep) ∧ rep.best_path.Nodup ∧
      (∀ x ∈ rep.best_path, x < data.N) ∧
      totalTime data rep.best_path = .ok rep.total_time ∧
      rep.total_time = trueTotal data rep.best_path ∧ rep.total_time ≤ data.T := by
  obtain ⟨rep, hrep⟩ := solve_ok hv hf
  obtain ⟨s, -, hinv, -, -, hbp, -, htt, -⟩ := solve_report hrep
  obtain ⟨w, -, -, -, -, htot, hle⟩ := (explorable_exact hv hf _).2 hinv.best_ok.1
  rw [htt] at htot
  have heq : rep.total_time = trueTotal data s.best_path := Except.ok.inj htot
  refine ⟨rep, hrep, ?_, ?_, ?_, ?_, ?_⟩
  · rw [hbp]; exact hinv.best_ok.1.1
  · rw [hbp]; exact hinv.best_ok.1.2.1
  · rw [hbp]; exact htt
  · rw [hbp]; exact heq
  · rw [heq]; exact hle

theorem solve_route_feasible_witness :
    Valid fixture ∧ TimesFit fixture ∧
    ∃ rep, solve fixture = .ok (.printed rep) ∧ rep.best_path.Nodup ∧
      (∀ x ∈ rep.best_path, x < fixture.N) ∧
      totalTime fixture rep.best_path = .ok rep.total_time ∧
      rep.total_time = trueTotal fixture rep.best_path ∧ rep.total_time ≤ fixture.T :=
  ⟨by decide, by decide, solve_route_feasible fixture (by decide) (by decide)⟩

/-- C3 (counterexample): on the valid instance `poorPair` the rewards of the
reported route `[0, 1]` add up to -4000000000, which a 32-bit `int` cannot
hold; the program reports the wrapped value 294967296, and so does the replay. -/
theorem solve_reward_wraps :
    Valid poorPair ∧
    solve poorPair = .ok (.printed ⟨294967296, [0, 1],
      [⟨0, 1, 1, 0, -2000000000, -2000000000⟩, ⟨1, 2, 2, 0, -2000000000, 294967296⟩],
      294967296, 3⟩) ∧
    rewardSum poorPair [0, 1] = -4000000000 :=
  ⟨by decide, rfl, rfl⟩

/-- C3 (amended): on a valid instance, `solve` prints a report when the times
fit, and in every report it prints the locations of the route are pairwise
distinct, the best reward is the sum of their rewards reduced to a 32-bit
`int`, and it is the final cumulative reward of the schedule replay; when the
absolute values of the rewards add up to at most `2^31 - 1` the best reward is
the sum of the rewards of the route itself. -/
theorem solve_reward_is_route_sum (data : ProblemData) (hv : Valid data) :
    (TimesFit data → ∃ rep, solve data = .ok (.printed rep)) ∧
    ∀ rep, solve data = .ok (.printed rep) →
      rep.best_path.Nodup ∧ rep.best_reward = wrap (rewardSum data rep.best_path) ∧
      (∃ r, replay data rep.best_path = .ok r ∧ rep.best_reward = r.total_reward ∧
        rep.total_reward = r.total_reward) ∧
      (RewardsFit data → rep.best_reward = rewardSum data rep.best_path) := by
  refine ⟨solve_ok hv, ?_⟩
  intro rep hrep
  obtain ⟨s, -, hinv, -, hbr, hbp, htr, -, r, hr, -, hrr⟩ := solve_report hrep
  obtain ⟨hexp, loc, t, hreach⟩ := hinv.best_ok
  have hw : rep.best_reward = wrap (rewardSum data rep.best_path) := by
    rw [hbr, hbp]; exact reach_reward hreach
  refine ⟨by rw [hbp]; exact hexp.1, hw, ⟨r, by rw [hbp]; exact hr, ?_, hrr⟩, ?_⟩
  · rw [← hrr, htr, hbr]
  · intro hf
    rw [hw, hbp, wrap_rewardSum hv hf hexp.1 hexp.2.1]

theorem solve_reward_is_route_sum_witness :
    Valid twoSlots ∧ TimesFit twoSlots ∧ RewardsFit twoSlots ∧
    ∃ rep r, solve twoSlots = .ok (.printed rep) ∧ rep.best_path.Nodup ∧
      rep.best_reward = wrap (rewardSum twoSlots rep.best_path) ∧
      rep.best_reward = rewardSum twoSlots rep.best_path ∧
      replay twoSlots rep.best_path = .ok r ∧ rep.best_reward = r.total_reward ∧
      rep.total_reward = r.total_reward := by
  have h := solve_reward_is_route_sum twoSlots (by decide)
  obtain ⟨rep, hrep⟩ := h.1 (by decide)
  obtain ⟨h1, h2, ⟨r, h3, h4, h5⟩, h6⟩ := h.2 rep hrep
  exact ⟨by decide, by decide, by decide, rep, r, hrep, h1, h2, h6 (by decide), h3, h4, h5⟩

/-- C9 (counterexample): on the valid instance `poorPair` every reward is
negative, yet the 32-bit sum of the two rewards wraps around to 294967296 and
`solve` reports that positive reward with the non-empty route `[0, 1]`. -/
theorem solve_gains_from_losses :
    Valid poorPair ∧ (∀ v ∈ poorPair.rewards, v ≤ 0) ∧
    ∃ rep, solve poorPair = .ok (.printed rep) ∧ rep.best_reward = 294967296 ∧
      rep.best_path = [0, 1] :=
  ⟨by decide, by decide, _, rfl, rfl, rfl⟩

/-- C9 (amended): on a valid instance, `solve` prints a report when the times
fit, and in every report it prints the best reward is never below 0; when the
absolute values of the rewards add up to at most `2^31 - 1` and every reward
is non-positive, the best reward is exactly 0 and the reported route is
empty. -/
theorem solve_reward_nonneg (data : ProblemData) (hv : Valid data) :
    (TimesFit data → ∃ rep, solve data = .ok (.printed rep)) ∧
    ∀ rep, solve data = .ok (.printed rep) → 0 ≤ rep.best_reward ∧
      (RewardsFit data → (∀ v ∈ data.rewards, v ≤ 0) →
        rep.best_reward = 0 ∧ rep.best_path = []) := by
  refine ⟨solve_ok hv, ?_⟩
  intro rep hrep
  obtain ⟨s, -, hinv, -, hbr, hbp, -, -, -⟩ := solve_report hrep
  rw [hbr, hbp]
  refine ⟨?_, ?_⟩
  · rcases hinv.best_src with h | h
    · exact le_of_eq h.1.symm
    · exact le_of_lt h
  · intro hf hall
    rcases hinv.best_src with h | h
    · exact h
    · exfalso
      obtain ⟨hexp, loc, t, hreach⟩ := hinv.best_ok
      have h1 := reach_reward hreach
      rw [wrap_rewardSum hv hf hexp.1 hexp.2.1] at h1
      have := rewardSum_nonpos hall s.best_path
      omega

theorem solve_reward_nonneg_witness :
    Valid lossy ∧ TimesFit lossy ∧ RewardsFit lossy ∧ (∀ v ∈ lossy.rewards, v ≤ 0) ∧
    ∃ rep, solve lossy = .ok (.printed rep) ∧ 0 ≤ rep.best_reward ∧
      rep.best_reward = 0 ∧ rep.best_path = [] := by
  have h := solve_reward_nonneg lossy (by decide)
  obtain ⟨rep, hrep⟩ := h.1 (by decide)
  obtain ⟨h1, h2⟩ := h.2 rep hrep
  obtain ⟨h3, h4⟩ := h2 (by decide) (by decide)
  exact ⟨by decide, by decide, by decide, by decide, rep, hrep, h1, h3, h4⟩

/-- C1 (counterexample): three valid instances on which `solve` does not
report the maximum over the feasible routes. On `detour`, where no sum
overflows, the route `[0, 1]` is feasible (total elapsed time 3, limit 10) and
collects reward 6, but the direct return from location 0 takes 100 and `solve`
reports 1 with the route `[1]`. On `richPair`, where direct returns are never
longer than detours and the times fit, the route `[0, 1]` is feasible and
collects 4000000000, which a 32-bit `int` cannot hold, and `solve` reports
2000000000 with the route `[0]`. On `lateStop`, where direct returns are never
longer than detours and the rewards fit, `solve` reports 5 with the route
`[0]`, which is not feasible: its 32-bit departure time wraps around. -/
theorem solve_misses_feasible_route :
    (Valid detour ∧ Small detour ∧
      solve detour = .ok (.printed ⟨1, [1], [⟨1, 1, 1, 0, 1, 1⟩], 1, 2⟩) ∧
      Feasible detour [0, 1] ∧ trueTotal detour [0, 1] = 3 ∧
      rewardSum detour [0, 1] = 6) ∧
    (Valid richPair ∧ DirectReturn richPair ∧ TimesFit richPair ∧
      solve richPair = .ok (.printed ⟨2000000000, [0],
        [⟨0, 1, 1, 0, 2000000000, 2000000000⟩], 2000000000, 2⟩) ∧
      Feasible richPair [0, 1] ∧ rewardSum richPair [0, 1] = 4000000000) ∧
    (Valid lateStop ∧ DirectReturn lateStop ∧ RewardsFit lateStop ∧
      solve lateStop = .ok (.printed ⟨5, [0],
        [⟨0, 2000000000, -147483649, 2147483647, 5, 5⟩], 5, -147483649⟩) ∧
      ¬ Feasible lateStop [0]) :=
  ⟨⟨by decide, by decide, rfl, by decide, by decide, rfl⟩,
    ⟨by decide, by decide, by decide, rfl, by decide, rfl⟩,
    ⟨by decide, by decide, by decide, rfl, by decide⟩⟩

/-- C1 (amended): on a valid instance whose times and rewards fit in a 32-bit
`int` and whose direct returns to the depot are never longer than a detour
through another location, the best reward reported by `solve` is the maximum
of the reward sums of the feasible routes: it is the reward sum of a feasible
route, the reported one, and no feasible route has a greater reward sum. -/
theorem solve_max_feasible (data : ProblemData) (hv : Valid data) (hs : Small data)
    (htri : DirectReturn data) :
    ∃ rep, solve data = .ok (.printed rep) ∧ Feasible data rep.best_path ∧
      rewardSum data rep.best_path = rep.best_reward ∧
      ∀ p, Feasible data p → rewardSum data p ≤ rep.best_reward := by
  obtain ⟨rep, s, hrep, -, -, -, hexp, hsum, hmax⟩ := solve_exact hv hs
  have hT : 0 ≤ data.T := by have := hv.2.1; omega
  exact ⟨rep, hrep, trueExplorable_feasible hT hexp, hsum,
    fun p hp => hmax p (feasible_explorable hv htri p hp)⟩

theorem solve_max_feasible_witness :
    Valid twoSlots ∧ Small twoSlots ∧ DirectReturn twoSlots ∧
    ∃ rep, solve twoSlots = .ok (.printed rep) ∧ Feasible twoSlots rep.best_path ∧
      rewardSum twoSlots rep.best_path = rep.best_reward ∧
      ∀ p, Feasible twoSlots p → rewardSum twoSlots p ≤ rep.best_reward :=
  ⟨by decide, by decide, by decide,
    solve_max_feasible twoSlots (by decide) (by decide) (by decide)⟩

/-- C20 (counterexample): two valid instances on which the reported reward
is not the maximum over the routes that pass the gate at every stop. On
`richPair`, where the times fit, every non-empty prefix of the route `[0, 1]`
passes the feasibility gate and the route collects 4000000000, which a 32-bit
`int` cannot hold; the search stores the wrapped reward -294967296 for it and
`solve` reports 2000000000 with the route `[0]`. On `lateStop`, where the
rewards fit, `solve` reports 5 with the route `[0]`, which does not pass the
gate: its 32-bit departure time wraps around. -/
theorem solve_misses_gated_route :
    (Valid richPair ∧ TimesFit richPair ∧ TrueExplorable richPair [0, 1] ∧
      rewardSum richPair [0, 1] = 4000000000 ∧
      solve richPair = .ok (.printed ⟨2000000000, [0],
        [⟨0, 1, 1, 0, 2000000000, 2000000000⟩], 2000000000, 2⟩)) ∧
    (Valid lateStop ∧ RewardsFit lateStop ∧
      solve lateStop = .ok (.printed ⟨5, [0],
        [⟨0, 2000000000, -147483649, 2147483647, 5, 5⟩], 5, -147483649⟩) ∧
      ¬ TrueExplorable lateStop [0]) :=
  ⟨⟨by decide, by decide, by decide, rfl, rfl⟩, ⟨by decide, by decide, rfl, by decide⟩⟩

/-- C20 (amended): on a valid instance whose times and rewards fit in a 32-bit
`int`, the best reward reported by `solve` is the maximum of the reward sums
over exactly the sequences of distinct locations every non-empty prefix of
which passes the feasibility gate (the empty sequence included): the reported
route is such a sequence with that reward sum, no such sequence has a greater
one, and every path the search stores is such a sequence, so a route with a
stop that cannot return directly to the depot in time is never considered. -/
theorem solve_max_explorable (data : ProblemData) (hv : Valid data) (hs : Small data) :
    ∃ rep, solve data = .ok (.printed rep) ∧ TrueExplorable data rep.best_path ∧
      rewardSum data rep.best_path = rep.best_reward ∧
      (∀ p, TrueExplorable data p → rewardSum data p ≤ rep.best_reward) ∧
      ∀ s, Reachable data s → ∀ k st, s.dp k = some st → TrueExplorable data st.path := by
  obtain ⟨rep, s, hrep, -, -, -, hexp, hsum, hmax⟩ := solve_exact hv hs
  refine ⟨rep, hrep, hexp, hsum, hmax, ?_⟩
  intro s1 hs1 k st hk
  exact (explorable_exact hv hs.1 _).1.1 ((reachable_inv hs1).table.entries k st hk).1

theorem solve_max_explorable_witness :
    Valid detour ∧ Small detour ∧ ∃ rep, solve detour = .ok (.printed rep) ∧
      TrueExplorable detour rep.best_path ∧
      rewardSum detour rep.best_path = rep.best_reward ∧
      (∀ p, TrueExplorable detour p → rewardSum detour p ≤ rep.best_reward) ∧
      ∀ s, Reachable detour s → ∀ k st, s.dp k = some st → TrueExplorable detour st.path :=
  ⟨by decide, by decide, solve_max_explorable detour (by decide) (by decide)⟩

/-! ## The claims about the stored states -/

/-- C14 (counterexample): on the valid instance `lateStop` the search stores a
record under the key `(1, 0, -147483649)`, whose time is negative: the 32-bit
sum of the arrival time 2000000000 and the stay 2147483647 wraps around. -/
theorem stored_time_negative :
    Valid lateStop ∧ search lateStop = .ok lateStopSearch ∧
    lateStopSearch.dp (1, 0, -147483649) = some ⟨5, [0]⟩ :=
  ⟨by decide, rfl, rfl⟩

/-- C14 (amended): on a valid instance every state the search ever stores in
`dp` (every record of every state the loop goes through) has a mask with no
bit set at or above position `N` and a last-location index in `[-1, N)`; when
the times of the instance fit in a 32-bit `int` (`T + S ≤ 2^31`, and `T` plus
any two travel times plus any stay time is at most `2^31 - 1`) its time lies in
`[0, T]`. -/
theorem stored_state_bounds (data : ProblemData) (hv : Valid data) (s : Search)
    (hs : Reachable data s) (mask : Nat) (loc time : Int) (st : State)
    (hst : s.dp (mask, loc, time) = some st) :
    (∀ i, data.N ≤ i → mask.testBit i = false) ∧ mask < 2 ^ data.N ∧
      -1 ≤ loc ∧ loc < data.N ∧ (TimesFit data → 0 ≤ time ∧ time ≤ data.T) := by
  obtain ⟨hexp, hmask, hreach⟩ := (reachable_inv hs).table.entries _ _ hst
  simp only at hmask hreach
  have hloc : LocOK data loc := by
    rw [reach_lastLoc hreach]
    exact lastLoc_ok hexp.2.1
  have hbits : ∀ i, data.N ≤ i → mask.testBit i = false := by
    intro i hi
    cases hb : mask.testBit i with
    | false => rfl
    | true =>
      rw [hmask, testBit_maskOf] at hb
      have := hexp.2.1 i hb
      omega
  refine ⟨hbits, Nat.lt_pow_two_of_testBit mask hbits, ?_, ?_, ?_⟩
  · rcases hloc with h | h <;> omega
  · rcases hloc with h | h <;> omega
  · intro hf
    obtain ⟨-, h0, hT, -⟩ := reach_fit hv hf hexp hreach
    exact ⟨h0, hT⟩

theorem stored_state_bounds_witness :
    TimesFit fixture ∧ (∀ i, fixture.N ≤ i → (3 : Nat).testBit i = false) ∧
      3 < 2 ^ fixture.N ∧ (-1 : Int) ≤ 1 ∧ (1 : Int) < fixture.N ∧ (0 : Int) ≤ 25 ∧
      (25 : Int) ≤ fixture.T := by
  obtain ⟨h1, h2, h3, h4, h5⟩ :=
    stored_state_bounds fixture (by decide) fixtureSearch (search_reachable rfl) 3 1 25
      ⟨30, [0, 1]⟩ rfl
  exact ⟨by decide, h1, h2, h3, h4, h5 (by decide)⟩

/-! ## The claims about the replay and the stored paths -/

theorem chain_stops {data : ProblemData} {dp : Table} {wl : List Key}
    (htab : TableInv data dp wl) (path : List Nat) :
    ∀ k st, dp k = some st → st.path = path → ∀ r, replay data path = .ok r →
      StopsMatch data dp path r.stops := by
  induction path using List.reverseRecOn with
  | nil =>
    intro k st _ _ r hr
    simp only [replay, replayFrom, Except.ok.injEq] at hr
    subst hr
    exact ⟨rfl, fun i hi => absurd hi (by simp)⟩
  | append_singleton q x ih =>
    intro k st hk hpath r hr
    obtain ⟨k0, st0, a, hk0, hq, he, hk1, hk2⟩ := htab.chain k st hk q x hpath
    obtain ⟨r0, hr0, hstep⟩ := replay_snoc_ok.1 hr
    obtain ⟨a', d', v, stay, he', -, rfl⟩ := replayStep_inv hstep
    obtain ⟨-, -, hreach0⟩ := htab.entries k0 st0 hk0
    rw [hq] at hreach0
    obtain ⟨hl, ht, -⟩ := reach_unique hreach0 ⟨r0, hr0, rfl, rfl, rfl⟩
    rw [← hl, ← ht, he] at he'
    simp only [Except.ok.injEq, Prod.mk.injEq] at he'
    obtain ⟨rfl, hd⟩ := he'
    obtain ⟨hlen, hstops⟩ := ih k0 st0 hk0 hq r0 hr0
    refine ⟨by simp [hlen], ?_⟩
    intro i hi
    simp only [List.length_append, List.length_singleton] at hi
    by_cases hiq : i < q.length
    · obtain ⟨k0', st0', y, stop, h1, h2, h3, h4, h5, h6, st1, h7, h8⟩ := hstops i hiq
      refine ⟨k0', st0', y, stop, h1, ?_, ?_, ?_, h5, h6, st1, h7, ?_⟩
      · rw [h2, List.take_append_of_le_length (by omega)]
      · rw [List.getElem?_append_left hiq]; exact h3
      · rw [List.getElem?_append_left (by omega)]; exact h4
      · rw [h8, List.take_append_of_le_length (by omega)]
    · have hi' : i = q.length := by omega
      subst hi'
      refine ⟨k0, st0, x, ⟨x, a, d', stay, v, add32 r0.total_reward v⟩, hk0, ?_, ?_, ?_, rfl,
        ?_, st, ?_, ?_⟩
      · rw [hq]; simp
      · simp
      · rw [← hlen]; simp
      · rw [← hd]; exact he
      · have hkk : k = (k0.1 ||| (1 <<< x), (x : Int), d') := by
          obtain ⟨m, l, t⟩ := k
          simp only at hk1 hk2 hd
          simp only [Prod.mk.injEq]
          exact ⟨hk1, hk2, hd⟩
        rw [← hkk]; exact hk
      · rw [hpath]; simp

/-- C4: on a valid instance, for every record the search retains under a key
`(mask, loc, time)` with stored path `p`, the replay of `p` by the reporter ends
at location `loc` with current time `time`, and it prints one stop per location
of `p` whose arrival and departure times are exactly the pair
`(arrival_time, new_time)` the search computed when it extended the record of
the preceding prefix by that location and stored the result. -/
theorem replay_matches_search (data : ProblemData) (hv : Valid data) (s : Search)
    (hs : search data = .ok s) (mask : Nat) (loc time : Int) (st : State)
    (hst : s.dp (mask, loc, time) = some st) :
    ∃ r, replay data st.path = .ok r ∧ r.current_loc = loc ∧ r.current_time = time ∧
      StopsMatch data s.dp st.path r.stops := by
  have hinv := (search_end hs).1
  obtain ⟨-, -, r, hr, hl, ht, -⟩ := hinv.table.entries _ _ hst
  exact ⟨r, hr, hl, ht, chain_stops hinv.table st.path _ st hst rfl r hr⟩

theorem replay_matches_search_witness :
    ∃ r, replay fixture [0, 1] = .ok r ∧ r.current_loc = 1 ∧ r.current_time = 25 ∧
      StopsMatch fixture fixtureSearch.dp [0, 1] r.stops :=
  replay_matches_search fixture (by decide) fixtureSearch rfl 3 1 25 ⟨30, [0, 1]⟩ rfl

/-- C15: on a valid instance, for every state the search ever stores in `dp`
under a key `(mask, loc, time)` with path `p`: the number of bits set in `mask`
is the length of `p`, bit `i` of `mask` is set exactly when location `i` occurs
in `p`, `p` has no repeated location, and `loc` is the last element of `p`, or
`-1` exactly when `p` is empty. -/
theorem stored_mask_matches_path (data : ProblemData) (hv : Valid data) (s : Search)
    (hs : Reachable data s) (mask : Nat) (loc time : Int) (st : State)
    (hst : s.dp (mask, loc, time) = some st) :
    popcount mask = st.path.length ∧ (∀ i, mask.testBit i = true ↔ i ∈ st.path) ∧
      st.path.Nodup ∧ loc = lastLoc st.path ∧ (loc = -1 ↔ st.path = []) := by
  obtain ⟨hexp, hmask, hreach⟩ := (reachable_inv hs).table.entries _ _ hst
  simp only at hmask hreach
  have hl := reach_lastLoc hreach
  refine ⟨by rw [hmask]; exact popcount_maskOf hexp.1,
    fun i => by rw [hmask]; exact testBit_maskOf st.path i, hexp.1, hl, ?_⟩
  rw [hl]
  exact lastLoc_eq_neg_one

theorem stored_mask_matches_path_witness :
    popcount 3 = [1, 0].length ∧ (∀ i, (3 : Nat).testBit i = true ↔ i ∈ [1, 0]) ∧
      [1, 0].Nodup ∧ (0 : Int) = lastLoc [1, 0] ∧ ((0 : Int) = -1 ↔ [1, 0] = []) :=
  stored_mask_matches_path fixture (by decide) fixtureSearch (search_reachable rfl) 3 0 25
    ⟨30, [1, 0]⟩ rfl

/-! ## Termination -/

/-- A valid instance on which the search faults: with `T = 2147483647` and
`S = 2` the program computes the slot `-1` for the arrival time 2000000000 and
reads `stay_time[0][-1]`. -/
theorem search_faults_on_wide_slots :
    Valid wideSlots ∧ getTimeSlot 2000000000 wideSlots.T wideSlots.S = .ok (-1) ∧
    search wideSlots = .error .indexOutOfRange :=
  ⟨by decide, rfl, rfl⟩

/-- C16: the worklist loop of `solve` terminates. On every instance the fuel
`workBound N N` is never exhausted; when the search returns, the processing
index has reached the end of the worklist; every key an iteration appends has
a mask with exactly one more bit set than the key it was expanded from; and
the search does return exactly when the program meets no fault on the routes
it can reach, in particular the slot lookup being defined there, which is the
case on every valid instance whose times fit in a 32-bit `int` and on every
instance without locations. -/
theorem search_terminates (data : ProblemData) :
    search data ≠ .error .fuelExhausted ∧
    (∀ s, search data = .ok s → s.process_idx = s.states_to_process.length) ∧
    (∀ s s' key, Reachable data s → s.states_to_process[s.process_idx]? = some key →
      process data s key = .ok s' →
      ∃ added, s'.states_to_process = s.states_to_process ++ added ∧
        ∀ k ∈ added, popcount k.1 = popcount key.1 + 1) ∧
    ((∃ s, search data = .ok s) ↔ NoFault data) ∧
    ((Valid data ∧ TimesFit data) ∨ data.N = 0 → ∃ s, search data = .ok s) := by
  refine ⟨?_, ?_, ?_, search_ok_iff, ?_⟩
  · exact loop_fuel_suffices _ initial (le_of_eq (pending_initial data))
  · intro s hs
    have h1 := reachable_idx_le (search_reachable hs)
    have h2 : s.states_to_process.length ≤ s.process_idx :=
      List.getElem?_eq_none_iff.1 (loop_exhausts _ hs)
    omega
  · intro s s' key _ _ hproc
    obtain ⟨-, added, hwl, -, hk⟩ := process_worklist hproc
    refine ⟨added, hwl, ?_⟩
    intro k hkm
    obtain ⟨x, -, hb, hkx⟩ := hk k hkm
    rw [hkx]
    exact popcount_setBit hb
  · rintro (⟨hv, hf⟩ | hN)
    · exact search_ok hv hf
    · exact ⟨_, search_no_location hN⟩

/-! ## The best record and the order of processing -/

theorem rewardSum_eq_maskReward {data : ProblemData} {p : List Nat} (hnd : p.Nodup)
    (hr : InRange data p) : rewardSum data p = maskReward data (maskOf p) := by
  have hperm : p.Perm ((List.range data.N).filter (fun i => (maskOf p).testBit i)) := by
    rw [List.perm_ext_iff_of_nodup hnd ((List.nodup_range data.N).filter _)]
    intro i
    simp only [List.mem_filter, List.mem_range, testBit_maskOf]
    exact ⟨fun hi => ⟨hr i hi, hi⟩, fun hi => hi.2⟩
  exact (hperm.map _).sum_eq

/-- C19 (counterexample): on the valid instance `richPair` the search stores
the reward -294967296 under the key with mask 3, while the rewards of the two
locations of that mask add up to 4000000000: the 32-bit sum wraps around. -/
theorem stored_reward_wraps :
    Valid richPair ∧ search richPair = .ok richPairSearch ∧
    richPairSearch.dp (3, 1, 2) = some ⟨-294967296, [0, 1]⟩ ∧
    maskReward richPair 3 = 4000000000 :=
  ⟨by decide, rfl, rfl, rfl⟩

/-- C19 (amended): on a valid instance, in every state the loop goes through,
the reward stored under a key is the sum of the rewards of the locations whose
bit is set in the key's mask, reduced to a 32-bit `int` (and that sum itself
when the absolute values of the rewards add up to at most `2^31 - 1`), so two
records with the same mask hold the same reward; the worklist holds no key
twice; every key of the worklist has a record, so the lookup of a dequeued key
never misses; and an iteration stores records only under keys that had none,
so it changes no record: the replacement branch is never taken. -/
theorem stored_reward_of_mask (data : ProblemData) (hv : Valid data) (s : Search)
    (hs : Reachable data s) :
    (∀ k st, s.dp k = some st → st.reward = wrap (maskReward data k.1)) ∧
    (RewardsFit data → ∀ k st, s.dp k = some st → st.reward = maskReward data k.1) ∧
    (∀ k1 st1 k2 st2, s.dp k1 = some st1 → s.dp k2 = some st2 → k1.1 = k2.1 →
      st1.reward = st2.reward) ∧
    s.states_to_process.Nodup ∧
    (∀ k, k ∈ s.states_to_process → ∃ st, s.dp k = some st) ∧
    (∀ key s', s.states_to_process[s.process_idx]? = some key →
      process data s key = .ok s' →
      (∃ current, s.dp key = some current) ∧
      (∃ added, s'.states_to_process = s.states_to_process ++ added ∧
        ∀ k ∈ added, s.dp k = none) ∧
      ∀ k st, s.dp k = some st → s'.dp k = some st) := by
  have hinv := reachable_inv hs
  have hrew : ∀ k st, s.dp k = some st → st.reward = wrap (maskReward data k.1) := by
    intro k st hk
    obtain ⟨hexp, hmask, hreach⟩ := hinv.table.entries k st hk
    rw [reach_reward hreach, hmask, rewardSum_eq_maskReward hexp.1 hexp.2.1]
  refine ⟨hrew, ?_, ?_, reachable_nodup hs, hinv.table.stored, ?_⟩
  · intro hf k st hk
    obtain ⟨hexp, hmask, hreach⟩ := hinv.table.entries k st hk
    rw [reach_reward hreach, wrap_rewardSum hv hf hexp.1 hexp.2.1, hmask,
      rewardSum_eq_maskReward hexp.1 hexp.2.1]
  · intro k1 st1 k2 st2 h1 h2 h12
    rw [hrew k1 st1 h1, hrew k2 st2 h2, h12]
  · intro key s' hkey hproc
    obtain ⟨current, ret, added, hcur, -, -, -, hwl, -, hnone, hsame, -, -, -, -, -, -⟩ :=
      process_facts hinv hkey hproc
    refine ⟨⟨current, hcur⟩, ⟨added, hwl, hnone⟩, ?_⟩
    intro k st hk
    rw [hsame k, hk]
    intro hka
    rw [hnone k hka] at hk
    cases hk

theorem stored_reward_of_mask_witness :
    RewardsFit fixture ∧
    (∀ k st, fixtureSearch.dp k = some st → st.reward = wrap (maskReward fixture k.1)) ∧
    (∀ k st, fixtureSearch.dp k = some st → st.reward = maskReward fixture k.1) ∧
    (∀ k1 st1 k2 st2, fixtureSearch.dp k1 = some st1 → fixtureSearch.dp k2 = some st2 →
      k1.1 = k2.1 → st1.reward = st2.reward) ∧
    fixtureSearch.states_to_process.Nodup ∧
    (∀ k, k ∈ fixtureSearch.states_to_process → ∃ st, fixtureSearch.dp k = some st) ∧
    ∃ s', process fixture initial (0, -1, 0) = .ok s' ∧
      (∃ current, initial.dp (0, -1, 0) = some current) ∧
      (∃ added, s'.states_to_process = initial.states_to_process ++ added ∧
        ∀ k ∈ added, initial.dp k = none) ∧
      ∀ k st, initial.dp k = some st → s'.dp k = some st := by
  obtain ⟨h1, h2, h3, h4, h5, -⟩ :=
    stored_reward_of_mask fixture (by decide) fixtureSearch (search_reachable rfl)
  obtain ⟨-, -, -, -, -, h6⟩ := stored_reward_of_mask fixture (by decide) initial Reachable.start
  obtain ⟨s', hs'⟩ := @process_ok fixture (noFault_of_fit (by decide) (by decide)) initial
    (initial_inv fixture) (0, -1, 0) rfl
  exact ⟨by decide, h1, h2 (by decide), h3, h4, h5, s', hs', h6 (0, -1, 0) s' rfl hs'⟩

/-! ## Relabeling the locations -/

theorem getD_map_range {α : Type} (n : Nat) (f : Nat → α) (d : α) {a : Nat} (h : a < n) :
    ((List.range n).map f).getD a d = f a := by
  simp [List.getD_eq_getElem?_getD, h]

theorem at1_eq_getD {α : Type} (v : List α) (d : α) {i : Nat} (h : i < v.length) :
    at1 v (i : Int) = .ok (v.getD i d) := by
  simp [at1, List.getElem?_eq_getElem h, List.getD_eq_getElem?_getD]

theorem perm_getD_lt {N : Nat} {perm : List Nat} (hperm : perm.Perm (List.range N))
    {j : Nat} (hj : j < N) : perm.getD j 0 < N := by
  have hlen : perm.length = N := by rw [hperm.length_eq, List.length_range]
  have hjl : j < perm.length := by omega
  rw [List.getD_eq_getElem _ _ hjl]
  exact List.mem_range.1 (hperm.mem_iff.1 (List.getElem_mem hjl))

theorem perm_getD_inj {N : Nat} {perm : List Nat} (hperm : perm.Perm (List.range N))
    {i j : Nat} (hi : i < N) (hj : j < N) (h : perm.getD i 0 = perm.getD j 0) : i = j := by
  have hlen : perm.length = N := by rw [hperm.length_eq, List.length_range]
  have hnd : perm.Nodup := hperm.nodup_iff.2 (List.nodup_range N)
  have hil : i < perm.length := by omega
  have hjl : j < perm.length := by omega
  rw [List.getD_eq_getElem _ _ hil, List.getD_eq_getElem _ _ hjl] at h
  exact (hnd.getElem_inj_iff).1 h

theorem perm_indexOf {N : Nat} {perm : List Nat} (hperm : perm.Perm (List.range N))
    {i : Nat} (hi : i < N) : perm.indexOf i < N ∧ perm.getD (perm.indexOf i) 0 = i := by
  have hlen : perm.length = N := by rw [hperm.length_eq, List.length_range]
  have hmem : i ∈ perm := hperm.mem_iff.2 (List.mem_range.2 hi)
  have hlt : perm.indexOf i < perm.length := List.indexOf_lt_length.2 hmem
  refine ⟨by omega, ?_⟩
  rw [List.getD_eq_getElem _ _ hlt]
  exact List.getElem_indexOf hlt

theorem perm_indexOf_getD {N : Nat} {perm : List Nat} (hperm : perm.Perm (List.range N))
    {j : Nat} (hj : j < N) : perm.indexOf (perm.getD j 0) = j := by
  have hlen : perm.length = N := by rw [hperm.length_eq, List.length_range]
  have hnd : perm.Nodup := hperm.nodup_iff.2 (List.nodup_range N)
  have hjl : j < perm.length := by omega
  rw [List.getD_eq_getElem _ _ hjl]
  exact List.indexOf_getElem hnd j hjl

theorem oldIndex_le {N : Nat} {perm : List Nat} (hperm : perm.Perm (List.range N))
    {a : Nat} (ha : a ≤ N) : oldIndex perm a ≤ N := by
  cases a with
  | zero => simp [oldIndex]
  | succ j =>
    have := perm_getD_lt hperm (show j < N by omega)
    simp only [oldIndex]
    omega

theorem relabel_valid {data : ProblemData} (hv : Valid data) {perm : List Nat}
    (hperm : perm.Perm (List.range data.N)) : Valid (relabel data perm) := by
  refine ⟨hv.1, hv.2.1, hv.2.2.1, by simp [relabel], by simp [relabel], ?_, by simp [relabel],
    ?_⟩
  · intro row hrow
    simp only [relabel, List.mem_map, List.mem_range] at hrow
    obtain ⟨a, -, rfl⟩ := hrow
    refine ⟨by simp [relabel], ?_⟩
    intro v hvm
    simp only [List.mem_map, List.mem_range] at hvm
    obtain ⟨b, -, rfl⟩ := hvm
    exact travelD_nonneg hv _ _
  · intro row hrow
    simp only [relabel, List.mem_map, List.mem_range] at hrow
    obtain ⟨j, hj, rfl⟩ := hrow
    have hlt := perm_getD_lt hperm hj
    have hlen : perm.getD j 0 < data.stay_time.length := by rw [hv.2.2.2.2.2.2.1]; exact hlt
    rw [List.getD_eq_getElem _ _ hlen]
    exact hv.2.2.2.2.2.2.2 _ (List.getElem_mem hlen)

theorem oldLoc_nat (perm : List Nat) (y : Nat) :
    oldLoc perm (y : Int) = ((perm.getD y 0 : Nat) : Int) := by
  have hne : ¬ ((y : Int) = -1) := by omega
  simp [oldLoc, hne]

theorem relabel_travel {data : ProblemData} (hv : Valid data) {perm : List Nat}
    (hperm : perm.Perm (List.range data.N)) (a b : Nat) (ha : a ≤ data.N) (hb : b ≤ data.N) :
    at2 (relabel data perm).travel_time (a : Int) (b : Int) =
      at2 data.travel_time (oldIndex perm a : Nat) (oldIndex perm b : Nat) := by
  have hrow : at1 (relabel data perm).travel_time (a : Int) =
      .ok ((List.range (data.N + 1)).map (fun b =>
        travelD data (oldIndex perm a) (oldIndex perm b))) := by
    rw [at1_eq_getD _ [] (by simp [relabel]; omega)]
    simp only [relabel]
    rw [getD_map_range _ _ _ (by omega)]
  have hcell : at1 ((List.range (data.N + 1)).map (fun b =>
        travelD data (oldIndex perm a) (oldIndex perm b))) (b : Int) =
      .ok (travelD data (oldIndex perm a) (oldIndex perm b)) := by
    rw [at1_eq_getD _ 0 (by simp; omega), getD_map_range _ _ _ (by omega)]
  have hl : at2 (relabel data perm).travel_time (a : Int) (b : Int) =
      .ok (travelD data (oldIndex perm a) (oldIndex perm b)) := by
    simp only [at2, hrow, hcell]
  obtain ⟨x, hx, -⟩ := travel_ok hv (oldIndex perm a : Nat) (oldIndex perm b : Nat)
    (by omega) (by exact_mod_cast oldIndex_le hperm ha) (by omega)
    (by exact_mod_cast oldIndex_le hperm hb)
  rw [hl, hx, at2_travelD hx]

theorem relabel_travelTo {data : ProblemData} (hv : Valid data) {perm : List Nat}
    (hperm : perm.Perm (List.range data.N)) {loc : Int} (hloc : LocOK data loc)
    {x : Nat} (hx : x < data.N) :
    travelTo (relabel data perm) loc x = travelTo data (oldLoc perm loc) (perm.getD x 0) := by
  rcases hloc with hneg | ⟨h0, h1⟩
  · subst hneg
    have h := relabel_travel hv hperm 0 (x + 1) (by omega) (by omega)
    simp only [oldIndex, Nat.cast_zero, Nat.cast_add, Nat.cast_one] at h
    simp only [travelTo, oldLoc, if_true]
    exact h
  · obtain ⟨y, rfl⟩ := Int.eq_ofNat_of_zero_le h0
    have hy : y < data.N := by exact_mod_cast h1
    have h := relabel_travel hv hperm (y + 1) (x + 1) (by omega) (by omega)
    simp only [oldIndex, Nat.cast_add, Nat.cast_one] at h
    have hne : ¬ ((y : Int) = -1) := by omega
    have hne' : ¬ (((perm.getD y 0 : Nat) : Int) = -1) := by omega
    rw [oldLoc_nat]
    simp only [travelTo, hne, hne', if_false]
    exact h

theorem relabel_returnFrom {data : ProblemData} (hv : Valid data) {perm : List Nat}
    (hperm : perm.Perm (List.range data.N)) {loc : Int} (hloc : LocOK data loc) :
    returnFrom (relabel data perm) loc = returnFrom data (oldLoc perm loc) := by
  rcases hloc with hneg | ⟨h0, h1⟩
  · subst hneg
    simp [returnFrom, oldLoc]
  · obtain ⟨y, rfl⟩ := Int.eq_ofNat_of_zero_le h0
    have hy : y < data.N := by exact_mod_cast h1
    have h := relabel_travel hv hperm (y + 1) 0 (by omega) (by omega)
    simp only [oldIndex, Nat.cast_add, Nat.cast_one, Nat.cast_zero] at h
    rw [oldLoc_nat, returnFrom_loc, returnFrom_loc]
    exact h

theorem relabel_stay {data : ProblemData} (hv : Valid data) {perm : List Nat}
    (hperm : perm.Perm (List.range data.N)) {x : Nat} (hx : x < data.N) (slot : Int) :
    at2 (relabel data perm).stay_time (x : Int) slot =
      at2 data.stay_time ((perm.getD x 0 : Nat) : Int) slot := by
  have hlt := perm_getD_lt hperm hx
  have h1 : at1 (relabel data perm).stay_time (x : Int) =
      .ok (data.stay_time.getD (perm.getD x 0) []) := by
    rw [at1_eq_getD _ [] (by simp [relabel]; omega)]
    simp only [relabel]
    rw [getD_map_range _ _ _ hx]
  have h2 : at1 data.stay_time ((perm.getD x 0 : Nat) : Int) =
      .ok (data.stay_time.getD (perm.getD x 0) []) :=
    at1_eq_getD _ [] (by rw [hv.2.2.2.2.2.2.1]; exact hlt)
  simp only [at2, h1, h2]

theorem relabel_reward {data : ProblemData} {perm : List Nat} {x : Nat} (hx : x < data.N) :
    (relabel data perm).rewards.getD x 0 = data.rewards.getD (perm.getD x 0) 0 := by
  simp only [relabel]
  rw [getD_map_range _ _ _ hx]

theorem relabel_extendTimes {data : ProblemData} (hv : Valid data) {perm : List Nat}
    (hperm : perm.Perm (List.range data.N)) {loc : Int} (hloc : LocOK data loc) (time : Int)
    {x : Nat} (hx : x < data.N) :
    extendTimes (relabel data perm) loc time x =
      extendTimes data (oldLoc perm loc) time (perm.getD x 0) := by
  unfold extendTimes
  rw [relabel_travelTo hv hperm hloc hx]
  have hT : (relabel data perm).T = data.T := rfl
  have hS : (relabel data perm).S = data.S := rfl
  simp only [hT, hS, relabel_stay hv hperm hx]

theorem lastLoc_map (perm : List Nat) (p : List Nat) :
    lastLoc (p.map (fun j => perm.getD j 0)) = oldLoc perm (lastLoc p) := by
  rcases List.eq_nil_or_concat p with h0 | ⟨q, x, h0⟩
  · subst h0
    simp [lastLoc, oldLoc]
  · have hp : p = q ++ [x] := by rw [h0]; simp
    subst hp
    rw [List.map_append, List.map_singleton, lastLoc_snoc, lastLoc_snoc, oldLoc_nat]

/-- The replay of a route of the relabeled instance is the replay of its
image in the original instance. -/
theorem relabel_reach {data : ProblemData} (hv : Valid data) {perm : List Nat}
    (hperm : perm.Perm (List.range data.N)) (p : List Nat)
    (hp : InRange (relabel data perm) p) :
    ∀ time w, Reach (relabel data perm) p (lastLoc p) time w ↔
      Reach data (p.map (fun j => perm.getD j 0)) (oldLoc perm (lastLoc p)) time w := by
  have hv' := relabel_valid hv hperm
  induction p using List.reverseRecOn with
  | nil =>
    intro time w
    constructor
    · intro h
      obtain ⟨-, rfl, rfl⟩ := reach_unique h (reach_nil _)
      exact reach_nil data
    · intro h
      obtain ⟨-, rfl, rfl⟩ := reach_unique h (reach_nil _)
      exact reach_nil _
  | append_singleton q x ih =>
    intro t w
    obtain ⟨hq, hx⟩ := inRange_snoc.1 hp
    have hx' : x < data.N := hx
    have hloc : LocOK data (lastLoc q) := lastLoc_ok (fun y hy => hq y hy)
    have hrew : at1 (relabel data perm).rewards (x : Int) =
        at1 data.rewards ((perm.getD x 0 : Nat) : Int) := by
      rw [rewards_ok hv' hx, rewards_ok hv (perm_getD_lt hperm hx'), relabel_reward hx']
    rw [List.map_append, List.map_singleton, lastLoc_snoc, oldLoc_nat]
    constructor
    · intro h
      obtain ⟨loc, time, reward, a, v, hr, he, hrw, -, rfl⟩ := reach_snoc_inv h
      have hl := reach_lastLoc hr
      subst hl
      have hr' := (ih hq time reward).1 hr
      rw [relabel_extendTimes hv hperm hloc time hx'] at he
      rw [hrew] at hrw
      exact reach_snoc hr' he hrw
    · intro h
      obtain ⟨loc, time, reward, a, v, hr, he, hrw, -, rfl⟩ := reach_snoc_inv h
      have hl := reach_lastLoc hr
      rw [lastLoc_map] at hl
      subst hl
      have hr' := (ih hq time reward).2 hr
      rw [← relabel_extendTimes hv hperm hloc time hx'] at he
      rw [← hrew] at hrw
      exact reach_snoc hr' he hrw

theorem relabel_completes {data : ProblemData} (hv : Valid data) {perm : List Nat}
    (hperm : perm.Perm (List.range data.N)) {p : List Nat}
    (hp : InRange (relabel data perm) p) :
    Completes (relabel data perm) p ↔ Completes data (p.map (fun j => perm.getD j 0)) := by
  have hloc : LocOK data (lastLoc p) := lastLoc_ok (fun y hy => hp y hy)
  constructor
  · intro h
    obtain ⟨loc, time, w, hr⟩ := completes_reach h
    have hl := reach_lastLoc hr
    subst hl
    have hr' := (relabel_reach hv hperm p hp time w).1 hr
    rw [completes_of_reach hr, relabel_returnFrom hv hperm hloc] at h
    exact (completes_of_reach hr').2 h
  · intro h
    obtain ⟨loc, time, w, hr'⟩ := completes_reach h
    have hl := reach_lastLoc hr'
    rw [lastLoc_map] at hl
    subst hl
    have hr := (relabel_reach hv hperm p hp time w).2 hr'
    rw [completes_of_reach hr'] at h
    rw [completes_of_reach hr, relabel_returnFrom hv hperm hloc]
    exact h

theorem relabel_rewardSum {data : ProblemData} {perm : List Nat} (p : List Nat)
    (hp : InRange (relabel data perm) p) :
    rewardSum (relabel data perm) p = rewardSum data (p.map (fun j => perm.getD j 0)) := by
  induction p using List.reverseRecOn with
  | nil => rfl
  | append_singleton q x ih =>
    obtain ⟨hq, hx⟩ := inRange_snoc.1 hp
    have hx' : x < data.N := hx
    rw [List.map_append, List.map_singleton, rewardSum_snoc, rewardSum_snoc, ih hq,
      relabel_reward hx']

theorem relabel_explorable {data : ProblemData} (hv : Valid data) {perm : List Nat}
    (hperm : perm.Perm (List.range data.N)) (p : List Nat)
    (hp : Explorable (relabel data perm) p) :
    Explorable data (p.map (fun j => perm.getD j 0)) := by
  induction p using List.reverseRecOn with
  | nil => exact explorable_nil data
  | append_singleton q x ih =>
    obtain ⟨hq, hxq, hx, hc⟩ := explorable_snoc.1 hp
    have hx' : x < data.N := hx
    rw [List.map_append, List.map_singleton]
    refine explorable_snoc.2 ⟨ih hq, ?_, perm_getD_lt hperm hx', ?_⟩
    · intro hmem
      obtain ⟨y, hy, hyx⟩ := List.mem_map.1 hmem
      have hy' : y < data.N := hq.2.1 y hy
      have := perm_getD_inj hperm hy' hx' hyx
      exact hxq (this ▸ hy)
    · have := (relabel_completes hv hperm hp.2.1).1 hc
      rwa [List.map_append, List.map_singleton] at this

theorem unrelabel_explorable {data : ProblemData} (hv : Valid data) {perm : List Nat}
    (hperm : perm.Perm (List.range data.N)) (p : List Nat) (hp : Explorable data p) :
    Explorable (relabel data perm) (p.map (fun i => perm.indexOf i)) ∧
      (p.map (fun i => perm.indexOf i)).map (fun j => perm.getD j 0) = p := by
  induction p using List.reverseRecOn with
  | nil => exact ⟨explorable_nil _, rfl⟩
  | append_singleton q x ih =>
    obtain ⟨hq, hxq, hx, hc⟩ := explorable_snoc.1 hp
    obtain ⟨ih1, ih2⟩ := ih hq
    obtain ⟨hτx, hστx⟩ := perm_indexOf hperm hx
    have hback : ((q ++ [x]).map (fun i => perm.indexOf i)).map (fun j => perm.getD j 0) =
        q ++ [x] := by
      rw [List.map_append, List.map_append, ih2, List.map_singleton, List.map_singleton, hστx]
    refine ⟨?_, hback⟩
    have hrange : InRange (relabel data perm) ((q ++ [x]).map (fun i => perm.indexOf i)) := by
      intro j hj
      obtain ⟨i, hi, rfl⟩ := List.mem_map.1 hj
      exact (perm_indexOf hperm (hp.2.1 i hi)).1
    have hcomp := (relabel_completes hv hperm hrange).2 (by rw [hback]; exact hc)
    rw [List.map_append, List.map_singleton] at hcomp ⊢
    refine explorable_snoc.2 ⟨ih1, ?_, hτx, hcomp⟩
    intro hmem
    obtain ⟨y, hy, hyx⟩ := List.mem_map.1 hmem
    have hy' : y < data.N := hq.2.1 y hy
    have h1 := (perm_indexOf hperm hy').2
    rw [hyx, hστx] at h1
    exact hxq (h1 ▸ hy)

theorem relabel_back {data : ProblemData} {perm : List Nat}
    (hperm : perm.Perm (List.range data.N)) (p : List Nat)
    (hp : InRange (relabel data perm) p) :
    (p.map (fun j => perm.getD j 0)).map (fun i => perm.indexOf i) = p := by
  rw [List.map_map]
  conv_rhs => rw [← List.map_id p]
  apply List.map_congr_left
  intro j hj
  exact perm_indexOf_getD hperm (hp j hj)

/-- What the program meets on the routes of the relabeled instance it met on
their images in the original instance: relabeling introduces no fault. -/
theorem relabel_noFault {data : ProblemData} (hv : Valid data) {perm : List Nat}
    (hperm : perm.Perm (List.range data.N)) (hn : NoFault data) :
    NoFault (relabel data perm) := by
  have hv' := relabel_valid hv hperm
  intro p loc time w hp hreach
  have hl := reach_lastLoc hreach
  subst hl
  have hloc : LocOK data (lastLoc p) := lastLoc_ok (fun y hy => hp.2.1 y hy)
  have hp' := relabel_explorable hv hperm p hp
  have hreach' := (relabel_reach hv hperm p hp.2.1 time w).1 hreach
  obtain ⟨hret, hev⟩ := hn _ _ _ _ hp' hreach'
  refine ⟨by rw [relabel_returnFrom hv hperm hloc]; exact hret, ?_⟩
  intro x hx hb
  have hx' : x < data.N := hx
  have hb' : (maskOf (p.map (fun j => perm.getD j 0))).testBit (perm.getD x 0) = false := by
    cases hbit : (maskOf (p.map (fun j => perm.getD j 0))).testBit (perm.getD x 0) with
    | false => rfl
    | true =>
      exfalso
      obtain ⟨y, hy, hyx⟩ := List.mem_map.1 ((testBit_maskOf _ _).1 hbit)
      have hy' : y < data.N := hp.2.1 y hy
      have := perm_getD_inj hperm hy' hx' hyx
      subst this
      rw [(testBit_maskOf p y).2 hy] at hb
      cases hb
  obtain ⟨a, d, ret, he, hr, hrew⟩ := hev _ (perm_getD_lt hperm hx') hb'
  refine ⟨a, d, ret, by rw [relabel_extendTimes hv hperm hloc time hx']; exact he, ?_,
    fun _ => ⟨_, rewards_ok hv' hx⟩⟩
  have h := relabel_travel hv hperm (x + 1) 0 (by omega) (by omega)
  simp only [oldIndex, Nat.cast_add, Nat.cast_one, Nat.cast_zero] at h
  rw [h]
  exact hr

/-- Conversely, what the program meets on the routes of the original instance
it met on their images in the relabeled instance. -/
theorem unrelabel_noFault {data : ProblemData} (hv : Valid data) {perm : List Nat}
    (hperm : perm.Perm (List.range data.N)) (hn : NoFault (relabel data perm)) :
    NoFault data := by
  intro p loc time w hp hreach
  have hl := reach_lastLoc hreach
  subst hl
  obtain ⟨hq, hback⟩ := unrelabel_explorable hv hperm p hp
  have hlast : oldLoc perm (lastLoc (p.map (fun i => perm.indexOf i))) = lastLoc p := by
    rw [← lastLoc_map, hback]
  have hreach' : Reach (relabel data perm) (p.map (fun i => perm.indexOf i))
      (lastLoc (p.map (fun i => perm.indexOf i))) time w := by
    apply (relabel_reach hv hperm _ hq.2.1 time w).2
    rw [hback, hlast]
    exact hreach
  have hloc : LocOK data (lastLoc (p.map (fun i => perm.indexOf i))) :=
    lastLoc_ok (fun y hy => hq.2.1 y hy)
  obtain ⟨hret, hev⟩ := hn _ _ _ _ hq hreach'
  rw [relabel_returnFrom hv hperm hloc, hlast] at hret
  refine ⟨hret, ?_⟩
  intro x hx hb
  obtain ⟨hτ, hστ⟩ := perm_indexOf hperm hx
  have hb' : (maskOf (p.map (fun i => perm.indexOf i))).testBit (perm.indexOf x) = false := by
    cases hbit : (maskOf (p.map (fun i => perm.indexOf i))).testBit (perm.indexOf x) with
    | false => rfl
    | true =>
      exfalso
      obtain ⟨y, hy, hyx⟩ := List.mem_map.1 ((testBit_maskOf _ _).1 hbit)
      have hy' := (perm_indexOf hperm (hp.2.1 y hy)).2
      rw [hyx, hστ] at hy'
      subst hy'
      rw [(testBit_maskOf p x).2 hy] at hb
      cases hb
  obtain ⟨a, d, ret, he, hr, -⟩ := hev _ hτ hb'
  rw [relabel_extendTimes hv hperm hloc time hτ, hστ, hlast] at he
  have h := relabel_travel hv hperm (perm.indexOf x + 1) 0 (by omega) (by omega)
  simp only [oldIndex, Nat.cast_add, Nat.cast_one, Nat.cast_zero, hστ] at h
  rw [h] at hr
  exact ⟨a, d, ret, he, hr, fun _ => ⟨_, rewards_ok hv hx⟩⟩

/-- The search on a relabeled instance: it returns when the search on the
original instance does, with the same best reward, and its best path is the
image of a route the original search can reach and that has this reward. -/
theorem relabel_best {data : ProblemData} (hv : Valid data) {perm : List Nat}
    (hperm : perm.Perm (List.range data.N)) {s : Search} (hs : search data = .ok s) :
    ∃ s', search (relabel data perm) = .ok s' ∧ s'.best_reward = s.best_reward ∧
      Explorable data (s'.best_path.map (fun j => perm.getD j 0)) ∧
      wrap (rewardSum data (s'.best_path.map (fun j => perm.getD j 0))) = s.best_reward ∧
      (s'.best_path.map (fun j => perm.getD j 0)).map (fun i => perm.indexOf i) =
        s'.best_path := by
  have hv' := relabel_valid hv hperm
  have hT : 0 ≤ data.T := by have := hv.2.1; omega
  have hT' : 0 ≤ (relabel data perm).T := hT
  obtain ⟨s', hs'⟩ := search_ok_iff.2 (relabel_noFault hv hperm (search_noFault hs))
  obtain ⟨hinv, hend⟩ := search_end hs
  obtain ⟨hinv', hend'⟩ := search_end hs'
  obtain ⟨hexp, loc, t, hreach⟩ := hinv.best_ok
  obtain ⟨hexp', loc', t', hreach'⟩ := hinv'.best_ok
  have hmap := relabel_explorable hv hperm s'.best_path hexp'
  have hw' : s'.best_reward =
      wrap (rewardSum data (s'.best_path.map (fun j => perm.getD j 0))) := by
    rw [reach_reward hreach', relabel_rewardSum _ hexp'.2.1]
  have heq : s'.best_reward = s.best_reward := by
    apply le_antisymm
    · rw [hw']
      exact search_optimal hinv hend _ hmap (explorable_completes hT hmap)
    · obtain ⟨h1, hb⟩ := unrelabel_explorable hv hperm s.best_path hexp
      have h2 := search_optimal hinv' hend' _ h1 (explorable_completes hT' h1)
      rw [relabel_rewardSum _ h1.2.1, hb] at h2
      rw [reach_reward hreach]
      exact h2
  exact ⟨s', hs', heq, hmap, by rw [← hw', heq], relabel_back hperm _ hexp'.2.1⟩

/-! ## The claims about relabeling -/

/-- C10: on a valid instance, for every permutation of the location labels
(given as the list `perm`, a permutation of `[0, N)`, of the original labels in
the order of the new ones), the relabeled instance has the same best reward
under `solve` as the original instance: `solve` prints a report for the
relabeled instance exactly when it prints one for the original instance, the
two reports have the same best reward, and both are printed when the times of
the instance fit in a 32-bit `int`. -/
theorem solve_relabel (data : ProblemData) (perm : List Nat) (hv : Valid data)
    (hperm : perm.Perm (List.range data.N)) :
    ((∃ rep, solve data = .ok (.printed rep)) ↔
      ∃ rep', solve (relabel data perm) = .ok (.printed rep')) ∧
    (∀ rep rep', solve data = .ok (.printed rep) →
      solve (relabel data perm) = .ok (.printed rep') →
      rep'.best_reward = rep.best_reward) ∧
    (TimesFit data → ∃ rep rep', solve data = .ok (.printed rep) ∧
      solve (relabel data perm) = .ok (.printed rep') ∧
      rep'.best_reward = rep.best_reward) := by
  have hv' := relabel_valid hv hperm
  have key : ∀ rep, solve data = .ok (.printed rep) →
      ∃ rep', solve (relabel data perm) = .ok (.printed rep') ∧
        rep'.best_reward = rep.best_reward := by
    intro rep hrep
    obtain ⟨s, hs, -, -, hbr, -, -, -, -⟩ := solve_report hrep
    obtain ⟨s', hs', heq, -, -, -⟩ := relabel_best hv hperm hs
    obtain ⟨r, ret, -, -, -, -, hsolve'⟩ := solve_of_search hv'.1 hs'
    exact ⟨_, hsolve', by rw [hbr]; exact heq⟩
  refine ⟨⟨?_, ?_⟩, ?_, ?_⟩
  · rintro ⟨rep, hrep⟩
    obtain ⟨rep', hrep', -⟩ := key rep hrep
    exact ⟨rep', hrep'⟩
  · rintro ⟨rep', hrep'⟩
    obtain ⟨s', hs', -, -, -, -, -, -, -⟩ := solve_report hrep'
    obtain ⟨s, hs⟩ := search_ok_iff.2 (unrelabel_noFault hv hperm (search_noFault hs'))
    obtain ⟨r, ret, -, -, -, -, hsolve⟩ := solve_of_search hv.1 hs
    exact ⟨_, hsolve⟩
  · intro rep rep' hrep hrep'
    obtain ⟨rep'', hrep'', heq⟩ := key rep hrep
    rw [hrep'] at hrep''
    simp only [Except.ok.injEq, Outcome.printed.injEq] at hrep''
    rw [hrep'']
    exact heq
  · intro hf
    obtain ⟨rep, hrep⟩ := solve_ok hv hf
    obtain ⟨rep', hrep', heq⟩ := key rep hrep
    exact ⟨rep, rep', hrep, hrep', heq⟩

theorem solve_relabel_witness :
    Valid twoSlots ∧ [1, 0].Perm (List.range twoSlots.N) ∧ TimesFit twoSlots ∧
    ∃ rep rep', solve twoSlots = .ok (.printed rep) ∧
      solve (relabel twoSlots [1, 0]) = .ok (.printed rep') ∧
      rep'.best_reward = rep.best_reward :=
  ⟨by decide, by decide, by decide,
    (solve_relabel twoSlots [1, 0] (by decide) (by decide)).2.2 (by decide)⟩

/-- C11 (counterexample): on the valid instance `twoSlots` the reported route
is `[0, 1]`; after exchanging the two labels the reported route is again
`[0, 1]`, whereas the image of the original route under the exchange is
`[1, 0]`. -/
theorem solve_relabel_route_differs :
    Valid twoSlots ∧ Small twoSlots ∧ [1, 0].Perm (List.range twoSlots.N) ∧
    solve twoSlots = .ok (.printed ⟨11, [0, 1],
      [⟨0, 3, 8, 5, 7, 7⟩, ⟨1, 10, 16, 6, 4, 11⟩], 11, 20⟩) ∧
    solve (relabel twoSlots [1, 0]) = .ok (.printed ⟨11, [0, 1],
      [⟨0, 4, 10, 6, 4, 4⟩, ⟨1, 12, 17, 5, 7, 11⟩], 11, 20⟩) ∧
    [0, 1].map (fun i => [1, 0].indexOf i) = [1, 0] :=
  ⟨by decide, by decide, by decide, rfl, rfl, rfl⟩

/-- C11 (amended): on a valid instance, for every permutation of the location
labels, whenever `solve` prints a report for the original instance (it does
when the times of the instance fit in a 32-bit `int`) it prints one for the
relabeled instance, and the route reported there is the image of a route of
the original instance that consists of distinct locations, has every non-empty
prefix passing the feasibility gate of the program and has the original best
reward as its reward (the sum of the rewards of its locations as a 32-bit
`int`); it is the image of the route reported for the original instance
whenever that route is the only such route. -/
theorem solve_relabel_route (data : ProblemData) (perm : List Nat) (hv : Valid data)
    (hperm : perm.Perm (List.range data.N)) :
    (TimesFit data → ∃ rep, solve data = .ok (.printed rep)) ∧
    ∀ rep, solve data = .ok (.printed rep) →
      ∃ rep' back, solve (relabel data perm) = .ok (.printed rep') ∧
        rep'.best_path = back.map (fun i => perm.indexOf i) ∧
        Explorable data back ∧ wrap (rewardSum data back) = rep.best_reward ∧
        ((∀ p, Explorable data p → wrap (rewardSum data p) = rep.best_reward →
            p = rep.best_path) →
          rep'.best_path = rep.best_path.map (fun i => perm.indexOf i)) := by
  have hv' := relabel_valid hv hperm
  refine ⟨solve_ok hv, ?_⟩
  intro rep hrep
  obtain ⟨s, hsearch, -, -, hbr, hbp, -, -, -⟩ := solve_report hrep
  obtain ⟨s', hs', -, hmap, hw, hback⟩ := relabel_best hv hperm hsearch
  obtain ⟨r, ret, -, -, -, -, hsolve'⟩ := solve_of_search hv'.1 hs'
  have hsum : wrap (rewardSum data (s'.best_path.map (fun j => perm.getD j 0))) =
      rep.best_reward := by
    rw [hbr, hw]
  refine ⟨_, s'.best_path.map (fun j => perm.getD j 0), hsolve', hback.symm, hmap, hsum, ?_⟩
  intro huniq
  have := huniq _ hmap hsum
  simp only at this ⊢
  rw [← this]
  exact hback.symm

theorem solve_relabel_route_witness :
    Valid detour ∧ [1, 0].Perm (List.range detour.N) ∧
    ∃ rep rep', solve detour = .ok (.printed rep) ∧
      solve (relabel detour [1, 0]) = .ok (.printed rep') ∧
      rep'.best_path = rep.best_path.map (fun i => [1, 0].indexOf i) := by
  refine ⟨by decide, by decide, ?_⟩
  have hrep : solve detour = .ok (.printed ⟨1, [1], [⟨1, 1, 1, 0, 1, 1⟩], 1, 2⟩) := rfl
  obtain ⟨rep', back, h2, -, -, -, h6⟩ :=
    (solve_relabel_route detour [1, 0] (by decide) (by decide)).2 _ hrep
  refine ⟨_, rep', hrep, h2, h6 ?_⟩
  intro p hp hsum
  have hv : Valid detour := by decide
  have hf : Small detour := by decide
  have hp' := (explorable_exact hv hf.1 p).1.1 hp
  rw [wrap_rewardSum hv hf.2 hp.1 hp.2.1] at hsum
  simp only at hsum ⊢
  have hr : ∀ x ∈ p, x < 2 := hp.2.1
  have hnd := hp.1
  clear hp
  match p, hp', hsum, hr, hnd with
  | [], _, hsum, _, _ => exact absurd hsum (by decide)
  | [a], _, hsum, hr, _ =>
    have ha := hr a (by simp)
    interval_cases a
    · exact absurd hsum (by decide)
    · rfl
  | [a, b], hp', _, hr, _ =>
    have ha := hr a (by simp)
    have hb := hr b (by simp)
    interval_cases a <;> interval_cases b <;> exact absurd hp' (by decide)
  | a :: b :: c :: rest, _, _, hr, hnd =>
    have ha := hr a (by simp)
    have hb := hr b (by simp)
    have hc := hr c (by simp)
    simp only [List.nodup_cons, List.mem_cons, not_or] at hnd
    omega

/-! ## Pareto pruning -/

theorem candidate_some {data : ProblemData} {mask : Nat} {loc time : Int} {current : State}
    {x : Nat} {key : Key} {w : Int} (h : candidate data mask loc time current x = some (key, w)) :
    mask.testBit x = false ∧ ∃ a d ret v, extendTimes data loc time x = .ok (a, d) ∧
      at2 data.travel_time ((x : Int) + 1) 0 = .ok ret ∧ add32 d ret ≤ data.T ∧
      at1 data.rewards (x : Int) = .ok v ∧ key = (mask ||| (1 <<< x), (x : Int), d) ∧
      w = add32 current.reward v := by
  unfold candidate at h
  split at h
  · cases h
  · rename_i hnv
    have hb : mask.testBit x = false := by
      cases hbit : mask.testBit x with
      | false => rfl
      | true => exact absurd ((visited_iff mask x).2 hbit) hnv
    refine ⟨hb, ?_⟩
    split at h
    · rename_i a d ret v he hret hv
      split at h
      · cases h
      · rename_i hgate
        simp only [Option.some.injEq, Prod.mk.injEq] at h
        exact ⟨a, d, ret, v, he, hret, by omega, hv, h.1.symm, h.2.symm⟩
    · cases h

theorem dominated_true {tw : Table × List Key} {key : Key} {w : Int}
    (h : dominated tw key w = true) :
    ∃ k, k ∈ tw.2 ∧ k.1 = key.1 ∧ k.2.1 = key.2.1 ∧ k.2.2 ≤ key.2.2 := by
  unfold dominated at h
  rw [List.any_eq_true] at h
  obtain ⟨k, hk, hcond⟩ := h
  simp only [Bool.and_eq_true, decide_eq_true_eq] at hcond
  exact ⟨k, hk, hcond.1.1.1, hcond.1.1.2, hcond.1.2⟩

/-- A pruned candidate step does nothing or does what the unpruned step does. -/
theorem prunedVisit_cases {data : ProblemData} {mask : Nat} {loc time : Int} {current : State}
    {tw tw' : Table × List Key} {x : Nat}
    (h : prunedVisit data mask loc time current tw x = .ok tw') :
    tw' = tw ∨ visit data mask loc time current tw x = .ok tw' := by
  unfold prunedVisit at h
  split at h
  · split at h
    · cases h
      exact Or.inl rfl
    · exact Or.inr h
  · exact Or.inr h

theorem prunedVisit_inv {data : ProblemData} {mask : Nat} {loc time : Int}
    {current : State} (hcur : EntryOK data (mask, loc, time) current)
    {tw : Table × List Key} (htw : TableInv data tw.1 tw.2)
    (hin : tw.1 (mask, loc, time) = some current) {x : Nat} (hx : x < data.N)
    (hev : mask.testBit x = false → ∃ a d ret, extendTimes data loc time x = .ok (a, d) ∧
        at2 data.travel_time ((x : Int) + 1) 0 = .ok ret ∧
        (add32 d ret ≤ data.T → ∃ v, at1 data.rewards (x : Int) = .ok v)) :
    ∃ tw', prunedVisit data mask loc time current tw x = .ok tw' ∧
      TableInv data tw'.1 tw'.2 ∧
      (∀ k st, tw.1 k = some st → tw'.1 k = some st) ∧
      (∃ added, tw'.2 = tw.2 ++ added) ∧
      (mask.testBit x = false → ∀ d, GateOpen data loc time x d →
        ∃ k, k ∈ tw'.2 ∧ k.1 = mask ||| (1 <<< x) ∧ k.2.1 = (x : Int) ∧ k.2.2 ≤ d) := by
  obtain ⟨tw1, h1⟩ := @visit_ok data mask loc time current tw x hev
  obtain ⟨hinv1, hkeep1, hcase1, hdone1⟩ := visit_inv hcur htw hin hx h1
  have hadd1 : ∃ added, tw1.2 = tw.2 ++ added := by
    rcases hcase1 with heq | ⟨d, st, -, heq⟩
    · exact ⟨[], by rw [heq]; simp⟩
    · exact ⟨[_], by rw [heq]⟩
  have hplain : prunedVisit data mask loc time current tw x =
      visit data mask loc time current tw x →
      ∃ tw', prunedVisit data mask loc time current tw x = .ok tw' ∧
        TableInv data tw'.1 tw'.2 ∧
        (∀ k st, tw.1 k = some st → tw'.1 k = some st) ∧
        (∃ added, tw'.2 = tw.2 ++ added) ∧
        (mask.testBit x = false → ∀ d, GateOpen data loc time x d →
          ∃ k, k ∈ tw'.2 ∧ k.1 = mask ||| (1 <<< x) ∧ k.2.1 = (x : Int) ∧ k.2.2 ≤ d) := by
    intro heq
    refine ⟨tw1, by rw [heq, h1], hinv1, hkeep1, hadd1, ?_⟩
    intro hb d hd
    exact ⟨_, hdone1 hb d hd, rfl, rfl, le_refl _⟩
  cases hcand : candidate data mask loc time current x with
  | none =>
    apply hplain
    simp only [prunedVisit, hcand]
  | some kw =>
    obtain ⟨key, w⟩ := kw
    by_cases hdom : dominated tw key w = true
    · refine ⟨tw, by simp only [prunedVisit, hcand, hdom, if_true], htw, fun _ _ h => h,
        ⟨[], by simp⟩, ?_⟩
      intro _ d hd
      obtain ⟨-, a, d0, ret, v, he, hret, -, -, hkey, -⟩ := candidate_some hcand
      obtain ⟨a', ret', he', -, -⟩ := hd
      rw [he] at he'
      simp only [Except.ok.injEq, Prod.mk.injEq] at he'
      obtain ⟨k, hk, hk1, hk2, hk3⟩ := dominated_true hdom
      rw [hkey] at hk1 hk2 hk3
      simp only at hk1 hk2 hk3
      exact ⟨k, hk, hk1, hk2, by rw [← he'.2]; exact hk3⟩
    · apply hplain
      simp only [prunedVisit, hcand, hdom, Bool.false_eq_true, if_false]

theorem prunedExpand_inv {data : ProblemData} {mask : Nat} {loc time : Int}
    {current : State} (hcur : EntryOK data (mask, loc, time) current)
    (cands : List Nat) (hc : ∀ x ∈ cands, x < data.N)
    (hev : ∀ x ∈ cands, mask.testBit x = false →
      ∃ a d ret, extendTimes data loc time x = .ok (a, d) ∧
        at2 data.travel_time ((x : Int) + 1) 0 = .ok ret ∧
        (add32 d ret ≤ data.T → ∃ v, at1 data.rewards (x : Int) = .ok v))
    {tw : Table × List Key} (htw : TableInv data tw.1 tw.2)
    (hin : tw.1 (mask, loc, time) = some current) :
    ∃ tw', prunedExpand data mask loc time current cands tw = .ok tw' ∧
      TableInv data tw'.1 tw'.2 ∧
      (∀ k st, tw.1 k = some st → tw'.1 k = some st) ∧
      (∃ added, tw'.2 = tw.2 ++ added) ∧
      (∀ x ∈ cands, mask.testBit x = false → ∀ d, GateOpen data loc time x d →
        ∃ k, k ∈ tw'.2 ∧ k.1 = mask ||| (1 <<< x) ∧ k.2.1 = (x : Int) ∧ k.2.2 ≤ d) := by
  induction cands generalizing tw with
  | nil => exact ⟨tw, rfl, htw, fun _ _ h => h, ⟨[], by simp⟩, by simp⟩
  | cons x rest ih =>
    obtain ⟨tw1, h1, hinv1, hkeep1, ⟨add1, hadd1⟩, hdone1⟩ :=
      prunedVisit_inv hcur htw hin (hc x (List.mem_cons_self _ _))
        (hev x (List.mem_cons_self _ _))
    obtain ⟨tw2, h2, hinv2, hkeep2, ⟨add2, hadd2⟩, hdone2⟩ :=
      ih (fun y hy => hc y (List.mem_cons_of_mem _ hy))
        (fun y hy => hev y (List.mem_cons_of_mem _ hy)) hinv1 (hkeep1 _ _ hin)
    refine ⟨tw2, by simp [prunedExpand, h1, h2], hinv2,
      fun k st h => hkeep2 k st (hkeep1 k st h), ⟨add1 ++ add2, by
      rw [hadd2, hadd1, List.append_assoc]⟩, ?_⟩
    intro y hy hb d hd
    rcases List.mem_cons.1 hy with rfl | hy'
    · obtain ⟨k, hk, hk1, hk2, hk3⟩ := hdone1 hb d hd
      exact ⟨k, by rw [hadd2]; exact List.mem_append_left _ hk, hk1, hk2, hk3⟩
    · exact hdone2 y hy' hb d hd

theorem prunedExpand_added {data : ProblemData} {mask : Nat} {loc time : Int}
    {current : State} (cands : List Nat) {tw tw' : Table × List Key}
    (h : prunedExpand data mask loc time current cands tw = .ok tw') :
    ∃ added, tw'.2 = tw.2 ++ added ∧ added.length ≤ cands.length ∧
      ∀ k ∈ added, ∃ x ∈ cands, mask.testBit x = false ∧ k.1 = mask ||| (1 <<< x) := by
  induction cands generalizing tw with
  | nil =>
    simp only [prunedExpand, Except.ok.injEq] at h
    subst h
    exact ⟨[], by simp, by simp, by simp⟩
  | cons x rest ih =>
    simp only [prunedExpand] at h
    cases h1 : prunedVisit data mask loc time current tw x with
    | error e => simp [h1] at h
    | ok tw1 =>
      simp only [h1] at h
      obtain ⟨add2, hadd2, hlen2, hk2⟩ := ih h
      have hnothing : tw1 = tw → ∃ added, tw'.2 = tw.2 ++ added ∧
          added.length ≤ (x :: rest).length ∧
          ∀ k ∈ added, ∃ y ∈ x :: rest, mask.testBit y = false ∧
            k.1 = mask ||| (1 <<< y) := by
        intro heq
        subst heq
        refine ⟨add2, hadd2, by simp; omega, ?_⟩
        intro k hk
        obtain ⟨y, hy, hyb, hky⟩ := hk2 k hk
        exact ⟨y, List.mem_cons_of_mem _ hy, hyb, hky⟩
      rcases prunedVisit_cases h1 with heq | hvis
      · exact hnothing heq
      · rcases visit_cases hvis with heq | ⟨hb, a, d, ret, v, -, -, -, -, -, heq⟩
        · exact hnothing heq
        · subst heq
          refine ⟨(mask ||| (1 <<< x), (x : Int), d) :: add2, by simp [hadd2],
            by simp; omega, ?_⟩
          intro k hk
          rcases List.mem_cons.1 hk with rfl | hk'
          · exact ⟨x, List.mem_cons_self _ _, hb, rfl⟩
          · obtain ⟨y, hy, hyb, hky⟩ := hk2 k hk'
            exact ⟨y, List.mem_cons_of_mem _ hy, hyb, hky⟩

theorem prunedProcess_worklist {data : ProblemData} {s s' : Search} {key : Key}
    (h : prunedProcess data s key = .ok s') :
    s'.process_idx = s.process_idx + 1 ∧
    ∃ added, s'.states_to_process = s.states_to_process ++ added ∧ added.length ≤ data.N ∧
      ∀ k ∈ added, ∃ x, x < data.N ∧ key.1.testBit x = false ∧ k.1 = key.1 ||| (1 <<< x) := by
  unfold prunedProcess at h
  simp only at h
  cases hcur : s.dp key with
  | none =>
    simp only [hcur, Except.ok.injEq] at h
    subst h
    exact ⟨rfl, [], by simp, by simp, by simp⟩
  | some current =>
    simp only [hcur] at h
    cases hret : returnFrom data key.2.1 with
    | error e => simp [hret] at h
    | ok ret =>
      simp only [hret] at h
      split at h
      · cases h
      · rename_i tw hexp
        simp only [Except.ok.injEq] at h
        subst h
        obtain ⟨added, hadd, hlen, hk⟩ := prunedExpand_added _ hexp
        simp only at hadd
        refine ⟨?_, added, ?_, by simpa using hlen, ?_⟩
        · simp only []
          split <;> rfl
        · simp only [hadd]
          split <;> rfl
        · intro k hkm
          obtain ⟨x, hx, hb, hkx⟩ := hk k hkm
          exact ⟨x, List.mem_range.1 hx, hb, hkx⟩

/-- An iteration that dequeues one key and appends at most `N` keys, each with
one more location visited, strictly decreases the pending work. -/
theorem pending_decreases {data : ProblemData} {s s' : Search} {key : Key}
    (hkey : s.states_to_process[s.process_idx]? = some key)
    (hidx : s'.process_idx = s.process_idx + 1) {added : List Key}
    (hwl : s'.states_to_process = s.states_to_process ++ added)
    (hlen : added.length ≤ data.N)
    (hk : ∀ k ∈ added, ∃ x, x < data.N ∧ key.1.testBit x = false ∧
      k.1 = key.1 ||| (1 <<< x)) :
    pending data s' + 1 ≤ pending data s := by
  have hlt : s.process_idx < s.states_to_process.length := by
    by_contra hge
    rw [List.getElem?_eq_none (by omega)] at hkey
    cases hkey
  have hget : s.states_to_process[s.process_idx] = key := by
    rw [List.getElem?_eq_getElem hlt] at hkey
    exact Option.some.inj hkey
  have hdrop : s.states_to_process.drop s.process_idx =
      key :: s.states_to_process.drop (s.process_idx + 1) := by
    rw [← hget]
    exact List.drop_eq_getElem_cons hlt
  have hdrop' : s'.states_to_process.drop s'.process_idx =
      s.states_to_process.drop (s.process_idx + 1) ++ added := by
    rw [hidx, hwl, List.drop_append_of_le_length (by omega)]
  unfold pending
  rw [hdrop, hdrop']
  simp only [List.map_append, List.sum_append, List.map_cons, List.sum_cons]
  have hsum : ((added.map (fun k => workBound data.N (unvisited data.N k.1))).sum) + 1 ≤
      workBound data.N (unvisited data.N key.1) := by
    cases hr : unvisited data.N key.1 with
    | zero =>
      have hnil : added = [] := by
        cases added with
        | nil => rfl
        | cons k rest =>
          obtain ⟨x, hx, hb, hkx⟩ := hk k (List.mem_cons_self _ _)
          have := unvisited_lt hx hb
          omega
      subst hnil
      simp [workBound]
    | succ r =>
      have hbound : ∀ v ∈ added.map (fun k => workBound data.N (unvisited data.N k.1)),
          v ≤ workBound data.N r := by
        intro v hv
        obtain ⟨k, hkm, rfl⟩ := List.mem_map.1 hv
        obtain ⟨x, hx, hb, hkx⟩ := hk k hkm
        have := unvisited_lt hx hb
        rw [← hkx] at this
        exact workBound_mono data.N (by omega)
      have h1 := sum_le_length_mul _ _ hbound
      rw [List.length_map] at h1
      have h2 : added.length * workBound data.N r ≤ data.N * workBound data.N r :=
        Nat.mul_le_mul_right _ hlen
      simp only [workBound]
      omega
  omega

theorem initial_prunedInv (data : ProblemData) : PrunedInv data initial :=
  ⟨(initial_inv data).table, by simp [initial], by simp [initial],
    ⟨explorable_nil data, rfl⟩, by simp [initial], by simp [initial]⟩

theorem prunedProcess_inv {data : ProblemData} (hn : NoFault data) (hT : 0 ≤ data.T)
    {s : Search} (hs : PrunedInv data s) {key : Key}
    (hkey : s.states_to_process[s.process_idx]? = some key) :
    ∃ s', prunedProcess data s key = .ok s' ∧ PrunedInv data s' := by
  obtain ⟨mask, loc, time⟩ := key
  have hlt : s.process_idx < s.states_to_process.length := by
    by_contra hge
    rw [List.getElem?_eq_none (by omega)] at hkey
    cases hkey
  have hmem : (mask, loc, time) ∈ s.states_to_process := List.getElem?_mem hkey
  obtain ⟨current, hcur⟩ := hs.table.stored _ hmem
  have hentry := hs.table.entries _ _ hcur
  obtain ⟨hexp, hmask, hreach⟩ := hentry
  simp only at hmask hreach
  have hrew := reach_reward hreach
  obtain ⟨ret, hret, hle⟩ := (completes_of_reach hreach).1 (explorable_completes hT hexp)
  obtain ⟨-, hev⟩ := hn _ _ _ _ hexp hreach
  obtain ⟨br, bp, hbest, hbok, hbge, hbcur⟩ :
      ∃ br bp, (if add32 time ret ≤ data.T ∧ current.reward > s.best_reward then
          ({ s with process_idx := s.process_idx + 1, best_reward := current.reward,
                    best_path := current.path } : Search)
        else { s with process_idx := s.process_idx + 1 }) =
          { s with process_idx := s.process_idx + 1, best_reward := br, best_path := bp } ∧
        (Explorable data bp ∧ br = wrap (rewardSum data bp)) ∧ s.best_reward ≤ br ∧
        current.reward ≤ br := by
    by_cases hc : add32 time ret ≤ data.T ∧ current.reward > s.best_reward
    · exact ⟨current.reward, current.path, by rw [if_pos hc], ⟨hexp, hrew⟩,
        le_of_lt hc.2, le_refl _⟩
    · refine ⟨s.best_reward, s.best_path, by rw [if_neg hc], hs.best_ok, le_refl _, ?_⟩
      by_contra hlt'
      exact hc ⟨hle, by omega⟩
  obtain ⟨tw', hexpand, htab, -, ⟨added, hadded⟩, hdone⟩ :=
    @prunedExpand_inv data mask loc time current ⟨hexp, hmask, hreach⟩ (List.range data.N)
      (fun x hx => List.mem_range.1 hx)
      (fun x hx hb => hev x (List.mem_range.1 hx) (by rw [← hmask]; exact hb))
      (s.dp, s.states_to_process) hs.table hcur
  simp only at hadded
  refine ⟨⟨tw'.1, br, bp, tw'.2, s.process_idx + 1⟩, ?_, ?_⟩
  · unfold prunedProcess
    simp only [hcur, hret, hbest, hexpand]
  · have htake : tw'.2.take (s.process_idx + 1) =
        s.states_to_process.take s.process_idx ++ [(mask, loc, time)] := by
      rw [hadded]; exact take_succ_append hkey
    refine ⟨htab, ?_, ?_, hbok, ?_, ?_⟩
    · simp only [hadded, List.length_append]; omega
    · simp only [hadded]; exact List.mem_append_left _ hs.root
    · intro k hk p hp hpk
      simp only [htake] at hk
      rcases List.mem_append.1 hk with h1 | h1
      · exact le_trans (hs.done_best k h1 p hp hpk) hbge
      · simp only [List.mem_singleton] at h1
        subst h1
        simp only at hpk
        have hsum : wrap (rewardSum data p) = current.reward := by
          rw [hrew]
          congr 1
          exact rewardSum_eq_of_mask hp.1 hexp.1 (by rw [hpk, hmask])
        rw [hsum]
        exact hbcur
    · intro k hk x hx hb d hd
      simp only [htake] at hk
      rcases List.mem_append.1 hk with h1 | h1
      · obtain ⟨k', hk', hrest⟩ := hs.done_next k h1 x hx hb d hd
        exact ⟨k', by simp only [hadded]; exact List.mem_append_left _ hk', hrest⟩
      · simp only [List.mem_singleton] at h1
        subst h1
        exact hdone x (List.mem_range.2 hx) hb d hd

theorem prunedLoop_ok {data : ProblemData} (hn : NoFault data) (hT : 0 ≤ data.T) (fuel : Nat)
    (s : Search) (hs : PrunedInv data s) (hfuel : pending data s ≤ fuel) :
    ∃ s', prunedLoop data fuel s = .ok s' ∧ PrunedInv data s' ∧
      s'.states_to_process.length ≤ s'.process_idx := by
  induction fuel generalizing s with
  | zero =>
    cases hkey : s.states_to_process[s.process_idx]? with
    | none =>
      refine ⟨s, by simp [prunedLoop, hkey], hs, ?_⟩
      exact List.getElem?_eq_none_iff.1 hkey
    | some key =>
      exfalso
      have hlt : s.process_idx < s.states_to_process.length := by
        by_contra hge
        rw [List.getElem?_eq_none (by omega)] at hkey
        cases hkey
      have hpos : 1 ≤ pending data s := by
        unfold pending
        rw [List.drop_eq_getElem_cons hlt]
        simp only [List.map_cons, List.sum_cons]
        have := workBound_pos data.N (unvisited data.N (s.states_to_process[s.process_idx]).1)
        omega
      omega
  | succ fuel ih =>
    cases hkey : s.states_to_process[s.process_idx]? with
    | none =>
      refine ⟨s, by simp [prunedLoop, hkey], hs, ?_⟩
      exact List.getElem?_eq_none_iff.1 hkey
    | some key =>
      obtain ⟨s1, hproc, hinv1⟩ := prunedProcess_inv hn hT hs hkey
      obtain ⟨hidx, added, hwl, hlen, hk⟩ := prunedProcess_worklist hproc
      have hdec := pending_decreases hkey hidx hwl hlen hk
      obtain ⟨s', hloop, hinv', hend⟩ := ih s1 hinv1 (by omega)
      exact ⟨s', by simp [prunedLoop, hkey, hproc, hloop], hinv', hend⟩

/-- On a valid instance whose times fit the pruned search ends without a
fault. -/
theorem prunedSearch_ok {data : ProblemData} (hv : Valid data) (hf : TimesFit data) :
    ∃ s, prunedSearch data = .ok s ∧ PrunedInv data s ∧
      s.states_to_process.length ≤ s.process_idx := by
  have hT : 0 ≤ data.T := by have := hv.2.1; omega
  unfold prunedSearch
  exact prunedLoop_ok (noFault_of_fit hv hf) hT _ initial (initial_prunedInv data)
    (le_of_eq (pending_initial data))

theorem trueSlot_mono {data : ProblemData} (hv : Valid data) {a1 a2 : Int} (h0 : 0 ≤ a1)
    (h12 : a1 ≤ a2) :
    0 ≤ trueSlot data a1 ∧ trueSlot data a1 ≤ trueSlot data a2 ∧
      trueSlot data a2 < data.S := by
  have hT := hv.2.1
  have hS := hv.2.2.1
  have hd : 0 < (data.T + data.S - 1) / data.S := by
    have : 1 ≤ (data.T + data.S - 1) / data.S := Int.le_ediv_of_mul_le (by omega) (by omega)
    omega
  unfold trueSlot
  refine ⟨le_min (Int.ediv_nonneg h0 (le_of_lt hd)) (by omega),
    min_le_min (Int.ediv_le_ediv hd h12) (le_refl _), ?_⟩
  have := min_le_right (a2 / ((data.T + data.S - 1) / data.S)) (data.S - 1)
  omega

theorem stayD_mono {data : ProblemData} (hv : Valid data) (hmono : StayMonotone data) {x : Nat}
    (hx : x < data.N) {i j : Nat} (hij : i ≤ j) (hj : (j : Int) < data.S) :
    stayD data x i ≤ stayD data x j := by
  have hlen : x < data.stay_time.length := by rw [hv.2.2.2.2.2.2.1]; exact hx
  have hrow : data.stay_time[x] ∈ data.stay_time := List.getElem_mem hlen
  have hS := (hv.2.2.2.2.2.2.2 _ hrow).1
  have hp := hmono _ hrow
  have hjl : j < data.stay_time[x].length := by omega
  have hil : i < data.stay_time[x].length := by omega
  unfold stayD
  rw [List.getD_eq_getElem _ _ hlen, List.getD_eq_getElem _ _ hil, List.getD_eq_getElem _ _ hjl]
  rcases Nat.lt_or_eq_of_le hij with hlt | heq
  · exact List.pairwise_iff_getElem.1 hp i j hil hjl hlt
  · subst heq
    exact le_refl _

/-- With stays that do not decrease from slot to slot, leaving a place earlier
never means leaving the next location later. -/
theorem trueStep_mono {data : ProblemData} (hv : Valid data) (hmono : StayMonotone data)
    {x : Nat} (hx : x < data.N) (r : Nat) {t1 t2 : Int} (h0 : 0 ≤ t1) (h12 : t1 ≤ t2) :
    (trueStep data (r, t1) x).2 ≤ (trueStep data (r, t2) x).2 := by
  have htr := travelD_nonneg hv r (x + 1)
  obtain ⟨hs0, hs12, hs2⟩ := @trueSlot_mono data hv (t1 + travelD data r (x + 1))
    (t2 + travelD data r (x + 1)) (by omega) (by omega)
  have hst := @stayD_mono data hv hmono x hx
    (trueSlot data (t1 + travelD data r (x + 1))).toNat
    (trueSlot data (t2 + travelD data r (x + 1))).toNat (by omega) (by omega)
  simp only [trueStep]
  omega

/-- With stays that do not decrease from slot to slot, at the end of the
pruned search every reachable route is covered by a key of the worklist with
its mask and last location and a time that is not later. -/
theorem pruned_covers {data : ProblemData} (hv : Valid data) (hf : TimesFit data)
    (hmono : StayMonotone data) {s : Search} (hs : PrunedInv data s)
    (hend : s.states_to_process.length ≤ s.process_idx) (p : List Nat)
    (hp : Explorable data p) :
    ∃ k, k ∈ s.states_to_process ∧ k.1 = maskOf p ∧ k.2.1 = lastLoc p ∧
      k.2.2 ≤ (trueEnd data p).2 := by
  have hall : s.states_to_process.take s.process_idx = s.states_to_process :=
    List.take_of_length_le hend
  induction p using List.reverseRecOn with
  | nil => exact ⟨(0, -1, 0), hs.root, rfl, rfl, le_refl _⟩
  | append_singleton q x ih =>
    obtain ⟨hq, hxq, hx, hcomp⟩ := explorable_snoc.1 hp
    obtain ⟨k, hk, hm, hl, hkt⟩ := ih hq
    obtain ⟨w, hreach, hrow, h0, hle, -, -⟩ := (explorable_exact hv hf q).2 hq
    obtain ⟨a, d, ret, he, hret, hstep, -, -, -, hret0, hadd⟩ :=
      extend_exact hv hf (lastLoc_ok hq.2.1) h0 hle hx
    have hreach' := reach_snoc hreach he (rewards_ok hv hx)
    obtain ⟨ret', hret', hgate⟩ := (completes_of_reach hreach').1 hcomp
    rw [returnFrom_loc, hret] at hret'
    cases hret'
    obtain ⟨st, hst⟩ := hs.table.stored k hk
    obtain ⟨hexpk, -, hreachk⟩ := hs.table.entries k st hst
    obtain ⟨hlock, htk0, htkT, -⟩ := reach_fit hv hf hexpk hreachk
    obtain ⟨a', d', ret'', he', hret'', hstep', -, -, -, -, hadd'⟩ :=
      extend_exact hv hf hlock htk0 htkT hx
    rw [hret] at hret''
    cases hret''
    have hdd : d' ≤ d := by
      have h1 := @trueStep_mono data hv hmono x hx (k.2.1 + 1).toNat k.2.2
        (trueEnd data q).2 htk0 hkt
      rw [hstep', hl, hstep] at h1
      exact h1
    have hb : k.1.testBit x = false := by
      rw [hm]
      cases hbit : (maskOf q).testBit x with
      | false => rfl
      | true => exact absurd ((testBit_maskOf q x).1 hbit) hxq
    obtain ⟨k', hk', hk1, hk2, hk3⟩ :=
      hs.done_next k (by rw [hall]; exact hk) x hx hb d'
        ⟨a', ret, he', by rw [returnFrom_loc]; exact hret, by rw [hadd']; rw [hadd] at hgate; omega⟩
    refine ⟨k', hk', ?_, by rw [lastLoc_snoc]; exact hk2, ?_⟩
    · rw [hk1, hm, maskOf_snoc]
    · have hend' : trueEnd data (q ++ [x]) = (x + 1, d) := by
        rw [trueEnd_snoc, ← hstep, ← hrow]
      rw [hend']
      simp only
      omega

/-- The pruned search never finds more than the search of `solve`. -/
theorem pruned_le {data : ProblemData} (hT : 0 ≤ data.T) {s sp : Search}
    (hs : Inv data s) (hend : s.states_to_process.length ≤ s.process_idx)
    (hsp : PrunedInv data sp) : sp.best_reward ≤ s.best_reward := by
  rw [hsp.best_ok.2]
  exact search_optimal hs hend _ hsp.best_ok.1 (explorable_completes hT hsp.best_ok.1)

/-! ## The claim about Pareto pruning -/

/-- C18 (counterexample): two valid instances on which Pareto pruning changes
the best reward. On `slotTrap`, on which no sum overflows, the search of
`solve` reports the best reward 13 with the route `[1, 0, 2, 3]`, while the
search with Pareto pruning ends with the best reward 3 and the route
`[0, 1, 2]`: the state of `[1, 0, 2]` is dropped because the state of
`[0, 1, 2]` has the same mask, last location and reward and an earlier time,
but only the later one reaches location 3 in the slot with the short stay. On
`wrapTrap`, which has one slot and no stays, the search of `solve` reports 13
with the route `[1, 0, 2, 3]` and the pruned search ends with 12 and the route
`[1, 0, 3]`: again the state of `[1, 0, 2]` is dropped for the earlier state of
`[0, 1, 2]`, and only from the later one does the 32-bit sum of the gate wrap
around and let location 3 pass. -/
theorem pruned_search_loses_reward :
    (Valid slotTrap ∧ Small slotTrap ∧
      solve slotTrap = .ok (.printed ⟨13, [1, 0, 2, 3],
        [⟨1, 20, 20, 0, 1, 1⟩, ⟨0, 40, 40, 0, 1, 2⟩, ⟨2, 41, 41, 0, 1, 3⟩,
          ⟨3, 51, 51, 0, 10, 13⟩], 13, 52⟩) ∧
      prunedSearch slotTrap = .ok slotTrapPruned ∧
      slotTrapPruned.best_reward = 3 ∧ slotTrapPruned.best_path = [0, 1, 2]) ∧
    (Valid wrapTrap ∧ StayMonotone wrapTrap ∧
      solve wrapTrap = .ok (.printed ⟨13, [1, 0, 2, 3],
        [⟨1, 1, 1, 0, 1, 1⟩, ⟨0, 1000000001, 1000000001, 0, 1, 2⟩,
          ⟨2, 1000000002, 1000000002, 0, 1, 3⟩, ⟨3, 1000000003, 1000000003, 0, 10, 13⟩],
        13, -1147483693⟩) ∧
      prunedSearch wrapTrap = .ok wrapTrapPruned ∧
      wrapTrapPruned.best_reward = 12 ∧ wrapTrapPruned.best_path = [1, 0, 3]) :=
  ⟨⟨by decide, by decide, rfl, rfl, rfl, rfl⟩, ⟨by decide, by decide, rfl, rfl, rfl, rfl⟩⟩

/-- C18 (amended): on a valid instance whose times fit in a 32-bit `int` and
whose stay times do not decrease from one slot to the next, the search with
Pareto pruning added (a newly generated state is dropped when a retained state
with the same mask and last location has a reward that is greater or equal and
a time that is less or equal) ends without a fault with the same best reward
as the search of `solve`. -/
theorem pruned_search_same_reward (data : ProblemData) (hv : Valid data)
    (hf : TimesFit data) (hmono : StayMonotone data) :
    ∃ rep sp, solve data = .ok (.printed rep) ∧ prunedSearch data = .ok sp ∧
      sp.best_reward = rep.best_reward := by
  have hT : 0 ≤ data.T := by have := hv.2.1; omega
  obtain ⟨rep, hrep⟩ := solve_ok hv hf
  obtain ⟨s, -, hinv, hend, hbr, -, -, -, -⟩ := solve_report hrep
  obtain ⟨sp, hsp, hpinv, hpend⟩ := prunedSearch_ok hv hf
  refine ⟨rep, sp, hrep, hsp, ?_⟩
  rw [hbr]
  apply le_antisymm
  · exact pruned_le hT hinv hend hpinv
  · obtain ⟨hexp, loc, t, hreach⟩ := hinv.best_ok
    obtain ⟨k, hk, hm, -, -⟩ := pruned_covers hv hf hmono hpinv hpend s.best_path hexp
    have hall : sp.states_to_process.take sp.process_idx = sp.states_to_process :=
      List.take_of_length_le hpend
    have := hpinv.done_best k (by rw [hall]; exact hk) s.best_path hexp hm.symm
    rw [reach_reward hreach]
    exact this

theorem pruned_search_same_reward_witness :
    Valid risingStays ∧ TimesFit risingStays ∧ StayMonotone risingStays ∧
    ∃ rep sp, solve risingStays = .ok (.printed rep) ∧ prunedSearch risingStays = .ok sp ∧
      sp.best_reward = rep.best_reward :=
  ⟨by decide, by decide, by decide,
    pruned_search_same_reward risingStays (by decide) (by decide) (by decide)⟩

end Sched
